import Mathlib

/-!
Verification of the CONF JSON subsystem (src/nxt_conf_json.c) and the H1
protocol engine (src/nxt_h1proto.c).

Byte buffers are embedded as `List Nat` (each element a byte value < 256);
a C `(pos, end)` pointer pair becomes the suffix of the buffer starting at
`pos`, and a parser returns `Option (result × rest)` where `rest` is the
suffix starting at the returned position.  Machine integers are embedded as
`Nat`/`Int` with explicit wrap-arounds where the C arithmetic overflows.
Allocation never fails in the embedding, so the out-of-memory (`NXT_ERROR`)
paths of the C code are unreachable here.
-/

/-- ASCII bytes of a Lean string literal (all inputs used here are ASCII). -/
def bytes (s : String) : List Nat := s.toList.map Char.toNat

/-!  ## The value tree: struct nxt_conf_json_value_s

The C value is a tagged union (`nxt_conf_json_type_t`).  `shortString`
embeds the NXT_CONF_JSON_SHORT_STRING variant (inline `u.str`, length byte
plus at most 14 content bytes), `string` the NXT_CONF_JSON_STRING variant
(`u.string`, pointer + length).  Arrays and objects hold their elements and
members contiguously; here as the mutually inductive lists `CVals` and
`CMembers` (a member is a name value — always one of the two string
variants — plus a value, as in `nxt_conf_json_obj_member_t`). -/
mutual
inductive CVal where
  | null
  | boolean (b : Bool)
  | integer (i : Int)
  | number
  | shortString (s : List Nat)
  | string (s : List Nat)
  | array (elements : CVals)
  | object (members : CMembers)
  deriving DecidableEq
inductive CVals where
  | nil
  | cons (v : CVal) (tl : CVals)
  deriving DecidableEq
inductive CMembers where
  | nil
  | cons (name : CVal) (value : CVal) (tl : CMembers)
  deriving DecidableEq
end

/-- Number of elements (`nxt_conf_json_array_s.count`). -/
def CVals.length : CVals → Nat
  | .nil => 0
  | .cons _ tl => 1 + tl.length

/-- Number of members (`nxt_conf_json_object_s.count`). -/
def CMembers.length : CMembers → Nat
  | .nil => 0
  | .cons _ _ tl => 1 + tl.length

/-- Content bytes of a string value, as `nxt_conf_json_object_get_member`
and `nxt_conf_json_print_string` read them: `u.str[1..]` for a short
string, `u.string->start/length` for a long one.  The C code only ever
applies this to values of the two string types; other tags are modelled as
the empty string. -/
def CVal.strContent : CVal → List Nat
  | .shortString s => s
  | .string s => s
  | _ => []

/-- `nxt_conf_json_skip_space`: skip ' ', '\t', '\r', '\n'. -/
def nxt_conf_json_skip_space : List Nat → List Nat
  | [] => []
  | c :: tl =>
    if c = 32 ∨ c = 9 ∨ c = 13 ∨ c = 10 then nxt_conf_json_skip_space tl else c :: tl

/-!  ## String parsing: nxt_conf_json_parse_string

The C function makes two passes over the quoted span: a validating scan
that finds the closing quote and counts `surplus` (bytes of input that do
not make it into the decoded output, at most 1 per simple escape and 3 per
`\uXXXX`), then a decode pass over the same span. -/

/-- The scan states of `nxt_conf_json_parse_string` (sw_usual …
sw_encoded4). -/
inductive ScanState where
  | usual | escape | enc1 | enc2 | enc3 | enc4
  deriving DecidableEq

/-- Uppercase-hex digit test of the scan: '0'-'9' or 'A'-'F'. -/
def hexUC (c : Nat) : Bool := (48 ≤ c ∧ c ≤ 57) ∨ (65 ≤ c ∧ c ≤ 70)

/-- The validating first pass: from the byte after the opening quote,
return (span bytes strictly before the closing quote, surplus, rest after
the closing quote), or `none` when the string is unterminated or contains
an invalid byte or escape.  Mirrors the `for (last = pos; …)` loop. -/
def strScan : List Nat → ScanState → Option (List Nat × Nat × List Nat)
  | [], _ => none
  | ch :: tl, st =>
    match st with
    | .usual =>
      if ch = 34 then some ([], 0, tl)
      else if ch = 92 then
        (strScan tl .escape).map (fun r => (ch :: r.1, r.2.1, r.2.2))
      else if 32 ≤ ch then
        (strScan tl .usual).map (fun r => (ch :: r.1, r.2.1, r.2.2))
      else none
    | .escape =>
      if ch = 34 ∨ ch = 92 ∨ ch = 47 ∨ ch = 110 ∨ ch = 114 ∨ ch = 116 ∨ ch = 98 ∨ ch = 102 then
        (strScan tl .usual).map (fun r => (ch :: r.1, r.2.1 + 1, r.2.2))
      else if ch = 117 then
        (strScan tl .enc1).map (fun r => (ch :: r.1, r.2.1 + 3, r.2.2))
      else none
    | .enc1 =>
      if hexUC ch then (strScan tl .enc2).map (fun r => (ch :: r.1, r.2.1, r.2.2)) else none
    | .enc2 =>
      if hexUC ch then (strScan tl .enc3).map (fun r => (ch :: r.1, r.2.1, r.2.2)) else none
    | .enc3 =>
      if hexUC ch then (strScan tl .enc4).map (fun r => (ch :: r.1, r.2.1, r.2.2)) else none
    | .enc4 =>
      if hexUC ch then (strScan tl .usual).map (fun r => (ch :: r.1, r.2.1, r.2.2)) else none

/-- One hex nibble as the decode pass of `nxt_conf_json_parse_string`
computes it: `pos[i] - (pos[i] >= 'A' ? 'A' : '0')`.  (Note: this maps
'A'-'F' to 0-5, not 10-15.) -/
def uhexNibble (c : Nat) : Nat := c - (if 65 ≤ c then 65 else 48)

/-- Four nibbles accumulated as `utf = (utf << 4) + nibble`. -/
def uhex4 (a b c d : Nat) : Nat :=
  ((uhexNibble a * 16 + uhexNibble b) * 16 + uhexNibble c) * 16 + uhexNibble d

/-- Modelled from the spec: `nxt_utf8_encode` (nxt_utf8.c is not under
src/) — "decoded to a code point and UTF-8 encoded".  Standard UTF-8
encoding of a code point. -/
def nxt_utf8_encode (cp : Nat) : List Nat :=
  if cp < 0x80 then [cp]
  else if cp < 0x800 then [0xc0 + cp / 64, 0x80 + cp % 64]
  else if cp < 0x10000 then [0xe0 + cp / 4096, 0x80 + cp / 64 % 64, 0x80 + cp % 64]
  else [0xf0 + cp / 262144, 0x80 + cp / 4096 % 64, 0x80 + cp / 64 % 64, 0x80 + cp % 64]

/-- The decode pass (`do { ch = *pos++; … } while (pos != last)`) over the
scanned span.  The scan has already validated the span, so an escape is
always followed by its full body; the truncated patterns at the end are
unreachable and modelled as failure.  In the `\u` case the C pair loop
runs at most twice (a second iteration always breaks because `utf_high`
is non-zero), so it is written out as one nested match: a decoded value
in D800-DBFF latches `utf_high` and, when `\u` follows immediately,
decodes the second escape and requires it in DC00-DFFF, combining the
pair as `((utf_high - 0xd800) << 10) + (utf - 0xdc00)`; any other
follower leaves `utf = 0`, which fails the DC00-DFFF check. -/
def strDecodeAux : Nat → List Nat → Option (List Nat)
  | 0, _ => none
  | fuel + 1, l =>
    match l with
    | [] => some []
    | ch :: tl =>
      if ch = 92 then
        match tl with
        | [] => none
        | e :: tl2 =>
          if e = 34 ∨ e = 92 ∨ e = 47 then (strDecodeAux fuel tl2).map (e :: ·)
          else if e = 110 then (strDecodeAux fuel tl2).map (10 :: ·)
          else if e = 114 then (strDecodeAux fuel tl2).map (13 :: ·)
          else if e = 116 then (strDecodeAux fuel tl2).map (9 :: ·)
          else if e = 98 then (strDecodeAux fuel tl2).map (8 :: ·)
          else if e = 102 then (strDecodeAux fuel tl2).map (12 :: ·)
          else if e = 117 then
            match tl2 with
            | a :: b :: c :: d :: tl3 =>
              let utf := uhex4 a b c d
              if utf < 0xd800 ∨ 0xdbff < utf then
                (strDecodeAux fuel tl3).map (nxt_utf8_encode utf ++ ·)
              else
                match tl3 with
                | x1 :: x2 :: a2 :: b2 :: c2 :: d2 :: tl4 =>
                  if x1 = 92 ∧ x2 = 117 then
                    let low := uhex4 a2 b2 c2 d2
                    if low < 0xdc00 ∨ 0xdfff < low then none
                    else
                      (strDecodeAux fuel tl4).map
                        (nxt_utf8_encode ((utf - 0xd800) * 1024 + (low - 0xdc00)) ++ ·)
                  else none
                | _ => none
            | _ => none
          else none
      else (strDecodeAux fuel tl).map (ch :: ·)

/-- The decode pass, with the fuel `length + 1` (each step consumes at
least one byte, so this always suffices; `strDecodeAux_congr` below). -/
def strDecode (l : List Nat) : Option (List Nat) := strDecodeAux (l.length + 1) l

/-- NXT_CONF_JSON_STR_SIZE. -/
def NXT_CONF_JSON_STR_SIZE : Nat := 14

/-- `nxt_conf_json_parse_string`: the byte at `pos` is the opening quote
(all callers have checked it); scan, choose the short or long variant by
`size = (last - pos) - surplus` (the pre-decode estimate, not the decoded
length), then decode when any escape is present.  Returns the value and
the rest after the closing quote. -/
def nxt_conf_json_parse_string (l : List Nat) : Option (CVal × List Nat) :=
  match l with
  | [] => none
  | _ :: tl =>
    match strScan tl .usual with
    | none => none
    | some (span, surplus, rest) =>
      let size := span.length - surplus
      if surplus = 0 then
        if size > NXT_CONF_JSON_STR_SIZE then some (.string span, rest)
        else some (.shortString span, rest)
      else
        match strDecode span with
        | none => none
        | some content =>
          if size > NXT_CONF_JSON_STR_SIZE then some (.string content, rest)
          else some (.shortString content, rest)

/-!  ## Number parsing: nxt_conf_json_parse_number -/

/-- `NXT_INT64_T_MAX / 10` and `NXT_INT64_T_MAX % 10`. -/
def numCutoff : Nat := 9223372036854775807 / 10
def numCutlim : Nat := 9223372036854775807 % 10

/-- The digit-accumulation loop of `nxt_conf_json_parse_number`: `ch` is
recomputed as the u_char `*p - '0'` (bytes below '0' wrap to ≥ 208) and
the loop breaks at the first non-digit.  Returns (accumulated magnitude,
number of digits consumed, rest from the break position), or `none` when
the cutoff check fires. -/
def numDigitLoop : List Nat → Nat → Nat → Option (Nat × Nat × List Nat)
  | [], acc, n => some (acc, n, [])
  | c :: tl, acc, n =>
    let ch := (c + 256 - 48) % 256
    if ch > 9 then some (acc, n, c :: tl)
    else if acc ≥ numCutoff ∧ (acc > numCutoff ∨ ch > numCutlim) then none
    else numDigitLoop tl (acc * 10 + ch) (n + 1)

/-- `nxt_conf_json_parse_number`.  After the loop the C code tests
`ch != '.'` where `ch` still holds `(u_char)(*p - '0')`: when the loop
consumed the whole input `ch` is the last digit value (≤ 9 ≠ 46), and
otherwise `ch = 46` exactly when the break byte is `'^'` (94 = 46 + '0');
for every other break byte the integer path is taken (the floating-point
body is compiled out and the function returns NULL).  The leading-zero
check is `p > pos + 1 && *pos == '0'`. -/
def nxt_conf_json_parse_number (l : List Nat) : Option (CVal × List Nat) :=
  let sign : Int := if l.head? = some 45 then -1 else 1
  let l1 := if l.head? = some 45 then l.drop 1 else l
  match numDigitLoop l1 0 0 with
  | none => none
  | some (acc, n, rest) =>
    if n = 0 then none
    else if n > 1 ∧ l1.head? = some 48 then none
    else
      match rest with
      | 94 :: _ => none
      | _ => some (.integer (sign * (acc : Int)), rest)

/-!  ## Value / object / array parsing

The C functions recurse on nesting; the embedding uses a fuel parameter
(decremented once per nested `parse_value` and per member/element loop
iteration).  Every loop iteration consumes at least one input byte, so
`input length + 1` fuel always suffices (`nxt_conf_json_parse` below). -/

/-- Append used when the temporary member/element collections are copied
into the output arrays. -/
def CMembers.push : CMembers → CVal → CVal → CMembers
  | .nil, n, v => .cons n v .nil
  | .cons n0 v0 tl, n, v => .cons n0 v0 (tl.push n v)

def CVals.push : CVals → CVal → CVals
  | .nil, v => .cons v .nil
  | .cons v0 tl, v => .cons v0 (tl.push v)

/-- Duplicate-key test of `nxt_conf_json_object_hash_add` /
`nxt_conf_json_object_hash_test`: the temporary lvlhsh is keyed by the
name's content bytes (`nxt_strstr_eq`), and inserting an existing key
returns NXT_DECLINED, which aborts the object parse. -/
def CMembers.hasKey : CMembers → List Nat → Bool
  | .nil, _ => false
  | .cons n _ tl, k => n.strContent = k ∨ tl.hasKey k

mutual

/-- `nxt_conf_json_parse_value`: dispatch on the first byte.  For 't',
'f' and 'n' the C condition is `end - pos >= N || nxt_memcmp(…) == 0`:
when at least N bytes remain the literal is accepted WITHOUT comparing the
bytes; with fewer than N bytes remaining the memcmp reads past the end of
the buffer (undefined behaviour), modelled as failure.  The number
dispatch is `ch == '-' || (ch - '0') <= 9` with `int` arithmetic, i.e.
every byte ≤ '9' (including bytes below '0') reaches parse_number. -/
def nxt_conf_json_parse_value (fuel : Nat) (l : List Nat) : Option (CVal × List Nat) :=
  match fuel with
  | 0 => none
  | fuel + 1 =>
    match l with
    | [] => none
    | ch :: _ =>
      if ch = 123 then nxt_conf_json_parse_object fuel l
      else if ch = 91 then nxt_conf_json_parse_array fuel l
      else if ch = 34 then nxt_conf_json_parse_string l
      else if ch = 116 then
        if 4 ≤ l.length then some (.boolean true, l.drop 4) else none
      else if ch = 102 then
        if 5 ≤ l.length then some (.boolean false, l.drop 5) else none
      else if ch = 110 then
        if 4 ≤ l.length then some (.null, l.drop 4) else none
      else if ch = 45 ∨ ch ≤ 57 then nxt_conf_json_parse_number l
      else none

/-- `nxt_conf_json_parse_object`: skip the '{', then either an empty
object or the member loop.  The temporary lvlhsh detects duplicate keys;
the members are then copied out in hash-iteration order.  Modelled from
the spec for the order only (nxt_lvlhsh.c is not under src/; the spec
leaves the iteration order unspecified and correctness-irrelevant): the
model emits members in insertion order. -/
def nxt_conf_json_parse_object (fuel : Nat) (l : List Nat) : Option (CVal × List Nat) :=
  match fuel with
  | 0 => none
  | fuel + 1 =>
    match nxt_conf_json_skip_space (l.drop 1) with
    | [] => none
    | 125 :: tl => some (.object .nil, tl)
    | pos => objMemberLoop fuel pos .nil

/-- The member loop of `nxt_conf_json_parse_object` (`pos` is at the
start of a member, which must be a '"'). -/
def objMemberLoop (fuel : Nat) (pos : List Nat) (acc : CMembers) : Option (CVal × List Nat) :=
  match fuel with
  | 0 => none
  | fuel + 1 =>
    match pos with
    | 34 :: _ =>
      match nxt_conf_json_parse_string pos with
      | none => none
      | some (name, p1) =>
        if acc.hasKey name.strContent then none
        else
          match nxt_conf_json_skip_space p1 with
          | 58 :: tl2 =>
            match nxt_conf_json_skip_space tl2 with
            | [] => none
            | p3 =>
              match nxt_conf_json_parse_value fuel p3 with
              | none => none
              | some (v, p4) =>
                match nxt_conf_json_skip_space p4 with
                | 125 :: tl5 => some (.object (acc.push name v), tl5)
                | 44 :: tl5 =>
                  match nxt_conf_json_skip_space tl5 with
                  | [] => none
                  | p6 => objMemberLoop fuel p6 (acc.push name v)
                | _ => none
          | _ => none
    | _ => none

/-- `nxt_conf_json_parse_array`: skip the '[', then either an empty array
or the element loop (elements are kept in source order). -/
def nxt_conf_json_parse_array (fuel : Nat) (l : List Nat) : Option (CVal × List Nat) :=
  match fuel with
  | 0 => none
  | fuel + 1 =>
    match nxt_conf_json_skip_space (l.drop 1) with
    | [] => none
    | 93 :: tl => some (.array .nil, tl)
    | pos => arrElementLoop fuel pos .nil

/-- The element loop of `nxt_conf_json_parse_array`. -/
def arrElementLoop (fuel : Nat) (pos : List Nat) (acc : CVals) : Option (CVal × List Nat) :=
  match fuel with
  | 0 => none
  | fuel + 1 =>
    match nxt_conf_json_parse_value fuel pos with
    | none => none
    | some (v, p1) =>
      match nxt_conf_json_skip_space p1 with
      | 93 :: tl => some (.array (acc.push v), tl)
      | 44 :: tl =>
        match nxt_conf_json_skip_space tl with
        | [] => none
        | p2 => arrElementLoop fuel p2 (acc.push v)
      | _ => none

end

/-- `nxt_conf_json_parse`: skip leading space, parse one value, require
only trailing space.  The C code has no fuel (recursion is bounded only
by the call stack); here every fuel decrement except the
value→array/object→loop chain (3 decrements per consumed `[`/`{` byte)
consumes at least one input byte, so `3 * length + 3` fuel always
suffices. -/
def nxt_conf_json_parse (l : List Nat) : Option CVal :=
  match nxt_conf_json_skip_space l with
  | [] => none
  | pos =>
    match nxt_conf_json_parse_value (3 * l.length + 3) pos with
    | none => none
    | some (v, rest) =>
      match nxt_conf_json_skip_space rest with
      | [] => some v
      | _ => none

/-!  ## Printing: nxt_conf_json_print_value and helpers

The C printer is two-phase: called with `pos == NULL` it returns the
number of bytes to reserve, called with a buffer it writes and returns the
end pointer.  The two phases are embedded as separate functions, `…_size`
for the sizing pass and the emit pass returning the written bytes.  The
pretty context (`nxt_conf_json_pretty_t`, fields `level` and `more_space`)
is `none` for compact printing; the sizing pass reads and restores only
`level`, so it takes the level as `Option Nat`; the emit pass threads the
whole context. -/

structure nxt_conf_json_pretty_t where
  level : Nat
  more_space : Bool
  deriving DecidableEq

/-- Sizing pass of `nxt_conf_json_escape` (`dst == NULL`): extra bytes the
escaped form needs beyond one per input byte — 1 for `\` and `"`, 1 for
the five mnemonic controls, `sizeof("\\u001F") - 2` = 5 for other
controls. -/
def nxt_conf_json_escape_size : List Nat → Nat
  | [] => 0
  | ch :: tl =>
    (if ch = 92 ∨ ch = 34 then 1
     else if ch ≤ 31 then
       if ch = 10 ∨ ch = 13 ∨ ch = 9 ∨ ch = 8 ∨ ch = 12 then 1 else 5
     else 0) + nxt_conf_json_escape_size tl

/-- Emit pass of `nxt_conf_json_escape`. -/
def nxt_conf_json_escape_emit : List Nat → List Nat
  | [] => []
  | ch :: tl =>
    (if ch > 31 then
       if ch = 92 ∨ ch = 34 then [92, ch] else [ch]
     else if ch = 10 then [92, 110]
     else if ch = 13 then [92, 114]
     else if ch = 9 then [92, 116]
     else if ch = 8 then [92, 98]
     else if ch = 12 then [92, 102]
     else [92, 117, 48, 48, 48 + ch / 16,
           if ch % 16 < 10 then 48 + ch % 16 else 65 + (ch % 16 - 10)])
      ++ nxt_conf_json_escape_emit tl

/-- Sizing pass of `nxt_conf_json_print_integer` (`pos == NULL`): an upper
bound from `llabs(num)` — 5 (`sizeof("-9999") - 1`) for magnitudes up to
9999, 12 for magnitudes up to 99999999999, else NXT_INT64_T_LEN = 20.
`llabs` is modelled as `Int.natAbs` (`llabs(INT64_MIN)` is undefined in
C; the parser never produces INT64_MIN). -/
def nxt_conf_json_print_integer_size (i : Int) : Nat :=
  let num := i.natAbs
  if num ≤ 9999 then 5 else if num ≤ 99999999999 then 12 else 20

/-- Decimal digits, most significant first, with a structural fuel (the
fuel `n + 1` always suffices since the argument shrinks every step). -/
def natDigitsAux : Nat → Nat → List Nat
  | 0, _ => []
  | fuel + 1, n =>
    if n < 10 then [48 + n] else natDigitsAux fuel (n / 10) ++ [48 + n % 10]

/-- Decimal digits of a natural number, most significant first (the digit
emission of `nxt_sprintf "%L"`; nxt_sprintf.c is not under src/ — modelled
from the spec: "Integers are printed in decimal"). -/
def natDigits (n : Nat) : List Nat := natDigitsAux (n + 1) n

theorem natDigitsAux_congr : ∀ f1 f2 n, n < f1 → n < f2 →
    natDigitsAux f1 n = natDigitsAux f2 n := by
  intro f1
  induction f1 with
  | zero => omega
  | succ f ih =>
    intro f2 n h1 h2
    cases f2 with
    | zero => omega
    | succ g =>
      simp only [natDigitsAux]
      by_cases h : n < 10
      · simp [h]
      · have hd : n / 10 < n := Nat.div_lt_self (by omega) (by omega)
        simp only [if_neg h]
        rw [ih g (n / 10) (by omega) (by omega)]

/-- The recursion equation of `natDigits`. -/
theorem natDigits_eq (n : Nat) :
    natDigits n = if n < 10 then [48 + n] else natDigits (n / 10) ++ [48 + n % 10] := by
  by_cases h : n < 10
  · simp [natDigits, natDigitsAux, h]
  · have hd : n / 10 < n := Nat.div_lt_self (by omega) (by omega)
    have h1 : natDigits n = natDigitsAux n (n / 10) ++ [48 + n % 10] := by
      simp [natDigits, natDigitsAux, h]
    rw [h1, if_neg h]
    unfold natDigits
    rw [natDigitsAux_congr n (n / 10 + 1) (n / 10) (by omega) (by omega)]

/-- Emit pass of `nxt_conf_json_print_integer`: `nxt_sprintf(pos, …, "%L",
num)` — signed decimal. -/
def nxt_conf_json_print_integer_emit (i : Int) : List Nat :=
  if i < 0 then 45 :: natDigits i.natAbs else natDigits i.natAbs

/-- Sizing pass of `nxt_conf_json_print_string`: `2 + len + escape(NULL)`.
The length/content extraction is the same for the short and long string
variants (`CVal.strContent`). -/
def nxt_conf_json_print_string_size (v : CVal) : Nat :=
  2 + v.strContent.length + nxt_conf_json_escape_size v.strContent

/-- Emit pass of `nxt_conf_json_print_string`: quote, escaped content,
quote. -/
def nxt_conf_json_print_string_emit (v : CVal) : List Nat :=
  34 :: nxt_conf_json_escape_emit v.strContent ++ [34]

mutual

/-- Sizing pass of `nxt_conf_json_print_value` (`pos == NULL`), with the
pretty nesting level (`none` = compact).  For arrays: 2 for the brackets,
per element the element size plus (pretty) `level + 2` at the incremented
level, after the loop (pretty, non-empty) `level + 2` back at the outer
level, plus `n` reserved comma slots.  For objects: 2 for the braces, per
member name + ':' + value + a comma slot plus (pretty) `level + 1 + 2 + 2`
at the incremented level, then unconditionally (pretty) `level + 2` at the
outer level. -/
def nxt_conf_json_print_value_size : CVal → Option Nat → Nat
  | .null, _ => 4
  | .boolean b, _ => if b then 4 else 5
  | .integer i, _ => nxt_conf_json_print_integer_size i
  | .number, _ => 0
  | .shortString s, _ => nxt_conf_json_print_string_size (.shortString s)
  | .string s, _ => nxt_conf_json_print_string_size (.string s)
  | .array es, lvl =>
    2 + arrElemsSize es (lvl.map (· + 1)) +
      (match lvl with
       | some L => if es.length ≠ 0 then L + 2 else 0
       | none => 0) + es.length
  | .object ms, lvl =>
    2 + objMembersSize ms (lvl.map (· + 1)) +
      (match lvl with
       | some L => L + 2
       | none => 0)

/-- Per-element sizing of the array loop (`lvl` already incremented). -/
def arrElemsSize : CVals → Option Nat → Nat
  | .nil, _ => 0
  | .cons e tl, lvl =>
    nxt_conf_json_print_value_size e lvl +
      (match lvl with
       | some L1 => L1 + 2
       | none => 0) + arrElemsSize tl lvl

/-- Per-member sizing of the object loop (`lvl` already incremented). -/
def objMembersSize : CMembers → Option Nat → Nat
  | .nil, _ => 0
  | .cons n v tl, lvl =>
    nxt_conf_json_print_string_size n + 1 + nxt_conf_json_print_value_size v lvl + 1 +
      (match lvl with
       | some L1 => L1 + 5
       | none => 0) + objMembersSize tl lvl

end

mutual

/-- Emit pass of `nxt_conf_json_print_value`, threading the pretty
context exactly as the C code mutates it (level incremented inside a
non-empty array/object and restored before the closing bracket;
`more_space` set after a non-empty array/object and cleared before
non-first nested siblings). -/
def nxt_conf_json_print_value_emit :
    CVal → Option nxt_conf_json_pretty_t → List Nat × Option nxt_conf_json_pretty_t
  | .null, p => ([110, 117, 108, 108], p)
  | .boolean b, p => (if b then [116, 114, 117, 101] else [102, 97, 108, 115, 101], p)
  | .integer i, p => (nxt_conf_json_print_integer_emit i, p)
  | .number, p => ([], p)
  | .shortString s, p => (nxt_conf_json_print_string_emit (.shortString s), p)
  | .string s, p => (nxt_conf_json_print_string_emit (.string s), p)
  | .array .nil, p => ([91, 93], p)
  | .array (.cons e0 tl), p =>
    let pre : List Nat × Option nxt_conf_json_pretty_t :=
      match p with
      | some pr => ([13, 10] ++ List.replicate (pr.level + 1) 9,
                    some ⟨pr.level + 1, pr.more_space⟩)
      | none => ([], none)
    let r0 := nxt_conf_json_print_value_emit e0 pre.2
    let r1 := arrRestEmit tl r0.2
    let post : List Nat × Option nxt_conf_json_pretty_t :=
      match r1.2 with
      | some pr => ([13, 10] ++ List.replicate (pr.level - 1) 9,
                    some ⟨pr.level - 1, true⟩)
      | none => ([], none)
    (91 :: (pre.1 ++ r0.1 ++ r1.1 ++ post.1) ++ [93], post.2)
  | .object .nil, p => ([123, 125], p)
  | .object (.cons n v tl), p =>
    let pre : List Nat × Option nxt_conf_json_pretty_t :=
      match p with
      | some pr => ([13, 10], some ⟨pr.level + 1, pr.more_space⟩)
      | none => ([], none)
    let r := objMembersEmit (.cons n v tl) pre.2
    let post : List Nat × Option nxt_conf_json_pretty_t :=
      match r.2 with
      | some pr => ([13, 10] ++ List.replicate (pr.level - 1) 9,
                    some ⟨pr.level - 1, true⟩)
      | none => ([], none)
    (123 :: (pre.1 ++ r.1 ++ post.1) ++ [125], post.2)

/-- Array elements after the first: `','`, pretty newline + indentation +
`more_space = 0`, then the element. -/
def arrRestEmit :
    CVals → Option nxt_conf_json_pretty_t → List Nat × Option nxt_conf_json_pretty_t
  | .nil, p => ([], p)
  | .cons e tl, p =>
    let mid : List Nat × Option nxt_conf_json_pretty_t :=
      match p with
      | some pr => ([13, 10] ++ List.replicate pr.level 9, some ⟨pr.level, false⟩)
      | none => ([], none)
    let r := nxt_conf_json_print_value_emit e mid.2
    let r2 := arrRestEmit tl r.2
    (44 :: (mid.1 ++ r.1 ++ r2.1), r2.2)

/-- The member loop of the object emit: indentation, name, ':' (plus a
space when pretty), value; between members a ',' plus, when pretty, a
newline and — when `more_space` was set by the member's value — a second
newline (the blank line), clearing `more_space`. -/
def objMembersEmit :
    CMembers → Option nxt_conf_json_pretty_t → List Nat × Option nxt_conf_json_pretty_t
  | .nil, p => ([], p)
  | .cons n v tl, p =>
    let ind :=
      match p with
      | some pr => List.replicate pr.level 9
      | none => ([] : List Nat)
    let colon :=
      match p with
      | some _ => [58, 32]
      | none => [58]
    let r := nxt_conf_json_print_value_emit v p
    let member := ind ++ nxt_conf_json_print_string_emit n ++ colon ++ r.1
    match tl with
    | .nil => (member, r.2)
    | .cons _ _ _ =>
      let sep : List Nat × Option nxt_conf_json_pretty_t :=
        match r.2 with
        | some pr =>
          if pr.more_space then ([44, 13, 10, 13, 10], some ⟨pr.level, false⟩)
          else ([44, 13, 10], some pr)
        | none => ([44], none)
      let r3 := objMembersEmit tl sep.2
      (member ++ sep.1 ++ r3.1, r3.2)

end

/-- Compact printing: `nxt_conf_json_print_value(buf, v, NULL)`. -/
def printCompact (v : CVal) : List Nat := (nxt_conf_json_print_value_emit v none).1

/-- Pretty printing: `nxt_conf_json_print_value(buf, v, &pretty)` with a
zero-initialised pretty context. -/
def printPretty (v : CVal) : List Nat :=
  (nxt_conf_json_print_value_emit v (some ⟨0, false⟩)).1

/-- Compact sizing: `nxt_conf_json_print_value(NULL, v, NULL)`. -/
def printCompactSize (v : CVal) : Nat := nxt_conf_json_print_value_size v none

/-- Pretty sizing: `nxt_conf_json_print_value(NULL, v, &pretty)` with a
zero-initialised pretty context. -/
def printPrettySize (v : CVal) : Nat := nxt_conf_json_print_value_size v (some 0)

/-!  ## The edit engine: paths, op chains, compile and clone -/

/-- `nxt_conf_json_path_next_token`: skip the byte at `parse->start` (the
leading or separating '/'), take bytes up to the next '/' or the end.
`parse.last` is the emptiness of the new remainder. -/
def nxt_conf_json_path_next_token (rem : List Nat) : List Nat × List Nat :=
  ((rem.drop 1).takeWhile (fun c => c ≠ 47), (rem.drop 1).dropWhile (fun c => c ≠ 47))

/-- Member lookup scan of `nxt_conf_json_object_get_member`: first member
whose name content equals `name` (`nxt_strstr_eq` is length + bytes). -/
def getMemberLoop : CMembers → List Nat → Nat → Option (Nat × CVal)
  | .nil, _, _ => none
  | .cons n v tl, name, i =>
    if n.strContent = name then some (i, v) else getMemberLoop tl name (i + 1)

/-- `nxt_conf_json_object_get_member`: `none` for non-objects and absent
names, otherwise the member index and value. -/
def nxt_conf_json_object_get_member (v : CVal) (name : List Nat) : Option (Nat × CVal) :=
  match v with
  | .object ms => getMemberLoop ms name 0
  | _ => none

/-- nxt_conf_json_op_action_t. -/
inductive nxt_conf_json_op_action_t where
  | pass | create | replace | delete
  deriving DecidableEq

mutual
/-- struct nxt_conf_json_op_s; `ctx` is a `void *` holding, depending on
the action, nothing, the sub-chain of a Pass, the fresh member of a
Create, or the replacement value of a Replace.  `next` is the possibly
NULL chain pointer, embedded as `nxt_conf_json_op_chain`. -/
inductive nxt_conf_json_op_t where
  | mk (index : Nat) (action : nxt_conf_json_op_action_t)
       (ctx : nxt_conf_json_op_ctx) (next : nxt_conf_json_op_chain)
  deriving DecidableEq
/-- A possibly-NULL `nxt_conf_json_op_t *`. -/
inductive nxt_conf_json_op_chain where
  | null
  | op (o : nxt_conf_json_op_t)
  deriving DecidableEq
/-- The `void *ctx` payload. -/
inductive nxt_conf_json_op_ctx where
  | null
  | op (o : nxt_conf_json_op_t)
  | member (name value : CVal)
  | value (v : CVal)
  deriving DecidableEq
end

/-- Result of `nxt_conf_json_op_compile`: NXT_OK with the chain, or
NXT_DECLINED.  (NXT_ERROR is the out-of-memory path, unreachable in the
embedding.) -/
inductive CompileResult where
  | ok (op : nxt_conf_json_op_t)
  | declined
  deriving DecidableEq

/-- `nxt_conf_json_op_compile` over the remaining path suffix (starting
with the '/' of the next token).  Each non-terminal token must name an
existing member and yields a Pass node whose `ctx` is the sub-chain; at
the terminal token: no new value → Delete (Declined when the key is
absent); new value and the key present → Replace carrying the value;
new value and the key absent → Create carrying a fresh member whose name
is short iff the token has at most NXT_CONF_JSON_STR_SIZE bytes.
`op->index` stays 0 (from nxt_mp_zget) when the lookup fails. -/
def nxt_conf_json_op_compile (obj : CVal) (value : Option CVal) (rem : List Nat) :
    CompileResult :=
  let token := (rem.drop 1).takeWhile (fun c => c ≠ 47)
  let rem' := (rem.drop 1).dropWhile (fun c => c ≠ 47)
  let found := nxt_conf_json_object_get_member obj token
  let index := (found.map Prod.fst).getD 0
  if rem' = [] then
    match value with
    | none =>
      match found with
      | none => .declined
      | some _ => .ok (.mk index .delete .null .null)
    | some w =>
      match found with
      | some _ => .ok (.mk index .replace (.value w) .null)
      | none =>
        let name : CVal :=
          if token.length > NXT_CONF_JSON_STR_SIZE then .string token
          else .shortString token
        .ok (.mk index .create (.member name w) .null)
  else
    match found with
    | none => .declined
    | some iv =>
      match nxt_conf_json_op_compile iv.2 value rem' with
      | .declined => .declined
      | .ok sub => .ok (.mk index .pass (.op sub) .null)
termination_by rem.length
decreasing_by
  rename_i hlast
  cases rem with
  | nil => exact absurd rfl hlast
  | cons a tl =>
    have h1 := List.Sublist.length_le
      (List.dropWhile_sublist (p := fun c => decide (c ≠ 47)) (l := tl))
    simp only [List.drop_succ_cons, List.drop_zero, List.length_cons] at h1 ⊢
    omega

/-- Append for the clone's destination member array. -/
def CMembers.append : CMembers → CMembers → CMembers
  | .nil, ys => ys
  | .cons n v tl, ys => .cons n v (tl.append ys)

mutual
/-- Structural size of a value (used only as fuel for the clone). -/
def CVal.treeSize : CVal → Nat
  | .array es => 1 + es.treeSize
  | .object ms => 1 + ms.treeSize
  | _ => 1
def CVals.treeSize : CVals → Nat
  | .nil => 1
  | .cons e tl => 1 + e.treeSize + tl.treeSize
def CMembers.treeSize : CMembers → Nat
  | .nil => 1
  | .cons n v tl => 1 + n.treeSize + v.treeSize + tl.treeSize
end

mutual
/-- Structural size of an op node (fuel for the clone). -/
def nxt_conf_json_op_t.treeSize : nxt_conf_json_op_t → Nat
  | .mk _ _ ctx next => 1 + ctx.treeSize + next.treeSize
def nxt_conf_json_op_chain.treeSize : nxt_conf_json_op_chain → Nat
  | .null => 1
  | .op o => 1 + o.treeSize
def nxt_conf_json_op_ctx.treeSize : nxt_conf_json_op_ctx → Nat
  | .null => 1
  | .op o => 1 + o.treeSize
  | .member n v => 1 + n.treeSize + v.treeSize
  | .value v => 1 + v.treeSize
end

theorem CVal.one_le_treeSizeVal : ∀ v : CVal, 1 ≤ v.treeSize := by
  intro v
  cases v <;> simp_arith [CVal.treeSize]

theorem CVals.one_le_treeSizeVals : ∀ es : CVals, 1 ≤ es.treeSize := by
  intro es
  cases es <;> simp_arith [CVals.treeSize]

theorem CMembers.one_le_treeSizeMems : ∀ ms : CMembers, 1 ≤ ms.treeSize := by
  intro ms
  cases ms <;> simp_arith [CMembers.treeSize]

theorem nxt_conf_json_op_t.one_le_treeSizeOp : ∀ o : nxt_conf_json_op_t, 1 ≤ o.treeSize := by
  intro o
  cases o
  simp_arith [nxt_conf_json_op_t.treeSize]

theorem nxt_conf_json_op_chain.one_le_treeSizeChain :
    ∀ c : nxt_conf_json_op_chain, 1 ≤ c.treeSize := by
  intro c
  cases c <;> simp_arith [nxt_conf_json_op_chain.treeSize]

theorem nxt_conf_json_op_ctx.one_le_treeSizeCtx :
    ∀ c : nxt_conf_json_op_ctx, 1 ≤ c.treeSize := by
  intro c
  cases c <;> simp_arith [nxt_conf_json_op_ctx.treeSize]

/-!  The clone functions recurse along both the value tree and the op
chain; the embedding makes the recursion structural on an explicit fuel
argument (so that the definitions compute by reduction), and the exported
functions below supply `sizeOf`-based fuel that the congruence lemmas
following them prove to be always sufficient. -/

mutual

/-- `nxt_conf_json_copy_value` (the allocation of `nxt_conf_json_clone_value`
cannot fail here, so clone and copy coincide).  An op applied to a
non-object source is NXT_ERROR (`none`); strings are duplicated, arrays
copied element-wise, objects go through `nxt_conf_json_copy_object`, and
the scalar tags copy the union bits. -/
def copyValueAux : Nat → CVal → nxt_conf_json_op_chain → Option CVal
  | 0, _, _ => none
  | fuel + 1, v, op =>
    match v with
    | .object ms => (copyObjectAux fuel ms op).map .object
    | .string s =>
      match op with
      | .op _ => none
      | .null => some (.string s)
    | .array es =>
      match op with
      | .op _ => none
      | .null => (copyElemsAux fuel es).map .array
    | v =>
      match op with
      | .op _ => none
      | .null => some v

/-- Element-wise array copy (`op == NULL` throughout, as in the C loop). -/
def copyElemsAux : Nat → CVals → Option CVals
  | 0, _ => none
  | fuel + 1, es =>
    match es with
    | .nil => some .nil
    | .cons e tl =>
      match copyValueAux fuel e .null with
      | none => none
      | some e' =>
        match copyElemsAux fuel tl with
        | none => none
        | some tl' => some (.cons e' tl')

/-- `nxt_conf_json_copy_object`: size the destination as
`src count (+1 Create / -1 Delete, from the head op only)` and run the
single-pass loop. -/
def copyObjectAux : Nat → CMembers → nxt_conf_json_op_chain → Option CMembers
  | 0, _, _ => none
  | fuel + 1, ms, op =>
    let count :=
      match op with
      | .op (.mk _ .create _ _) => ms.length + 1
      | .op (.mk _ .delete _ _) => ms.length - 1
      | _ => ms.length
    copyObjLoopAux fuel ms ms.length 0 0 count 0 op .null

/-- The do-while of `nxt_conf_json_copy_object`, one step per recursive
call.  `rem` is the source member suffix from index `s`; `d` the members
already written; `index` is carried across steps and recomputed only when
no pass latch is pending (`pass_op == NULL`), as in the C code.  The
inner `while (s != index)` copies one member per step (applying the
latched sub-chain to its value); at `s == index` a pending latch is
cleared (`continue`), otherwise the current op fires: Pass latches its
sub-chain and bumps `index`; Create appends the compiled member (name
deep-copied, value aliased); Replace keeps the source name and takes the
op's value; Delete skips the source member.  The loop exits when
`d == count`; ops that make no progress (possible only for chains never
produced by `nxt_conf_json_op_compile`, where the C loop would spin or
read out of bounds) are modelled as failure, as is fuel exhaustion
(which the fuel-adequacy lemmas rule out for the exported entry
points). -/
def copyObjLoopAux : Nat → CMembers → Nat → Nat → Nat → Nat → Nat →
    nxt_conf_json_op_chain → nxt_conf_json_op_chain → Option CMembers
  | 0, _, _, _, _, _, _, _, _ => none
  | fuel + 1, rem, srcCount, s, d, count, index, op, passOp =>
    let index' :=
      match passOp with
      | .op _ => index
      | .null =>
        match op with
        | .null => srcCount
        | .op (.mk i act _ _) => if act = .create then srcCount else i
    if s ≠ index' then
      match rem with
      | .nil => none
      | .cons n v tl =>
        match copyValueAux fuel n .null with
        | none => none
        | some n' =>
          match copyValueAux fuel v passOp with
          | none => none
          | some v' =>
            (copyObjLoopAux fuel tl srcCount (s + 1) (d + 1) count index' op passOp).map
              (CMembers.cons n' v')
    else
      match passOp with
      | .op _ =>
        if d = count then some .nil
        else copyObjLoopAux fuel rem srcCount s d count index' op .null
      | .null =>
        match op with
        | .null => if d = count then some .nil else none
        | .op (.mk _ act ctx next) =>
          match act with
          | .pass =>
            let sub :=
              match ctx with
              | .op o => nxt_conf_json_op_chain.op o
              | _ => nxt_conf_json_op_chain.null
            if d = count then some .nil
            else copyObjLoopAux fuel rem srcCount s d count (index' + 1) next sub
          | .create =>
            match ctx with
            | .member cn cv =>
              match copyValueAux fuel cn .null with
              | none => none
              | some n' =>
                if d + 1 = count then some (.cons n' cv .nil)
                else
                  (copyObjLoopAux fuel rem srcCount s (d + 1) count index' next .null).map
                    (CMembers.cons n' cv)
            | _ => none
          | .replace =>
            match ctx with
            | .value w =>
              match rem with
              | .cons sn _ tl =>
                match copyValueAux fuel sn .null with
                | none => none
                | some n' =>
                  if d + 1 = count then some (.cons n' w .nil)
                  else
                    (copyObjLoopAux fuel tl srcCount (s + 1) (d + 1) count index' next .null).map
                      (CMembers.cons n' w)
              | .nil => none
            | _ => none
          | .delete =>
            match rem with
            | .cons _ _ tl =>
              if d = count then some .nil
              else copyObjLoopAux fuel tl srcCount (s + 1) d count index' next .null
            | .nil => none

end

/-- Exported `nxt_conf_json_copy_value`: the `sizeOf`-based fuel is
sufficient (`copyValueAux_congr` below). -/
def nxt_conf_json_copy_value (v : CVal) (op : nxt_conf_json_op_chain) : Option CVal :=
  copyValueAux (v.treeSize + op.treeSize + 2) v op

/-- Exported element-wise array copy. -/
def copyElems (es : CVals) : Option CVals :=
  copyElemsAux (es.treeSize + 2) es

/-- Exported `nxt_conf_json_copy_object`. -/
def nxt_conf_json_copy_object (ms : CMembers) (op : nxt_conf_json_op_chain) :
    Option CMembers :=
  copyObjectAux (ms.treeSize + op.treeSize + 2) ms op

/-- Exported loop entry (used only to state lemmas about the loop). -/
def copyObjLoop (rem : CMembers) (srcCount s d count index : Nat)
    (op passOp : nxt_conf_json_op_chain) : Option CMembers :=
  copyObjLoopAux (rem.treeSize + op.treeSize + passOp.treeSize) rem srcCount s d count index
    op passOp

/-- `nxt_conf_json_clone_value`: allocate the destination (always
succeeds here) and `nxt_conf_json_copy_value`. -/
def nxt_conf_json_clone_value (v : CVal) (op : nxt_conf_json_op_chain) : Option CVal :=
  nxt_conf_json_copy_value v op

/-!  ## H1: field handlers, body strategy and response header serialisation
(src/nxt_h1proto.c) -/

/-- nxt_http_te_t (NXT_HTTP_TE_NONE = 0 is the zero-initialised state). -/
inductive nxt_http_te_t where
  | none | chunked | unsupported
  deriving DecidableEq

/-- `nxt_h1p_transfer_encoding`: the field handler sets TE to chunked
exactly when the value is the 7 bytes "chunked", otherwise to
unsupported. -/
def nxt_h1p_transfer_encoding (value : List Nat) : nxt_http_te_t :=
  if value = bytes ("chunked") then .chunked else .unsupported

/-- `nxt_h1p_connection`: "close" (5 bytes) disables keepalive, anything
else leaves it. -/
def nxt_h1p_connection (value : List Nat) (keepalive : Bool) : Bool :=
  if value = bytes ("close") then false else keepalive

/-- What `nxt_h1p_request_body_read` decides: answer an error status,
proceed to the application, or read `restLen` more body bytes. -/
inductive BodyReadOutcome where
  | error (status : Nat)
  | ready
  | readMore (restLen : Nat)
  deriving DecidableEq

/-- `nxt_h1p_request_body_read`, as the decision it takes from the
request state: TE chunked → 411 Length Required, TE unsupported → 501 Not
Implemented; else no/zero Content-Length → ready; Content-Length above
`max_body_size` → 413 Payload Too Large; otherwise copy the
`alreadyRead` surplus header-buffer bytes into the body buffer and read
the remainder (ready when nothing remains).  Every error path runs the
`error:` label, which forces `h1p->keepalive = 0` first; the returned
Bool is the keepalive flag afterwards.  (`content_length_n` is the
nxt_off_t, -1 when absent.) -/
def nxt_h1p_request_body_read (te : nxt_http_te_t) (keepalive : Bool)
    (content_length_n : Int) (max_body_size : Nat) (alreadyRead : Nat) :
    BodyReadOutcome × Bool :=
  match te with
  | .chunked => (.error 411, false)
  | .unsupported => (.error 501, false)
  | .none =>
    if content_length_n = -1 ∨ content_length_n = 0 then (.ready, keepalive)
    else if content_length_n > (max_body_size : Int) then (.error 413, false)
    else
      let body_length := content_length_n.toNat
      let size := min alreadyRead body_length
      if body_length - size ≠ 0 then (.readMore (body_length - size), keepalive)
      else (.ready, keepalive)

/-- The pre-formatted status lines, `nxt_http_success` …
`nxt_http_server_error`. -/
def nxt_http_success : List (List Nat) :=
  [bytes ("HTTP/1.1 200 OK\r\n"),
   bytes ("HTTP/1.1 201 Created\r\n"),
   bytes ("HTTP/1.1 202 Accepted\r\n"),
   bytes ("HTTP/1.1 203 Non-Authoritative Information\r\n"),
   bytes ("HTTP/1.1 204 No Content\r\n"),
   bytes ("HTTP/1.1 205 Reset Content\r\n"),
   bytes ("HTTP/1.1 206 Partial Content\r\n")]

def nxt_http_redirection : List (List Nat) :=
  [bytes ("HTTP/1.1 300 Multiple Choices\r\n"),
   bytes ("HTTP/1.1 301 Moved Permanently\r\n"),
   bytes ("HTTP/1.1 302 Found\r\n"),
   bytes ("HTTP/1.1 303 See Other\r\n"),
   bytes ("HTTP/1.1 304 Not Modified\r\n")]

def nxt_http_client_error : List (List Nat) :=
  [bytes ("HTTP/1.1 400 Bad Request\r\n"),
   bytes ("HTTP/1.1 401 Unauthorized\r\n"),
   bytes ("HTTP/1.1 402 Payment Required\r\n"),
   bytes ("HTTP/1.1 403 Forbidden\r\n"),
   bytes ("HTTP/1.1 404 Not Found\r\n"),
   bytes ("HTTP/1.1 405 Method Not Allowed\r\n"),
   bytes ("HTTP/1.1 406 Not Acceptable\r\n"),
   bytes ("HTTP/1.1 407 Proxy Authentication Required\r\n"),
   bytes ("HTTP/1.1 408 Request Timeout\r\n"),
   bytes ("HTTP/1.1 409 Conflict\r\n"),
   bytes ("HTTP/1.1 410 Gone\r\n"),
   bytes ("HTTP/1.1 411 Length Required\r\n"),
   bytes ("HTTP/1.1 412 Precondition Failed\r\n"),
   bytes ("HTTP/1.1 413 Payload Too Large\r\n"),
   bytes ("HTTP/1.1 414 URI Too Long\r\n"),
   bytes ("HTTP/1.1 415 Unsupported Media Type\r\n"),
   bytes ("HTTP/1.1 416 Range Not Satisfiable\r\n"),
   bytes ("HTTP/1.1 417 Expectation Failed\r\n"),
   bytes ("HTTP/1.1 418\r\n"),
   bytes ("HTTP/1.1 419\r\n"),
   bytes ("HTTP/1.1 420\r\n"),
   bytes ("HTTP/1.1 421\r\n"),
   bytes ("HTTP/1.1 422\r\n"),
   bytes ("HTTP/1.1 423\r\n"),
   bytes ("HTTP/1.1 424\r\n"),
   bytes ("HTTP/1.1 425\r\n"),
   bytes ("HTTP/1.1 426\r\n"),
   bytes ("HTTP/1.1 427\r\n"),
   bytes ("HTTP/1.1 428\r\n"),
   bytes ("HTTP/1.1 429\r\n"),
   bytes ("HTTP/1.1 430\r\n"),
   bytes ("HTTP/1.1 431 Request Header Fields Too Large\r\n")]

def nxt_http_server_error : List (List Nat) :=
  [bytes ("HTTP/1.1 500 Internal Server Error\r\n"),
   bytes ("HTTP/1.1 501 Not Implemented\r\n"),
   bytes ("HTTP/1.1 502 Bad Gateway\r\n"),
   bytes ("HTTP/1.1 503 Service Unavailable\r\n"),
   bytes ("HTTP/1.1 504 Gateway Timeout\r\n"),
   bytes ("HTTP/1.1 505 HTTP Version Not Supported\r\n")]

/-- `nxt_sprintf "%03d"`: decimal, zero-padded to at least three
digits (modelled from the spec; nxt_sprintf.c is not under src/). -/
def pad3 (n : Nat) : List Nat :=
  let d := natDigits n
  List.replicate (3 - d.length) 48 ++ d

/-- The status-line selection of `nxt_h1p_request_header_send`: the four
pre-formatted ranges, else `HTTP/1.1 %03d\r\n`. -/
def h1pStatusLine (n : Nat) : List Nat :=
  if 200 ≤ n ∧ n ≤ 206 then nxt_http_success.getD (n - 200) []
  else if 300 ≤ n ∧ n ≤ 304 then nxt_http_redirection.getD (n - 300) []
  else if 400 ≤ n ∧ n ≤ 431 then nxt_http_client_error.getD (n - 400) []
  else if 500 ≤ n ∧ n ≤ 505 then nxt_http_server_error.getD (n - 500) []
  else bytes ("HTTP/1.1 ") ++ pad3 n ++ [13, 10]

/-- A response field as the serialiser sees it. -/
structure nxt_http_field_t where
  name : List Nat
  value : List Nat
  skip : Bool
  deriving DecidableEq

/-- The non-skip response fields, each as `Name: Value\r\n`. -/
def h1pFieldsBytes (fields : List nxt_http_field_t) : List Nat :=
  fields.foldr
    (fun f acc =>
      (if f.skip then [] else f.name ++ [58, 32] ++ f.value ++ [13, 10]) ++ acc) []

/-- `nxt_h1p_request_header_send`, reduced to the bytes it writes and the
flags it leaves: status line; each non-skip field; a single
`Connection: close` / `Connection: keep-alive` line iff
`http11 ^ h1p->keepalive` after the no-content-length adjustment
(HTTP/1.1 without a content length turns on chunked output, HTTP/1.0
without one forces keepalive off); then `Transfer-Encoding: chunked\r\n`
(leaving the final CRLF to the first chunk header) or the terminating
CRLF.  `hasContentLength` is `resp.content_length != NULL &&
!resp.content_length->skip`; `versionMinor` is the byte
`parser.version.s.minor`.  Returns (bytes, keepalive', chunked). -/
def nxt_h1p_request_header_send (status : Nat) (fields : List nxt_http_field_t)
    (hasContentLength : Bool) (versionMinor : Nat) (keepalive0 : Bool) :
    List Nat × Bool × Bool :=
  let http11 : Bool := versionMinor != 48
  let ck : Bool × Bool :=
    if !hasContentLength then
      if http11 then (true, keepalive0) else (false, false)
    else (false, keepalive0)
  let chunked := ck.1
  let keepalive := ck.2
  let conn : Option Bool := if http11 ≠ keepalive then some keepalive else none
  let connB :=
    match conn with
    | some b =>
      if b then bytes ("Connection: keep-alive\r\n") else bytes ("Connection: close\r\n")
    | none => []
  let tailB := if chunked then bytes ("Transfer-Encoding: chunked\r\n") else [13, 10]
  (h1pStatusLine status ++ h1pFieldsBytes fields ++ connB ++ tailB, keepalive, chunked)

/-!  ## Auxiliary predicates used by the theorems -/

mutual
/-- The integer payloads lie in the signed-64-bit range the data model
gives them (the magnitude bound `2^63` covers the whole int64 range). -/
def CVal.wf64 : CVal → Bool
  | .integer i => i.natAbs ≤ 9223372036854775808
  | .array es => es.wf64
  | .object ms => ms.wf64
  | _ => true
def CVals.wf64 : CVals → Bool
  | .nil => true
  | .cons e tl => e.wf64 && tl.wf64
def CMembers.wf64 : CMembers → Bool
  | .nil => true
  | .cons n v tl => n.wf64 && v.wf64 && tl.wf64
end

/-- The `size = (last - pos) - surplus` estimate that
`nxt_conf_json_parse_string` uses to pick the short or long variant
(meaningful whenever the scan succeeds). -/
def strSizeEstimate (l : List Nat) : Nat :=
  match l with
  | [] => 0
  | _ :: tl =>
    match strScan tl .usual with
    | some (span, surplus, _) => span.length - surplus
    | none => 0

/-!  ## Claim theorems -/

/-- C9: in a value position, a byte 't' with at least 4 bytes remaining
is accepted as boolean true without comparing the bytes against "true"
('f' with at least 5 yields false, 'n' with at least 4 yields null); in
particular `parse("txyz")` succeeds with boolean true. -/
theorem C9_literal_bytes_not_checked :
    (∀ (l : List Nat) (tl : List Nat) (fuel : Nat), l = 116 :: tl → 4 ≤ l.length →
      nxt_conf_json_parse_value (fuel + 1) l = some (.boolean true, l.drop 4)) ∧
    (∀ (l : List Nat) (tl : List Nat) (fuel : Nat), l = 102 :: tl → 5 ≤ l.length →
      nxt_conf_json_parse_value (fuel + 1) l = some (.boolean false, l.drop 5)) ∧
    (∀ (l : List Nat) (tl : List Nat) (fuel : Nat), l = 110 :: tl → 4 ≤ l.length →
      nxt_conf_json_parse_value (fuel + 1) l = some (.null, l.drop 4)) ∧
    nxt_conf_json_parse (bytes ("txyz")) = some (.boolean true) := by
  refine ⟨?_, ?_, ?_, by decide⟩ <;>
    (intro l tl fuel hl hlen
     subst hl
     simp only [List.length_cons] at hlen
     simp only [nxt_conf_json_parse_value]
     norm_num
     omega)

/-- C9 witness: the theorem applied at "txyz" (and "fabcd", "nxyz"). -/
theorem C9_witness :
    nxt_conf_json_parse_value 3 (bytes ("txyz")) = some (.boolean true, []) ∧
    nxt_conf_json_parse_value 3 (bytes ("fabcd")) = some (.boolean false, []) ∧
    nxt_conf_json_parse_value 3 (bytes ("nxyz")) = some (.null, []) :=
  ⟨C9_literal_bytes_not_checked.1 (bytes ("txyz")) (bytes ("xyz")) 2 (by decide) (by decide),
   C9_literal_bytes_not_checked.2.1 (bytes ("fabcd")) (bytes ("abcd")) 2 (by decide) (by decide),
   C9_literal_bytes_not_checked.2.2.1 (bytes ("nxyz")) (bytes ("xyz")) 2 (by decide) (by decide)⟩

/-- C10: the digit-accumulation bound caps magnitudes at 2^63 - 1 for
both signs, so "-9223372036854775808" (= -2^63, a representable int64)
is rejected, while the magnitude one smaller is accepted. -/
theorem C10_int64_min_rejected :
    nxt_conf_json_parse (bytes ("-9223372036854775808")) = none ∧
    nxt_conf_json_parse (bytes ("-9223372036854775807")) =
      some (.integer (-9223372036854775807)) := by decide

/-- C2 (code evaluated at the failing input): the parser decodes
"\uD834\uDD1E" to the two code points U+3834 and U+3314 (six UTF-8
bytes), not to U+1D11E (F0 9D 84 9E): the hex decode maps 'A'-'F' to
0-5, so no \uXXXX can reach the surrogate range and the pair logic
(itself missing the 0x10000 offset) never fires. -/
theorem C2_surrogate_pair_eval :
    nxt_conf_json_parse (bytes ("\"\\uD834\\uDD1E\"")) =
      some (.shortString [227, 160, 180, 227, 140, 148]) ∧
    ([227, 160, 180, 227, 140, 148] : List Nat) ≠ [240, 157, 132, 158] := by decide

/-- C1 counterexample: for the integer 1 (compact style) the sizing pass
returns 5 but the emit pass writes 1 byte, so the two are not "exactly
equal". -/
theorem C1_counterexample :
    (printCompact (.integer 1)).length ≠ printCompactSize (.integer 1) := by decide

/-- C4 counterexample: the accepted input "\u0041aaaaaaaaaaaa" decodes
to the 13-byte string "Aaaaaaaaaaaaa" (≤ 14), yet the parser stores it
as the long variant, because the variant is chosen by the pre-decode
size estimate (15 here), not the decoded length. -/
theorem C4_counterexample :
    nxt_conf_json_parse (bytes ("\"\\u0041aaaaaaaaaaaa\"")) =
      some (.string (bytes ("Aaaaaaaaaaaaa"))) ∧
    (bytes ("Aaaaaaaaaaaaa")).length ≤ 14 := by decide

/-- C7: with a Transfer-Encoding field present, body reading answers 411
Length Required when the value is exactly "chunked" and 501 Not
Implemented for every other value; both error paths force keepalive
off. -/
theorem C7_transfer_encoding_errors :
    ∀ (value : List Nat) (keepalive : Bool) (cl : Int) (maxb already : Nat),
      (value = bytes ("chunked") →
        nxt_h1p_request_body_read (nxt_h1p_transfer_encoding value) keepalive cl maxb already
          = (.error 411, false)) ∧
      (value ≠ bytes ("chunked") →
        nxt_h1p_request_body_read (nxt_h1p_transfer_encoding value) keepalive cl maxb already
          = (.error 501, false)) := by
  intro value keepalive cl maxb already
  constructor
  · intro h
    simp [nxt_h1p_transfer_encoding, h, nxt_h1p_request_body_read]
  · intro h
    simp [nxt_h1p_transfer_encoding, h, nxt_h1p_request_body_read]

/-- C7 witness: the POST scenario of the spec ("chunked") and an
unsupported value ("gzip"). -/
theorem C7_witness :
    nxt_h1p_request_body_read (nxt_h1p_transfer_encoding (bytes ("chunked")))
        true 0 1024 0 = (.error 411, false) ∧
    nxt_h1p_request_body_read (nxt_h1p_transfer_encoding (bytes ("gzip")))
        true 0 1024 0 = (.error 501, false) :=
  ⟨(C7_transfer_encoding_errors (bytes ("chunked")) true 0 1024 0).1 rfl,
   (C7_transfer_encoding_errors (bytes ("gzip")) true 0 1024 0).2 (by decide)⟩

/-- C8: the serialised response header is the status line, the non-skip
fields, then a Connection line exactly when the keepalive flag (after
the no-content-length adjustment, which also forces it off for
HTTP/1.0) differs from the version default (on for HTTP/1.1, off for
HTTP/1.0): "Connection: close" when keepalive is off, "Connection:
keep-alive" when on, nothing otherwise; then the chunked header or the
final CRLF. -/
theorem C8_connection_line_iff :
    ∀ (status : Nat) (fields : List nxt_http_field_t) (hasCL : Bool)
      (vm : Nat) (ka0 : Bool),
      (nxt_h1p_request_header_send status fields hasCL vm ka0).1 =
        h1pStatusLine status ++ h1pFieldsBytes fields ++
          (if (nxt_h1p_request_header_send status fields hasCL vm ka0).2.1 = (vm != 48) then []
           else if (nxt_h1p_request_header_send status fields hasCL vm ka0).2.1 then
             bytes ("Connection: keep-alive\r\n")
           else bytes ("Connection: close\r\n")) ++
          (if (nxt_h1p_request_header_send status fields hasCL vm ka0).2.2 then
             bytes ("Transfer-Encoding: chunked\r\n")
           else [13, 10]) ∧
      (nxt_h1p_request_header_send status fields hasCL vm ka0).2.1 =
        (if !hasCL && !(vm != 48) then false else ka0) := by
  intro status fields hasCL vm ka0
  simp only [nxt_h1p_request_header_send]
  cases hasCL <;> cases ka0 <;> by_cases hv : (vm != 48 : Bool) = true <;>
    simp_all <;> simp [List.append_assoc]



/-!  ## Lemmas about the clone -/

/-- Whether a value is an object (`src->type != NXT_CONF_JSON_OBJECT`). -/
def CVal.isObject : CVal → Bool
  | .object _ => true
  | _ => false

/-- Replace the value of member `i`, keeping its name. -/
def CMembers.setValue : CMembers → Nat → CVal → CMembers
  | .nil, _, _ => .nil
  | .cons n _ tl, 0, w => .cons n w tl
  | .cons n v tl, k + 1, w => .cons n v (tl.setValue k w)

theorem CMembers.length_append : ∀ a b : CMembers, (a.append b).length = a.length + b.length
  | .nil, b => by simp [CMembers.append, CMembers.length]
  | .cons n v tl, b => by
    simp [CMembers.append, CMembers.length, CMembers.length_append tl b]
    omega

theorem CMembers.treeSize_append :
    ∀ a b : CMembers, (a.append b).treeSize + 1 = a.treeSize + b.treeSize
  | .nil, b => by simp [CMembers.append, CMembers.treeSize]; omega
  | .cons n v tl, b => by
    have h := CMembers.treeSize_append tl b
    simp [CMembers.append, CMembers.treeSize]
    omega

theorem CMembers.setValue_append :
    ∀ (a : CMembers) (n v w : CVal) (b : CMembers),
      (a.append (.cons n v b)).setValue a.length w = a.append (.cons n w b)
  | .nil, n, v, w, b => by simp [CMembers.append, CMembers.length, CMembers.setValue]
  | .cons n0 v0 tl, n, v, w, b => by
    have ih := CMembers.setValue_append tl n v w b
    have h1 : (CMembers.cons n0 v0 tl).length = tl.length + 1 := by
      simp [CMembers.length]
      omega
    simp [CMembers.append, h1, CMembers.setValue, ih]

mutual

theorem copyValueAux_id : ∀ (fuel : Nat) (v : CVal), v.treeSize + 3 ≤ fuel →
    copyValueAux fuel v .null = some v
  | 0, v => by
    intro h
    have h1 := CVal.one_le_treeSizeVal v
    omega
  | fuel + 1, v => by
    intro h
    cases v with
    | object ms =>
      have hsz : (CVal.object ms).treeSize = 1 + ms.treeSize := rfl
      have h4 : 1 ≤ fuel := by
        have := CMembers.one_le_treeSizeMems ms
        omega
      obtain ⟨f, rfl⟩ : ∃ f, fuel = f + 1 := ⟨fuel - 1, by omega⟩
      have hloop := copyObjLoopAux_null f ms (0 + ms.length) 0 0 (0 + ms.length) 0
        (by omega) rfl rfl
      simp only [copyValueAux, copyObjectAux]
      simp only [Nat.zero_add] at hloop
      simp [hloop]
    | array es =>
      have hsz : (CVal.array es).treeSize = 1 + es.treeSize := rfl
      have helems := copyElemsAux_id fuel es (by omega)
      simp [copyValueAux, helems]
    | null => simp [copyValueAux]
    | boolean b => simp [copyValueAux]
    | integer i => simp [copyValueAux]
    | number => simp [copyValueAux]
    | shortString s => simp [copyValueAux]
    | string s => simp [copyValueAux]
termination_by fuel v => fuel

theorem copyElemsAux_id : ∀ (fuel : Nat) (es : CVals), es.treeSize + 2 ≤ fuel →
    copyElemsAux fuel es = some es
  | 0, es => by
    intro h
    have h1 := CVals.one_le_treeSizeVals es
    omega
  | fuel + 1, es => by
    intro h
    cases es with
    | nil => simp [copyElemsAux]
    | cons e tl =>
      have hp1 := CVal.one_le_treeSizeVal e
      have hp2 := CVals.one_le_treeSizeVals tl
      have hsz : (CVals.cons e tl).treeSize = 1 + e.treeSize + tl.treeSize := rfl
      have he := copyValueAux_id fuel e (by omega)
      have htl := copyElemsAux_id fuel tl (by omega)
      simp [copyElemsAux, he, htl]
termination_by fuel es => fuel

theorem copyObjLoopAux_null : ∀ (fuel : Nat) (rest : CMembers) (srcCount s d count idx : Nat),
    rest.treeSize + 2 ≤ fuel →
    srcCount = s + rest.length → count = d + rest.length →
    copyObjLoopAux fuel rest srcCount s d count idx .null .null = some rest
  | 0, rest => by
    intro srcCount s d count idx h _ _
    have h1 := CMembers.one_le_treeSizeMems rest
    omega
  | fuel + 1, rest => by
    intro srcCount s d count idx h h1 h2
    cases rest with
    | nil =>
      simp [CMembers.length] at h1 h2
      simp [copyObjLoopAux, h1, h2]
    | cons n v tl =>
      have hp1 := CVal.one_le_treeSizeVal n
      have hp2 := CVal.one_le_treeSizeVal v
      have hp3 := CMembers.one_le_treeSizeMems tl
      have hsz : (CMembers.cons n v tl).treeSize = 1 + n.treeSize + v.treeSize + tl.treeSize :=
        rfl
      have hn := copyValueAux_id fuel n (by omega)
      have hv := copyValueAux_id fuel v (by omega)
      have hrec := copyObjLoopAux_null fuel tl srcCount (s + 1) (d + 1) count srcCount
        (by omega)
        (by simp [CMembers.length] at h1; omega)
        (by simp [CMembers.length] at h2; omega)
      have hne : s ≠ srcCount := by
        simp [CMembers.length] at h1
        omega
      simp [copyObjLoopAux, hne, hn, hv, hrec]
termination_by fuel rest => fuel

end

/-- Copying the members before the op's index: while `s != index` the
loop copies members plainly, so a run on `pre.append rest` reduces to
the run on `rest` with the positions advanced past `pre` (for any op
whose action is not Create and whose index is `s + pre.length`; the
carried `index` argument is irrelevant while no latch is pending). -/
theorem copyObjLoopAux_prefix :
    ∀ (pre : CMembers) (rest : CMembers) (srcCount s d count idx0 i : Nat)
      (act : nxt_conf_json_op_action_t) (ctx : nxt_conf_json_op_ctx)
      (next : nxt_conf_json_op_chain) (out : CMembers),
      act ≠ .create → i = s + pre.length →
      (∀ f idx, rest.treeSize + (nxt_conf_json_op_chain.op (.mk i act ctx next)).treeSize + 1 ≤ f →
        copyObjLoopAux f rest srcCount (s + pre.length) (d + pre.length) count idx
          (.op (.mk i act ctx next)) .null = some out) →
      ∀ fuel, pre.treeSize + rest.treeSize +
          (nxt_conf_json_op_chain.op (.mk i act ctx next)).treeSize ≤ fuel →
        copyObjLoopAux fuel (pre.append rest) srcCount s d count idx0
          (.op (.mk i act ctx next)) .null = some (pre.append out)
  | .nil => by
    intro rest srcCount s d count idx0 i act ctx next out hact hi hrest fuel hfuel
    have h1 : (CMembers.nil).treeSize = 1 := rfl
    have h2 : CMembers.append .nil rest = rest := rfl
    have h3 : CMembers.append .nil out = out := rfl
    have h4 : s + CMembers.length .nil = s := by simp [CMembers.length]
    have h5 : d + CMembers.length .nil = d := by simp [CMembers.length]
    rw [h2, h3]
    have := hrest fuel idx0 (by omega)
    rw [h4, h5] at this
    exact this
  | .cons n v tlpre => by
    intro rest srcCount s d count idx0 i act ctx next out hact hi hrest fuel hfuel
    have hp1 := CVal.one_le_treeSizeVal n
    have hp2 := CVal.one_le_treeSizeVal v
    have hp3 := CMembers.one_le_treeSizeMems tlpre
    have hp4 := CMembers.one_le_treeSizeMems rest
    have hp5 := nxt_conf_json_op_t.one_le_treeSizeOp (.mk i act ctx next)
    have hsz : (CMembers.cons n v tlpre).treeSize
        = 1 + n.treeSize + v.treeSize + tlpre.treeSize := rfl
    have hopsz : (nxt_conf_json_op_chain.op (.mk i act ctx next)).treeSize
        = 1 + (nxt_conf_json_op_t.mk i act ctx next).treeSize := rfl
    obtain ⟨f, rfl⟩ : ∃ f, fuel = f + 1 := ⟨fuel - 1, by omega⟩
    have hlen : (CMembers.cons n v tlpre).length = tlpre.length + 1 := by
      simp [CMembers.length]
      omega
    have hne : s ≠ i := by
      rw [hi, hlen]
      omega
    have hn := copyValueAux_id f n (by omega)
    have hv := copyValueAux_id f v (by omega)
    have hrest' : ∀ g idx,
        rest.treeSize + (nxt_conf_json_op_chain.op (.mk i act ctx next)).treeSize + 1 ≤ g →
        copyObjLoopAux g rest srcCount ((s + 1) + tlpre.length) ((d + 1) + tlpre.length) count idx
          (.op (.mk i act ctx next)) .null = some out := by
      intro g idx hg
      have := hrest g idx hg
      rw [hlen] at this
      have e1 : s + (tlpre.length + 1) = s + 1 + tlpre.length := by omega
      have e2 : d + (tlpre.length + 1) = d + 1 + tlpre.length := by omega
      rw [e1, e2] at this
      exact this
    have hrec := copyObjLoopAux_prefix tlpre rest srcCount (s + 1) (d + 1) count i i act ctx
      next out hact (by rw [hi, hlen]; omega) hrest' f (by omega)
    have happ : CMembers.append (.cons n v tlpre) rest = .cons n v (tlpre.append rest) := rfl
    rw [happ]
    have hacti : ((if act = nxt_conf_json_op_action_t.create then srcCount else i) : Nat) = i := by
      cases act <;> simp_all
    simp only [copyObjLoopAux, hacti]
    rw [if_pos hne]
    simp [hn, hv, hrec]
    rfl

/-- The Replace step at the op's index: the source name is kept (deep
copied) and the value is taken from the op's `ctx`; the remaining members
are then copied plainly. -/
theorem copyObjLoopAux_replace :
    ∀ (fuel : Nat) (sn sv : CVal) (tl : CMembers) (srcCount s d count idx : Nat) (w : CVal),
      srcCount = s + 1 + tl.length → count = d + 1 + tl.length →
      sn.treeSize + sv.treeSize + tl.treeSize + w.treeSize + 6 ≤ fuel →
      copyObjLoopAux fuel (.cons sn sv tl) srcCount s d count idx
        (.op (.mk s .replace (.value w) .null)) .null = some (.cons sn w tl) := by
  intro fuel sn sv tl srcCount s d count idx w h1 h2 hfuel
  have hp1 := CVal.one_le_treeSizeVal sn
  have hp2 := CVal.one_le_treeSizeVal sv
  have hp3 := CMembers.one_le_treeSizeMems tl
  have hp4 := CVal.one_le_treeSizeVal w
  obtain ⟨f, rfl⟩ : ∃ f, fuel = f + 1 := ⟨fuel - 1, by omega⟩
  have hsn := copyValueAux_id f sn (by omega)
  simp only [copyObjLoopAux]
  cases tl with
  | nil =>
    have hc : d + 1 = count := by
      simp [CMembers.length] at h2
      omega
    simp [hsn, hc]
  | cons n2 v2 tl2 =>
    have hc : ¬(d + 1 = count) := by
      simp [CMembers.length] at h2
      omega
    have hrec := copyObjLoopAux_null f (.cons n2 v2 tl2) srcCount (s + 1) (d + 1) count s
      (by omega)
      (by simp [CMembers.length] at h1 ⊢; omega)
      (by simp [CMembers.length] at h2 ⊢; omega)
    simp [hsn, hc, hrec]

/-- The Pass step at the op's index: the sub-chain is latched, the member
at the index has its value copied under the sub-chain, the latch is
cleared, and the remaining members are copied plainly. -/
theorem copyObjLoopAux_pass :
    ∀ (fuel : Nat) (sn sv sv' : CVal) (tl : CMembers) (srcCount s d count idx : Nat)
      (sub : nxt_conf_json_op_t),
      (∀ f, sv.treeSize + sub.treeSize + 3 ≤ f → copyValueAux f sv (.op sub) = some sv') →
      srcCount = s + 1 + tl.length → count = d + 1 + tl.length →
      sn.treeSize + sv.treeSize + tl.treeSize + sub.treeSize + 6 ≤ fuel →
      copyObjLoopAux fuel (.cons sn sv tl) srcCount s d count idx
        (.op (.mk s .pass (.op sub) .null)) .null = some (.cons sn sv' tl) := by
  intro fuel sn sv sv' tl srcCount s d count idx sub hsv h1 h2 hfuel
  have hp1 := CVal.one_le_treeSizeVal sn
  have hp2 := CVal.one_le_treeSizeVal sv
  have hp3 := CMembers.one_le_treeSizeMems tl
  have hp4 := nxt_conf_json_op_t.one_le_treeSizeOp sub
  obtain ⟨f1, rfl⟩ : ∃ f, fuel = f + 1 := ⟨fuel - 1, by omega⟩
  obtain ⟨f2, rfl⟩ : ∃ f, f1 = f + 1 := ⟨f1 - 1, by omega⟩
  obtain ⟨f3, rfl⟩ : ∃ f, f2 = f + 1 := ⟨f2 - 1, by omega⟩
  have hc : ¬(d = count) := by omega
  have hsn := copyValueAux_id (f3 + 1) sn (by omega)
  have hv := hsv (f3 + 1) (by omega)
  have hne2 : s ≠ s + 1 := by omega
  cases tl with
  | nil =>
    have hcc : d + 1 = count := by
      simp [CMembers.length] at h2
      omega
    simp [copyObjLoopAux, hc, hne2, hsn, hv, hcc]
  | cons n2 v2 tl2 =>
    have hcc : ¬(d + 1 = count) := by
      simp [CMembers.length] at h2
      omega
    have hrec := copyObjLoopAux_null f3 (.cons n2 v2 tl2) srcCount (s + 1) (d + 1) count (s + 1)
      (by omega)
      (by simp [CMembers.length] at h1 ⊢; omega)
      (by simp [CMembers.length] at h2 ⊢; omega)
    simp [copyObjLoopAux, hc, hne2, hsn, hv, hcc, hrec]

/-- A successful member lookup splits the member array at the found
index: the members before it, the member itself (whose name content is
the searched name), and the rest. -/
theorem getMemberLoop_split :
    ∀ (ms : CMembers) (name : List Nat) (k i : Nat) (v : CVal),
      getMemberLoop ms name k = some (i, v) →
      ∃ (pre post : CMembers) (nv : CVal),
        ms = pre.append (.cons nv v post) ∧ k + pre.length = i ∧ nv.strContent = name
  | .nil, name, k, i, v => by
    intro h
    simp [getMemberLoop] at h
  | .cons n0 v0 tl, name, k, i, v => by
    intro h
    simp only [getMemberLoop] at h
    by_cases hn : n0.strContent = name
    · rw [if_pos (by simp [hn])] at h
      obtain ⟨hik, hv⟩ : k = i ∧ v0 = v := by
        constructor <;> (cases h; rfl)
      exact ⟨.nil, tl, n0, by simp [CMembers.append, hv], by simp [CMembers.length, hik], hn⟩
    · rw [if_neg (by simp [hn])] at h
      obtain ⟨pre, post, nv, hms, hlen, hname⟩ := getMemberLoop_split tl name (k + 1) i v h
      refine ⟨.cons n0 v0 pre, post, nv, ?_, ?_, hname⟩
      · simp [CMembers.append, hms]
      · simp [CMembers.length]
        omega

/-- Running the Replace chain `{index = j, replace, value w}` against an
object whose member `j` exists: every member is kept except member `j`,
whose value becomes `w` (its name is kept). -/
theorem copyValue_replace_run :
    ∀ (f : Nat) (ms2 pre2 post2 : CMembers) (nJ bv w : CVal) (j : Nat),
      ms2 = pre2.append (.cons nJ bv post2) → j = pre2.length →
      ms2.treeSize + w.treeSize + 7 ≤ f →
      copyValueAux f (.object ms2) (.op (.mk j .replace (.value w) .null)) =
        some (.object (pre2.append (.cons nJ w post2))) := by
  intro f ms2 pre2 post2 nJ bv w j hms hj hf
  have hp1 := CMembers.one_le_treeSizeMems pre2
  have hp2 := CMembers.one_le_treeSizeMems post2
  have hp3 := CVal.one_le_treeSizeVal nJ
  have hp4 := CVal.one_le_treeSizeVal bv
  have hp5 := CVal.one_le_treeSizeVal w
  have hta : (pre2.append (.cons nJ bv post2)).treeSize + 1
      = pre2.treeSize + (CMembers.cons nJ bv post2).treeSize :=
    CMembers.treeSize_append pre2 (.cons nJ bv post2)
  have hrsz : (CMembers.cons nJ bv post2).treeSize
      = 1 + nJ.treeSize + bv.treeSize + post2.treeSize := rfl
  have hmssz : ms2.treeSize + 1 = pre2.treeSize + (CMembers.cons nJ bv post2).treeSize := by
    rw [hms]; exact hta
  obtain ⟨f1, rfl⟩ : ∃ g, f = g + 1 := ⟨f - 1, by omega⟩
  obtain ⟨f2, rfl⟩ : ∃ g, f1 = g + 1 := ⟨f1 - 1, by omega⟩
  have hlen : ms2.length = pre2.length + (CMembers.cons nJ bv post2).length := by
    rw [hms]; exact CMembers.length_append pre2 (.cons nJ bv post2)
  have hlen2 : (CMembers.cons nJ bv post2).length = 1 + post2.length := by
    simp [CMembers.length]
  have hrest : ∀ g idx,
      (CMembers.cons nJ bv post2).treeSize +
        (nxt_conf_json_op_chain.op (.mk j .replace (.value w) .null)).treeSize + 1 ≤ g →
      copyObjLoopAux g (.cons nJ bv post2) ms2.length (0 + pre2.length) (0 + pre2.length)
        ms2.length idx (.op (.mk j .replace (.value w) .null)) .null
        = some (.cons nJ w post2) := by
    intro g idx hg
    have hopsz : (nxt_conf_json_op_chain.op (.mk j .replace (.value w) .null)).treeSize
        = w.treeSize + 4 := by
      simp only [nxt_conf_json_op_chain.treeSize, nxt_conf_json_op_t.treeSize,
        nxt_conf_json_op_ctx.treeSize]
      omega
    have hj' : 0 + pre2.length = j := by omega
    rw [hj']
    exact copyObjLoopAux_replace g nJ bv post2 ms2.length j j ms2.length idx w
      (by omega) (by omega) (by rw [hopsz, hrsz] at hg; omega)
  have hloop := copyObjLoopAux_prefix pre2 (.cons nJ bv post2) ms2.length 0 0 ms2.length 0 j
    .replace (.value w) .null (.cons nJ w post2) (by simp) (by omega) hrest f2
    (by
      have hopsz : (nxt_conf_json_op_chain.op (.mk j .replace (.value w) .null)).treeSize
          = w.treeSize + 4 := by
        simp only [nxt_conf_json_op_chain.treeSize, nxt_conf_json_op_t.treeSize,
          nxt_conf_json_op_ctx.treeSize]
        omega
      rw [hopsz]
      omega)
  rw [← hms] at hloop
  simp only [copyValueAux, copyObjectAux]
  simp [hloop]

/-- Running the Pass chain `{index = i, pass, sub}` against an object
whose member `i` has an object value: members other than `i` are kept
unchanged, and member `i` keeps its name while its value becomes the
result of running `sub` against it. -/
theorem copyValue_pass_run :
    ∀ (f : Nat) (ms pre post : CMembers) (nI : CVal) (ms2 : CMembers)
      (i : Nat) (sub : nxt_conf_json_op_t) (inner : CVal),
      ms = pre.append (.cons nI (.object ms2) post) → i = pre.length →
      (∀ g, (CVal.object ms2).treeSize + sub.treeSize + 3 ≤ g →
        copyValueAux g (.object ms2) (.op sub) = some inner) →
      ms.treeSize + sub.treeSize + 7 ≤ f →
      copyValueAux f (.object ms) (.op (.mk i .pass (.op sub) .null)) =
        some (.object (pre.append (.cons nI inner post))) := by
  intro f ms pre post nI ms2 i sub inner hms hi hsub hf
  have hp1 := CMembers.one_le_treeSizeMems pre
  have hp2 := CMembers.one_le_treeSizeMems post
  have hp3 := CVal.one_le_treeSizeVal nI
  have hp4 := CMembers.one_le_treeSizeMems ms2
  have hp5 := nxt_conf_json_op_t.one_le_treeSizeOp sub
  have hta : (pre.append (.cons nI (.object ms2) post)).treeSize + 1
      = pre.treeSize + (CMembers.cons nI (.object ms2) post).treeSize :=
    CMembers.treeSize_append pre (.cons nI (.object ms2) post)
  have hrsz : (CMembers.cons nI (.object ms2) post).treeSize
      = 1 + nI.treeSize + (1 + ms2.treeSize) + post.treeSize := rfl
  have hmssz : ms.treeSize + 1
      = pre.treeSize + (CMembers.cons nI (.object ms2) post).treeSize := by
    rw [hms]; exact hta
  obtain ⟨f1, rfl⟩ : ∃ g, f = g + 1 := ⟨f - 1, by omega⟩
  obtain ⟨f2, rfl⟩ : ∃ g, f1 = g + 1 := ⟨f1 - 1, by omega⟩
  have hlen : ms.length = pre.length + (CMembers.cons nI (.object ms2) post).length := by
    rw [hms]; exact CMembers.length_append pre (.cons nI (.object ms2) post)
  have hlen2 : (CMembers.cons nI (.object ms2) post).length = 1 + post.length := by
    simp [CMembers.length]
  have hopsz : (nxt_conf_json_op_chain.op (.mk i .pass (.op sub) .null)).treeSize
      = sub.treeSize + 4 := by
    simp only [nxt_conf_json_op_chain.treeSize, nxt_conf_json_op_t.treeSize,
      nxt_conf_json_op_ctx.treeSize]
    omega
  have hsvsz : (CVal.object ms2).treeSize = 1 + ms2.treeSize := rfl
  have hrest : ∀ g idx,
      (CMembers.cons nI (.object ms2) post).treeSize +
        (nxt_conf_json_op_chain.op (.mk i .pass (.op sub) .null)).treeSize + 1 ≤ g →
      copyObjLoopAux g (.cons nI (.object ms2) post) ms.length (0 + pre.length)
        (0 + pre.length) ms.length idx (.op (.mk i .pass (.op sub) .null)) .null
        = some (.cons nI inner post) := by
    intro g idx hg
    have hi' : 0 + pre.length = i := by omega
    rw [hi']
    exact copyObjLoopAux_pass g nI (.object ms2) inner post ms.length i i ms.length idx sub
      hsub (by omega) (by omega)
      (by rw [hopsz, hrsz] at hg; rw [hsvsz]; omega)
  have hloop := copyObjLoopAux_prefix pre (.cons nI (.object ms2) post) ms.length 0 0
    ms.length 0 i .pass (.op sub) .null (.cons nI inner post) (by simp) (by omega) hrest f2
    (by rw [hopsz]; omega)
  rw [← hms] at hloop
  simp only [copyValueAux, copyObjectAux]
  simp [hloop]

theorem takeWhile_ne47_append : ∀ (a b : List Nat), (∀ c ∈ a, c ≠ 47) →
    (a ++ 47 :: b).takeWhile (fun c => c ≠ 47) = a
  | [], b, _ => by simp
  | x :: tl, b, h => by
    have hx : x ≠ 47 := h x (by simp)
    have ih := takeWhile_ne47_append tl b (fun c hc => h c (by simp [hc]))
    simpa [List.takeWhile_cons, hx] using ih

theorem dropWhile_ne47_append : ∀ (a b : List Nat), (∀ c ∈ a, c ≠ 47) →
    (a ++ 47 :: b).dropWhile (fun c => c ≠ 47) = 47 :: b
  | [], b, _ => by simp
  | x :: tl, b, h => by
    have hx : x ≠ 47 := h x (by simp)
    have ih := dropWhile_ne47_append tl b (fun c hc => h c (by simp [hc]))
    simpa [List.dropWhile_cons, hx] using ih

theorem takeWhile_ne47_all : ∀ (a : List Nat), (∀ c ∈ a, c ≠ 47) →
    a.takeWhile (fun c => c ≠ 47) = a
  | [], _ => by simp
  | x :: tl, h => by
    have hx : x ≠ 47 := h x (by simp)
    have ih := takeWhile_ne47_all tl (fun c hc => h c (by simp [hc]))
    simpa [List.takeWhile_cons, hx] using ih

theorem dropWhile_ne47_all : ∀ (a : List Nat), (∀ c ∈ a, c ≠ 47) →
    a.dropWhile (fun c => c ≠ 47) = []
  | [], _ => by simp
  | x :: tl, h => by
    have hx : x ≠ 47 := h x (by simp)
    have ih := dropWhile_ne47_all tl (fun c hc => h c (by simp [hc]))
    simpa [List.dropWhile_cons, hx] using ih

/-- `nxt_conf_json_op_compile` on a terminal path segment `/b` of an
object: the four outcomes determined by the presence of the key and of a
new value. -/
theorem op_compile_terminal (ms : CMembers) (b : List Nat) (value : Option CVal)
    (hb : ∀ c ∈ b, c ≠ 47) :
    nxt_conf_json_op_compile (.object ms) value (47 :: b) =
      match value, getMemberLoop ms b 0 with
      | none, none => .declined
      | none, some iv => .ok (.mk iv.1 .delete .null .null)
      | some w, some iv => .ok (.mk iv.1 .replace (.value w) .null)
      | some w, none =>
        .ok (.mk 0 .create
          (.member (if b.length > NXT_CONF_JSON_STR_SIZE then .string b
                    else .shortString b) w) .null) := by
  rw [nxt_conf_json_op_compile.eq_def]
  simp only [List.drop_succ_cons, List.drop_zero, takeWhile_ne47_all b hb,
    dropWhile_ne47_all b hb, nxt_conf_json_object_get_member]
  cases value with
  | none =>
    cases h : getMemberLoop ms b 0 with
    | none => simp [h]
    | some iv => simp [h]
  | some w =>
    cases h : getMemberLoop ms b 0 with
    | none => simp [h]
    | some iv => simp [h]

/-- `nxt_conf_json_op_compile` on a two-segment path `/a/b`: a Pass op at
the index of member `a`, chaining the op compiled for `/b` against that
member's value. -/
theorem op_compile_two_seg (ms : CMembers) (a b : List Nat) (value : Option CVal)
    (i : Nat) (av : CVal)
    (ha : ∀ c ∈ a, c ≠ 47) (hb : ∀ c ∈ b, c ≠ 47)
    (hma : getMemberLoop ms a 0 = some (i, av)) :
    nxt_conf_json_op_compile (.object ms) value (47 :: (a ++ 47 :: b)) =
      match nxt_conf_json_op_compile av value (47 :: b) with
      | .declined => .declined
      | .ok sub => .ok (.mk i .pass (.op sub) .null) := by
  rw [nxt_conf_json_op_compile.eq_def]
  simp only [List.drop_succ_cons, List.drop_zero, takeWhile_ne47_append a b ha,
    dropWhile_ne47_append a b ha, nxt_conf_json_object_get_member, hma]
  simp

/-- `nxt_conf_json_op_compile` declines a non-terminal segment whose key
is absent. -/
theorem op_compile_nonterminal_absent (ms : CMembers) (a b : List Nat) (value : Option CVal)
    (ha : ∀ c ∈ a, c ≠ 47)
    (hma : getMemberLoop ms a 0 = none) :
    nxt_conf_json_op_compile (.object ms) value (47 :: (a ++ 47 :: b)) = .declined := by
  rw [nxt_conf_json_op_compile.eq_def]
  simp only [List.drop_succ_cons, List.drop_zero, takeWhile_ne47_append a b ha,
    dropWhile_ne47_append a b ha, nxt_conf_json_object_get_member, hma]
  simp

/-- C5: for every tree whose path /a/b names an existing object member,
compiling the edit (path /a/b, replacement value w) yields a
Pass-then-Replace chain, and cloning through that chain produces a tree
equal to the original at every position except member b of member a,
which keeps its key and whose value becomes w (`CMembers.setValue`
replaces exactly the value at one index and keeps everything else). -/
theorem C5_replace_frame (ms ms2 : CMembers) (a b : List Nat) (i j : Nat) (bv w : CVal)
    (ha : ∀ c ∈ a, c ≠ 47) (hb : ∀ c ∈ b, c ≠ 47)
    (hma : getMemberLoop ms a 0 = some (i, .object ms2))
    (hmb : getMemberLoop ms2 b 0 = some (j, bv)) :
    nxt_conf_json_op_compile (.object ms) (some w) (47 :: (a ++ 47 :: b)) =
      .ok (.mk i .pass (.op (.mk j .replace (.value w) .null)) .null) ∧
    nxt_conf_json_clone_value (.object ms)
        (.op (.mk i .pass (.op (.mk j .replace (.value w) .null)) .null)) =
      some (.object (ms.setValue i (.object (ms2.setValue j w)))) := by
  constructor
  · rw [op_compile_two_seg ms a b (some w) i (.object ms2) ha hb hma,
      op_compile_terminal ms2 b (some w) hb]
    simp [hmb]
  · obtain ⟨pre, post, nI, hms1, hilen, _⟩ := getMemberLoop_split ms a 0 i (.object ms2) hma
    obtain ⟨pre2, post2, nJ, hms2, hjlen, _⟩ := getMemberLoop_split ms2 b 0 j bv hmb
    have hi : i = pre.length := by omega
    have hj : j = pre2.length := by omega
    have hop2sz : (nxt_conf_json_op_t.mk j .replace (.value w) .null).treeSize
        = w.treeSize + 3 := by
      simp only [nxt_conf_json_op_t.treeSize, nxt_conf_json_op_ctx.treeSize,
        nxt_conf_json_op_chain.treeSize]
      omega
    have hsv : (CVal.object ms2).treeSize = 1 + ms2.treeSize := rfl
    have hinner : ∀ g, (CVal.object ms2).treeSize +
        (nxt_conf_json_op_t.mk j .replace (.value w) .null).treeSize + 3 ≤ g →
        copyValueAux g (.object ms2) (.op (.mk j .replace (.value w) .null)) =
          some (.object (pre2.append (.cons nJ w post2))) := by
      intro g hg
      exact copyValue_replace_run g ms2 pre2 post2 nJ bv w j hms2 hj
        (by rw [hop2sz, hsv] at hg; omega)
    have hchsz : (nxt_conf_json_op_chain.op
        (.mk i .pass (.op (.mk j .replace (.value w) .null)) .null)).treeSize
        = w.treeSize + 7 := by
      simp only [nxt_conf_json_op_chain.treeSize, nxt_conf_json_op_t.treeSize,
        nxt_conf_json_op_ctx.treeSize]
      omega
    have hmsz : (CVal.object ms).treeSize = 1 + ms.treeSize := rfl
    have hrun := copyValue_pass_run
      ((CVal.object ms).treeSize +
        (nxt_conf_json_op_chain.op
          (.mk i .pass (.op (.mk j .replace (.value w) .null)) .null)).treeSize + 2)
      ms pre post nI ms2 i (.mk j .replace (.value w) .null)
      (.object (pre2.append (.cons nJ w post2))) hms1 hi hinner
      (by rw [hchsz, hop2sz, hmsz]; omega)
    have e2 : ms2.setValue j w = pre2.append (.cons nJ w post2) := by
      rw [hms2, hj]
      exact CMembers.setValue_append pre2 nJ bv w post2
    have e1 : ms.setValue i (.object (ms2.setValue j w))
        = pre.append (.cons nI (.object (ms2.setValue j w)) post) := by
      rw [hms1, hi]
      exact CMembers.setValue_append pre nI (.object ms2) (.object (ms2.setValue j w)) post
    simp only [nxt_conf_json_clone_value, nxt_conf_json_copy_value]
    rw [hrun, e1, e2]

theorem C5_witness :
    (∀ c ∈ ([97] : List Nat), c ≠ 47) ∧ (∀ c ∈ ([99] : List Nat), c ≠ 47) ∧
    getMemberLoop (.cons (.shortString [97]) (.object (.cons (.shortString [98]) (.integer 1)
        (.cons (.shortString [99]) (.integer 2) .nil))) .nil) [97] 0
      = some (0, .object (.cons (.shortString [98]) (.integer 1)
          (.cons (.shortString [99]) (.integer 2) .nil))) ∧
    getMemberLoop (.cons (.shortString [98]) (.integer 1)
        (.cons (.shortString [99]) (.integer 2) .nil)) [99] 0 = some (1, .integer 2) ∧
    (nxt_conf_json_op_compile
        (.object (.cons (.shortString [97]) (.object (.cons (.shortString [98]) (.integer 1)
          (.cons (.shortString [99]) (.integer 2) .nil))) .nil))
        (some (.integer 3)) (47 :: ([97] ++ 47 :: [99]))
      = .ok (.mk 0 .pass (.op (.mk 1 .replace (.value (.integer 3)) .null)) .null) ∧
    nxt_conf_json_clone_value
        (.object (.cons (.shortString [97]) (.object (.cons (.shortString [98]) (.integer 1)
          (.cons (.shortString [99]) (.integer 2) .nil))) .nil))
        (.op (.mk 0 .pass (.op (.mk 1 .replace (.value (.integer 3)) .null)) .null))
      = some (.object ((CMembers.cons (.shortString [97])
          (.object (.cons (.shortString [98]) (.integer 1)
            (.cons (.shortString [99]) (.integer 2) .nil))) .nil).setValue 0
          (.object ((CMembers.cons (.shortString [98]) (.integer 1)
            (.cons (.shortString [99]) (.integer 2) .nil)).setValue 1 (.integer 3)))))) :=
  ⟨by decide, by decide, by decide, by decide,
   C5_replace_frame
     (.cons (.shortString [97]) (.object (.cons (.shortString [98]) (.integer 1)
       (.cons (.shortString [99]) (.integer 2) .nil))) .nil)
     (.cons (.shortString [98]) (.integer 1) (.cons (.shortString [99]) (.integer 2) .nil))
     [97] [99] 0 1 (.integer 2) (.integer 3)
     (by decide) (by decide) (by decide) (by decide)⟩

/-- C6: three-valued result semantics of edit compilation and cloning.
`nxt_conf_json_op_compile` declines when a non-terminal segment names an
absent member, and when the value is NULL (delete) and the terminal key
is absent; for a present terminal key and a non-NULL value it emits a
Replace op carrying the value; for an absent terminal key it emits a
Create op carrying a freshly built member whose name uses the short
encoding iff it fits `NXT_CONF_JSON_STR_SIZE`; and running any op node
against a non-object value makes the clone fail (NXT_ERROR).  (The
out-of-memory NXT_ERROR paths of the C code are unreachable in the
embedding, where allocation cannot fail.) -/
theorem C6_edit_outcomes :
    (∀ (ms : CMembers) (a b : List Nat) (value : Option CVal),
      (∀ c ∈ a, c ≠ 47) → getMemberLoop ms a 0 = none →
      nxt_conf_json_op_compile (.object ms) value (47 :: (a ++ 47 :: b)) = .declined) ∧
    (∀ (ms : CMembers) (b : List Nat),
      (∀ c ∈ b, c ≠ 47) → getMemberLoop ms b 0 = none →
      nxt_conf_json_op_compile (.object ms) none (47 :: b) = .declined) ∧
    (∀ (ms : CMembers) (b : List Nat) (w : CVal) (i : Nat) (bv : CVal),
      (∀ c ∈ b, c ≠ 47) → getMemberLoop ms b 0 = some (i, bv) →
      nxt_conf_json_op_compile (.object ms) (some w) (47 :: b)
        = .ok (.mk i .replace (.value w) .null)) ∧
    (∀ (ms : CMembers) (b : List Nat) (w : CVal),
      (∀ c ∈ b, c ≠ 47) → getMemberLoop ms b 0 = none →
      nxt_conf_json_op_compile (.object ms) (some w) (47 :: b)
        = .ok (.mk 0 .create
            (.member (if b.length > NXT_CONF_JSON_STR_SIZE then .string b
                      else .shortString b) w) .null)) ∧
    (∀ (v : CVal) (o : nxt_conf_json_op_t), v.isObject = false →
      nxt_conf_json_clone_value v (.op o) = none) := by
  refine ⟨?_, ?_, ?_, ?_, ?_⟩
  · intro ms a b value ha h
    exact op_compile_nonterminal_absent ms a b value ha h
  · intro ms b hb h
    rw [op_compile_terminal ms b none hb]
    simp [h]
  · intro ms b w i bv hb h
    rw [op_compile_terminal ms b (some w) hb]
    simp [h]
  · intro ms b w hb h
    rw [op_compile_terminal ms b (some w) hb]
    simp [h]
  · intro v o hv
    simp only [nxt_conf_json_clone_value, nxt_conf_json_copy_value]
    obtain ⟨f, hf⟩ : ∃ f,
        v.treeSize + (nxt_conf_json_op_chain.op o).treeSize + 2 = f + 1 :=
      ⟨v.treeSize + (nxt_conf_json_op_chain.op o).treeSize + 1, by omega⟩
    rw [hf]
    cases v <;> simp_all [copyValueAux, CVal.isObject]

/-- C4 (amended): the short-string (inline) encoding is chosen iff the
PRE-DECODE size estimate `(last - pos) - surplus` of the scanned span is
at most NXT_CONF_JSON_STR_SIZE (14) — not the decoded length, which the
estimate can exceed when a `\uXXXX` escape decodes to fewer than 3
bytes; and the printer treats the two variants identically in both the
sizing and the emit pass, for both styles. -/
theorem C4_variant_by_estimate :
    (∀ (l span : List Nat) (surplus : Nat) (rest : List Nat) (v : CVal) (r : List Nat),
      strScan l .usual = some (span, surplus, rest) →
      nxt_conf_json_parse_string (34 :: l) = some (v, r) →
      ((∃ s, v = .shortString s) ↔ span.length - surplus ≤ NXT_CONF_JSON_STR_SIZE)) ∧
    (∀ s : List Nat,
      printCompact (.string s) = printCompact (.shortString s) ∧
      printPretty (.string s) = printPretty (.shortString s) ∧
      printCompactSize (.string s) = printCompactSize (.shortString s) ∧
      printPrettySize (.string s) = printPrettySize (.shortString s)) := by
  constructor
  · intro l span surplus rest v r hscan hparse
    simp only [nxt_conf_json_parse_string, hscan] at hparse
    by_cases hs : surplus = 0
    · rw [if_pos hs] at hparse
      by_cases hgt : span.length - surplus > NXT_CONF_JSON_STR_SIZE
      · rw [if_pos hgt] at hparse
        obtain ⟨rfl, rfl⟩ : CVal.string span = v ∧ rest = r := by cases hparse; exact ⟨rfl, rfl⟩
        constructor
        · rintro ⟨s, hv⟩; cases hv
        · omega
      · rw [if_neg hgt] at hparse
        obtain ⟨rfl, rfl⟩ : CVal.shortString span = v ∧ rest = r := by
          cases hparse; exact ⟨rfl, rfl⟩
        exact ⟨fun _ => by omega, fun _ => ⟨span, rfl⟩⟩
    · rw [if_neg hs] at hparse
      match hd : strDecode span with
      | none => rw [hd] at hparse; cases hparse
      | some content =>
        rw [hd] at hparse
        simp only [] at hparse
        by_cases hgt : span.length - surplus > NXT_CONF_JSON_STR_SIZE
        · rw [if_pos hgt] at hparse
          obtain ⟨rfl, rfl⟩ : CVal.string content = v ∧ rest = r := by
            cases hparse; exact ⟨rfl, rfl⟩
          constructor
          · rintro ⟨s, hv⟩; cases hv
          · omega
        · rw [if_neg hgt] at hparse
          obtain ⟨rfl, rfl⟩ : CVal.shortString content = v ∧ rest = r := by
            cases hparse; exact ⟨rfl, rfl⟩
          exact ⟨fun _ => by omega, fun _ => ⟨content, rfl⟩⟩
  · intro s
    exact ⟨rfl, rfl, rfl, rfl⟩

/-- C4 witness: the first part of the theorem applied to the scanned span
of "\u0041aaaaaaaaaaaa" (estimate 15, long variant chosen for a 13-byte
decoded string). -/
theorem C4_witness :
    strScan (bytes ("\\u0041aaaaaaaaaaaa\"")) .usual
      = some (bytes ("\\u0041aaaaaaaaaaaa"), 3, []) ∧
    nxt_conf_json_parse_string (34 :: bytes ("\\u0041aaaaaaaaaaaa\""))
      = some (.string (bytes ("Aaaaaaaaaaaa" ++ "a")), []) ∧
    ¬((∃ s, (CVal.string (bytes ("Aaaaaaaaaaaa" ++ "a"))) = CVal.shortString s)) :=
  ⟨by decide, by decide, by
    have h := (C4_variant_by_estimate.1 (bytes ("\\u0041aaaaaaaaaaaa\""))
      (bytes ("\\u0041aaaaaaaaaaaa")) 3 [] (.string (bytes ("Aaaaaaaaaaaa" ++ "a"))) []
      (by decide) (by decide))
    intro hex
    have := h.mp hex
    revert this
    decide⟩

/-- The escaped form is exactly `length + escape_size` bytes: the two
passes of `nxt_conf_json_escape` agree. -/
theorem escape_emit_length : ∀ s : List Nat,
    (nxt_conf_json_escape_emit s).length = s.length + nxt_conf_json_escape_size s
  | [] => rfl
  | ch :: tl => by
    have ih := escape_emit_length tl
    simp only [nxt_conf_json_escape_emit, nxt_conf_json_escape_size, List.length_append,
      List.length_cons, ih]
    by_cases h1 : ch > 31
    · by_cases h2 : ch = 92 ∨ ch = 34
      · simp [h1, h2]; omega
      · have h3 : ¬ (ch ≤ 31) := by omega
        simp [h1, h2, h3]; omega
    · have h3 : ch ≤ 31 := by omega
      have h4 : ¬ (ch = 92 ∨ ch = 34) := by omega
      by_cases h5 : ch = 10
      · simp [h1, h4, h5]; omega
      · by_cases h6 : ch = 13
        · simp [h1, h4, h5, h6]; omega
        · by_cases h7 : ch = 9
          · simp [h1, h4, h5, h6, h7]; omega
          · by_cases h8 : ch = 8
            · simp [h1, h4, h5, h6, h7, h8]; omega
            · by_cases h9 : ch = 12
              · simp [h1, h4, h5, h6, h7, h8, h9]; omega
              · simp [h1, h3, h4, h5, h6, h7, h8, h9]; omega

/-- The two passes of `nxt_conf_json_print_string` agree exactly. -/
theorem print_string_emit_length (v : CVal) :
    (nxt_conf_json_print_string_emit v).length = nxt_conf_json_print_string_size v := by
  simp [nxt_conf_json_print_string_emit, nxt_conf_json_print_string_size,
    escape_emit_length v.strContent]
  omega

/-- At most `k + 1` decimal digits for values below `10 ^ (k + 1)`. -/
theorem natDigits_length_le : ∀ (k n : Nat), n < 10 ^ (k + 1) → (natDigits n).length ≤ k + 1 := by
  intro k
  induction k with
  | zero =>
    intro n h
    rw [natDigits_eq, if_pos (by omega : n < 10)]
    simp
  | succ k ih =>
    intro n h
    by_cases h10 : n < 10
    · rw [natDigits_eq, if_pos h10]; simp
    · rw [natDigits_eq, if_neg h10]
      have hd : n / 10 < 10 ^ (k + 1) := by
        have h1 : 10 ^ (k + 1 + 1) = 10 ^ (k + 1) * 10 := by ring
        omega
      have := ih (n / 10) hd
      simp [List.length_append]
      omega

/-- The integer emit stays within the sizing pass's reservation for the
whole int64 magnitude range. -/
theorem print_integer_emit_le (i : Int) (h : i.natAbs ≤ 9223372036854775808) :
    (nxt_conf_json_print_integer_emit i).length ≤ nxt_conf_json_print_integer_size i := by
  simp only [nxt_conf_json_print_integer_emit, nxt_conf_json_print_integer_size]
  by_cases h1 : i.natAbs ≤ 9999
  · have hlen := natDigits_length_le 3 i.natAbs (by norm_num; omega)
    by_cases hneg : i < 0 <;> simp [hneg, h1] <;> omega
  · by_cases h2 : i.natAbs ≤ 99999999999
    · have hlen := natDigits_length_le 10 i.natAbs (by norm_num; omega)
      by_cases hneg : i < 0 <;> simp [hneg, h1, h2] <;> omega
    · have hlen := natDigits_length_le 18 i.natAbs (by norm_num; omega)
      by_cases hneg : i < 0 <;> simp [hneg, h1, h2] <;> omega

mutual

/-- Compact emit ends in the compact (NULL-pretty) state. -/
theorem emit_none_state : ∀ v : CVal, (nxt_conf_json_print_value_emit v none).2 = none
  | .null => rfl
  | .boolean b => by cases b <;> rfl
  | .integer i => rfl
  | .number => rfl
  | .shortString s => rfl
  | .string s => rfl
  | .array .nil => rfl
  | .array (.cons e0 tl) => by
    have h0 := emit_none_state e0
    have h1 := arrRest_none_state tl
    simp [nxt_conf_json_print_value_emit, h0, h1]
  | .object .nil => rfl
  | .object (.cons n v tl) => by
    have h1 := objMembers_none_state (.cons n v tl)
    simp [nxt_conf_json_print_value_emit, h1]
termination_by v => v.treeSize
decreasing_by
  all_goals simp [CVal.treeSize, CVals.treeSize, CMembers.treeSize]
  all_goals omega

theorem arrRest_none_state : ∀ es : CVals, (arrRestEmit es none).2 = none
  | .nil => rfl
  | .cons e tl => by
    have h0 := emit_none_state e
    have h1 := arrRest_none_state tl
    simp [arrRestEmit, h0, h1]
termination_by es => es.treeSize
decreasing_by
  all_goals simp [CVal.treeSize, CVals.treeSize, CMembers.treeSize]
  all_goals omega

theorem objMembers_none_state : ∀ ms : CMembers, (objMembersEmit ms none).2 = none
  | .nil => rfl
  | .cons n v .nil => by
    have h0 := emit_none_state v
    simp [objMembersEmit, h0]
  | .cons n v (.cons n2 v2 tl) => by
    have h0 := emit_none_state v
    have h1 := objMembers_none_state (.cons n2 v2 tl)
    rw [objMembersEmit.eq_5]
    simp [h0, h1]
termination_by ms => ms.treeSize
decreasing_by
  all_goals simp [CVal.treeSize, CVals.treeSize, CMembers.treeSize]
  all_goals omega

end

mutual

/-- Pretty emit restores the nesting level (only `more_space` may
change). -/
theorem emit_some_level : ∀ (v : CVal) (pr : nxt_conf_json_pretty_t),
    ∃ b, (nxt_conf_json_print_value_emit v (some pr)).2 = some ⟨pr.level, b⟩
  | .null, pr => ⟨pr.more_space, rfl⟩
  | .boolean b, pr => ⟨pr.more_space, by cases b <;> rfl⟩
  | .integer i, pr => ⟨pr.more_space, rfl⟩
  | .number, pr => ⟨pr.more_space, rfl⟩
  | .shortString s, pr => ⟨pr.more_space, rfl⟩
  | .string s, pr => ⟨pr.more_space, rfl⟩
  | .array .nil, pr => ⟨pr.more_space, rfl⟩
  | .array (.cons e0 tl), pr => by
    obtain ⟨b0, h0⟩ := emit_some_level e0 ⟨pr.level + 1, pr.more_space⟩
    obtain ⟨b1, h1⟩ := arrRest_some_level tl ⟨pr.level + 1, b0⟩
    exact ⟨true, by simp [nxt_conf_json_print_value_emit, h0, h1]⟩
  | .object .nil, pr => ⟨pr.more_space, rfl⟩
  | .object (.cons n v tl), pr => by
    obtain ⟨b1, h1⟩ := objMembers_some_level (.cons n v tl) ⟨pr.level + 1, pr.more_space⟩
    exact ⟨true, by simp [nxt_conf_json_print_value_emit, h1]⟩
termination_by v => v.treeSize
decreasing_by
  all_goals simp [CVal.treeSize, CVals.treeSize, CMembers.treeSize]
  all_goals omega

theorem arrRest_some_level : ∀ (es : CVals) (pr : nxt_conf_json_pretty_t),
    ∃ b, (arrRestEmit es (some pr)).2 = some ⟨pr.level, b⟩
  | .nil, pr => ⟨pr.more_space, rfl⟩
  | .cons e tl, pr => by
    obtain ⟨b0, h0⟩ := emit_some_level e ⟨pr.level, false⟩
    obtain ⟨b1, h1⟩ := arrRest_some_level tl ⟨pr.level, b0⟩
    exact ⟨b1, by simp [arrRestEmit, h0, h1]⟩
termination_by es => es.treeSize
decreasing_by
  all_goals simp [CVal.treeSize, CVals.treeSize, CMembers.treeSize]
  all_goals omega

theorem objMembers_some_level : ∀ (ms : CMembers) (pr : nxt_conf_json_pretty_t),
    ∃ b, (objMembersEmit ms (some pr)).2 = some ⟨pr.level, b⟩
  | .nil, pr => ⟨pr.more_space, rfl⟩
  | .cons n v .nil, pr => by
    obtain ⟨b0, h0⟩ := emit_some_level v pr
    exact ⟨b0, by simp [objMembersEmit, h0]⟩
  | .cons n v (.cons n2 v2 tl), pr => by
    obtain ⟨b0, h0⟩ := emit_some_level v pr
    by_cases hb : b0 = true
    · obtain ⟨b1, h1⟩ := objMembers_some_level (.cons n2 v2 tl) ⟨pr.level, false⟩
      refine ⟨b1, ?_⟩
      rw [objMembersEmit.eq_4]
      simp [h0, hb, h1]
    · have hb2 : b0 = false := by simpa using hb
      subst hb2
      obtain ⟨b1, h1⟩ := objMembers_some_level (.cons n2 v2 tl) ⟨pr.level, false⟩
      refine ⟨b1, ?_⟩
      rw [objMembersEmit.eq_4]
      simp [h0, h1]
termination_by ms => ms.treeSize
decreasing_by
  all_goals simp [CVal.treeSize, CVals.treeSize, CMembers.treeSize]
  all_goals omega

end

mutual

/-- The emit pass never writes more than the sizing pass reserved, for
values whose integers are in the int64 range. -/
theorem print_emit_le_size : ∀ (v : CVal) (p : Option nxt_conf_json_pretty_t),
    v.wf64 = true →
    ((nxt_conf_json_print_value_emit v p).1).length ≤
      nxt_conf_json_print_value_size v (p.map (fun q => q.level))
  | .null, p, _ => by
    cases p <;> simp [nxt_conf_json_print_value_emit, nxt_conf_json_print_value_size]
  | .boolean b, p, _ => by
    cases p <;> cases b <;>
      simp [nxt_conf_json_print_value_emit, nxt_conf_json_print_value_size]
  | .integer i, p, h => by
    have hle := print_integer_emit_le i (by simpa [CVal.wf64] using h)
    cases p <;>
      simpa [nxt_conf_json_print_value_emit, nxt_conf_json_print_value_size] using hle
  | .number, p, _ => by
    cases p <;> simp [nxt_conf_json_print_value_emit, nxt_conf_json_print_value_size]
  | .shortString s, p, _ => by
    have he := print_string_emit_length (.shortString s)
    cases p <;>
      simp [nxt_conf_json_print_value_emit, nxt_conf_json_print_value_size, he]
  | .string s, p, _ => by
    have he := print_string_emit_length (.string s)
    cases p <;>
      simp [nxt_conf_json_print_value_emit, nxt_conf_json_print_value_size, he]
  | .array .nil, p, _ => by
    cases p <;>
      simp [nxt_conf_json_print_value_emit, nxt_conf_json_print_value_size, arrElemsSize,
        CVals.length]
  | .array (.cons e0 tl), p, h => by
    have hw : e0.wf64 = true ∧ tl.wf64 = true := by
      simpa [CVal.wf64, CVals.wf64, Bool.and_eq_true] using h
    cases p with
    | none =>
      have h0 := emit_none_state e0
      have h1 := arrRest_none_state tl
      have he0 := print_emit_le_size e0 none hw.1
      have hr := arrRest_emit_le_size tl none hw.2
      simp only [Option.map_none'] at he0 hr
      simp only [nxt_conf_json_print_value_emit, nxt_conf_json_print_value_size, arrElemsSize,
        Option.map_none', h0, h1]
      simp only [List.append_nil, List.nil_append, List.length_append, List.length_nil,
        List.length_cons, CVals.length]
      omega
    | some pr =>
      obtain ⟨b0, h0⟩ := emit_some_level e0 ⟨pr.level + 1, pr.more_space⟩
      obtain ⟨b1, h1⟩ := arrRest_some_level tl ⟨pr.level + 1, b0⟩
      have he0 := print_emit_le_size e0 (some ⟨pr.level + 1, pr.more_space⟩) hw.1
      have hr := arrRest_emit_le_size tl (some ⟨pr.level + 1, b0⟩) hw.2
      simp only [Option.map_some'] at he0 hr
      simp only [nxt_conf_json_print_value_emit, nxt_conf_json_print_value_size, arrElemsSize,
        Option.map_some', h0, h1]
      simp only [List.length_append, List.length_nil, List.length_cons, List.length_replicate, CVals.length,
        List.append_nil, List.nil_append, Nat.add_sub_cancel]
      split_ifs <;> omega
  | .object .nil, p, _ => by
    cases p <;>
      simp [nxt_conf_json_print_value_emit, nxt_conf_json_print_value_size, objMembersSize]
  | .object (.cons n v tl), p, h => by
    have hw : n.wf64 = true ∧ v.wf64 = true ∧ tl.wf64 = true := by
      simpa [CVal.wf64, CMembers.wf64, Bool.and_eq_true, and_assoc] using h
    cases p with
    | none =>
      have hr := objMembers_emit_le_size_compact (.cons n v tl)
        (by simp [CMembers.wf64, hw.1, hw.2.1, hw.2.2])
      have h1 := objMembers_none_state (.cons n v tl)
      simp only [nxt_conf_json_print_value_emit, nxt_conf_json_print_value_size,
        Option.map_none', h1]
      simp only [List.length_append, List.length_nil, List.length_cons, List.nil_append, List.append_nil]
      omega
    | some pr =>
      have hr := objMembers_emit_le_size_pretty (.cons n v tl) ⟨pr.level + 1, pr.more_space⟩
        (by intro hc; cases hc)
        (by simp [CMembers.wf64, hw.1, hw.2.1, hw.2.2])
      obtain ⟨b1, h1⟩ := objMembers_some_level (.cons n v tl) ⟨pr.level + 1, pr.more_space⟩
      have hr2 : ((objMembersEmit (.cons n v tl) (some ⟨pr.level + 1, pr.more_space⟩)).1).length
          + 5 ≤ objMembersSize (.cons n v tl) (some (pr.level + 1)) := hr
      simp only [nxt_conf_json_print_value_emit, nxt_conf_json_print_value_size,
        Option.map_some', h1]
      simp only [List.length_append, List.length_nil, List.length_cons, List.length_replicate,
        List.nil_append, List.append_nil, Nat.add_sub_cancel]
      omega
termination_by v => v.treeSize
decreasing_by
  all_goals simp [CVal.treeSize, CVals.treeSize, CMembers.treeSize]
  all_goals omega

/-- The array-rest emit stays within the per-element sizing plus the
reserved comma slots. -/
theorem arrRest_emit_le_size : ∀ (es : CVals) (p : Option nxt_conf_json_pretty_t),
    es.wf64 = true →
    ((arrRestEmit es p).1).length ≤
      arrElemsSize es (p.map (fun q => q.level)) + CVals.length es
  | .nil, p, _ => by simp [arrRestEmit, arrElemsSize, CVals.length]
  | .cons e tl, p, h => by
    have hw : e.wf64 = true ∧ tl.wf64 = true := by
      simpa [CVals.wf64, Bool.and_eq_true] using h
    cases p with
    | none =>
      have h0 := emit_none_state e
      have he := print_emit_le_size e none hw.1
      have hr := arrRest_emit_le_size tl none hw.2
      simp only [Option.map_none'] at he hr
      simp only [arrRestEmit, arrElemsSize, Option.map_none', h0]
      simp only [List.length_append, List.length_nil, List.length_cons, List.nil_append, CVals.length]
      omega
    | some pr =>
      obtain ⟨b0, h0⟩ := emit_some_level e ⟨pr.level, false⟩
      have he := print_emit_le_size e (some ⟨pr.level, false⟩) hw.1
      have hr := arrRest_emit_le_size tl (some ⟨pr.level, b0⟩) hw.2
      simp only [Option.map_some'] at he hr
      simp only [arrRestEmit, arrElemsSize, Option.map_some', h0]
      simp only [List.length_append, List.length_nil, List.length_cons, List.length_replicate, CVals.length]
      omega
termination_by es => es.treeSize
decreasing_by
  all_goals simp [CVal.treeSize, CVals.treeSize, CMembers.treeSize]
  all_goals omega

/-- Compact object members: emit within the sizing. -/
theorem objMembers_emit_le_size_compact : ∀ (ms : CMembers), ms.wf64 = true →
    ((objMembersEmit ms none).1).length ≤ objMembersSize ms none
  | .nil, _ => by simp [objMembersEmit, objMembersSize]
  | .cons n v .nil, h => by
    have hw : n.wf64 = true ∧ v.wf64 = true := by
      simpa [CMembers.wf64, Bool.and_eq_true] using h
    have he := print_emit_le_size v none hw.2
    have hn := print_string_emit_length n
    simp only [Option.map_none'] at he
    rw [objMembersEmit.eq_3]
    simp only [objMembersSize, Option.map_none']
    simp only [List.length_append, List.length_nil, List.length_cons, List.nil_append]
    omega
  | .cons n v (.cons n2 v2 tl), h => by
    have hw : n.wf64 = true ∧ v.wf64 = true ∧ (CMembers.cons n2 v2 tl).wf64 = true := by
      simpa [CMembers.wf64, Bool.and_eq_true, and_assoc] using h
    have he := print_emit_le_size v none hw.2.1
    have hn := print_string_emit_length n
    have h0 := emit_none_state v
    have hr := objMembers_emit_le_size_compact (.cons n2 v2 tl) hw.2.2
    simp only [Option.map_none'] at he
    rw [objMembersEmit.eq_5]
    simp only [objMembersSize, Option.map_none', h0] at hr ⊢
    simp only [List.length_append, List.length_nil, List.length_cons, List.nil_append]
    omega
termination_by ms => ms.treeSize
decreasing_by
  all_goals simp [CVal.treeSize, CVals.treeSize, CMembers.treeSize]
  all_goals omega

/-- Pretty object members: emit plus a 5-byte margin (the last member's
unused separator reservation) within the sizing. -/
theorem objMembers_emit_le_size_pretty : ∀ (ms : CMembers) (pr : nxt_conf_json_pretty_t),
    ms ≠ .nil → ms.wf64 = true →
    ((objMembersEmit ms (some pr)).1).length + 5 ≤ objMembersSize ms (some pr.level)
  | .nil, pr, hne, _ => absurd rfl hne
  | .cons n v .nil, pr, _, h => by
    have hw : n.wf64 = true ∧ v.wf64 = true := by
      simpa [CMembers.wf64, Bool.and_eq_true] using h
    have he := print_emit_le_size v (some pr) hw.2
    have hn := print_string_emit_length n
    simp only [Option.map_some'] at he
    rw [objMembersEmit.eq_2]
    simp only [objMembersSize, Option.map_some']
    simp only [List.length_append, List.length_nil, List.length_cons, List.length_replicate, List.nil_append]
    omega
  | .cons n v (.cons n2 v2 tl), pr, _, h => by
    have hw : n.wf64 = true ∧ v.wf64 = true ∧ (CMembers.cons n2 v2 tl).wf64 = true := by
      simpa [CMembers.wf64, Bool.and_eq_true, and_assoc] using h
    have he := print_emit_le_size v (some pr) hw.2.1
    have hn := print_string_emit_length n
    obtain ⟨b0, h0⟩ := emit_some_level v pr
    simp only [Option.map_some'] at he
    by_cases hb : b0 = true
    · subst hb
      have hr := objMembers_emit_le_size_pretty (.cons n2 v2 tl) ⟨pr.level, false⟩
        (by intro hc; cases hc) hw.2.2
      have hr2 : ((objMembersEmit (.cons n2 v2 tl) (some ⟨pr.level, false⟩)).1).length + 5 ≤
          objMembersSize (.cons n2 v2 tl) (some pr.level) := hr
      rw [objMembersEmit.eq_4]
      simp only [objMembersSize, Option.map_some', h0] at hr2 ⊢
      simp [List.length_append, List.length_replicate]
      omega
    · have hb2 : b0 = false := by simpa using hb
      subst hb2
      have hr := objMembers_emit_le_size_pretty (.cons n2 v2 tl) ⟨pr.level, false⟩
        (by intro hc; cases hc) hw.2.2
      have hr2 : ((objMembersEmit (.cons n2 v2 tl) (some ⟨pr.level, false⟩)).1).length + 5 ≤
          objMembersSize (.cons n2 v2 tl) (some pr.level) := hr
      rw [objMembersEmit.eq_4]
      simp only [objMembersSize, Option.map_some', h0] at hr2 ⊢
      simp [List.length_append, List.length_replicate]
      omega
termination_by ms => ms.treeSize
decreasing_by
  all_goals simp [CVal.treeSize, CVals.treeSize, CMembers.treeSize]
  all_goals omega

end

/-- C1 (amended): for every value with int64-range integers and both
printing styles, the byte count of the sizing pass (print with NULL
buffer) is an UPPER BOUND on — not exactly equal to — the bytes written
by the emit pass: the integer sizing reserves fixed widths (5/12/20) and
the container sizing reserves a comma slot per element, so the sizing
pass can strictly over-reserve (see the counterexample theorem). -/
theorem C1_emit_within_size (v : CVal) (h : v.wf64 = true) :
    (printCompact v).length ≤ printCompactSize v ∧
    (printPretty v).length ≤ printPrettySize v := by
  constructor
  · have := print_emit_le_size v none h
    simpa [printCompact, printCompactSize] using this
  · have := print_emit_le_size v (some ⟨0, false⟩) h
    simpa [printPretty, printPrettySize] using this

/-- C1 witness: the bound at a small object with integers and strings
({"a": 1, "b": [2, "x"]}), in both styles. -/
theorem C1_witness :
    (CVal.object (.cons (.shortString [97]) (.integer 1)
      (.cons (.shortString [98]) (.array (.cons (.integer 2)
        (.cons (.shortString [120]) .nil))) .nil))).wf64 = true ∧
    (printCompact (.object (.cons (.shortString [97]) (.integer 1)
      (.cons (.shortString [98]) (.array (.cons (.integer 2)
        (.cons (.shortString [120]) .nil))) .nil)))).length ≤
      printCompactSize (.object (.cons (.shortString [97]) (.integer 1)
        (.cons (.shortString [98]) (.array (.cons (.integer 2)
          (.cons (.shortString [120]) .nil))) .nil))) ∧
    (printPretty (.object (.cons (.shortString [97]) (.integer 1)
      (.cons (.shortString [98]) (.array (.cons (.integer 2)
        (.cons (.shortString [120]) .nil))) .nil)))).length ≤
      printPrettySize (.object (.cons (.shortString [97]) (.integer 1)
        (.cons (.shortString [98]) (.array (.cons (.integer 2)
          (.cons (.shortString [120]) .nil))) .nil))) :=
  ⟨by decide,
   (C1_emit_within_size (.object (.cons (.shortString [97]) (.integer 1)
      (.cons (.shortString [98]) (.array (.cons (.integer 2)
        (.cons (.shortString [120]) .nil))) .nil))) (by decide)).1,
   (C1_emit_within_size (.object (.cons (.shortString [97]) (.integer 1)
      (.cons (.shortString [98]) (.array (.cons (.integer 2)
        (.cons (.shortString [120]) .nil))) .nil))) (by decide)).2⟩

/-!  ## Structural equivalence and the parser-output invariant (for the
roundtrip analysis of printing and re-parsing) -/

mutual
/-- Structural equivalence of values: equality except that the short and
long string variants compare by content.  (Object members compare in
order; the embedding keeps insertion order on both parse and print.) -/
def CVal.eqv : CVal → CVal → Bool
  | .null, .null => true
  | .boolean a, .boolean b => a == b
  | .integer a, .integer b => a == b
  | .number, .number => true
  | .shortString a, .shortString b => a == b
  | .shortString a, .string b => a == b
  | .string a, .shortString b => a == b
  | .string a, .string b => a == b
  | .array a, .array b => CVals.eqv a b
  | .object a, .object b => CMembers.eqv a b
  | _, _ => false
def CVals.eqv : CVals → CVals → Bool
  | .nil, .nil => true
  | .cons a as, .cons b bs => a.eqv b && CVals.eqv as bs
  | _, _ => false
def CMembers.eqv : CMembers → CMembers → Bool
  | .nil, .nil => true
  | .cons n v tl, .cons n2 v2 tl2 => n.eqv n2 && v.eqv v2 && CMembers.eqv tl tl2
  | _, _ => false
end

/-- String-variant test. -/
def CVal.isStr : CVal → Bool
  | .shortString _ => true
  | .string _ => true
  | _ => false

/-- A byte the parser can place in a decoded string: every byte ≥ 32, or
one of the mnemonic-escape controls, or a control byte both of whose hex
nibbles are ≤ 9 (the only controls the buggy `\uXXXX` decode can
produce).  Exactly these survive a print/re-parse cycle, because the
printer's `\u00XY` emission uses a hex digit ≥ 'A' — which the re-parse
would mis-decode — only for bytes outside this set. -/
def goodByte (c : Nat) : Bool :=
  32 ≤ c ∨ c = 8 ∨ c = 9 ∨ c = 10 ∨ c = 12 ∨ c = 13 ∨ c ≤ 9 ∨ (16 ≤ c ∧ c ≤ 25)

def GoodStr (s : List Nat) : Bool := s.all goodByte

mutual
/-- Invariant of every value the parser produces: no `.number` (the
floating-point body is compiled out), int64-range integers, strings of
good bytes, objects with string names and no duplicate keys. -/
def CVal.good : CVal → Bool
  | .null => true
  | .boolean _ => true
  | .integer i => i.natAbs ≤ 9223372036854775807
  | .number => false
  | .shortString s => GoodStr s
  | .string s => GoodStr s
  | .array es => es.good
  | .object ms => ms.good
def CVals.good : CVals → Bool
  | .nil => true
  | .cons e tl => e.good && tl.good
def CMembers.good : CMembers → Bool
  | .nil => true
  | .cons n v tl =>
    n.isStr && GoodStr n.strContent && v.good && !(tl.hasKey n.strContent) && tl.good
end

/-- The grammar of a span the validating scan accepts from the `usual`
state: raw bytes ≥ 32 other than the quote and backslash, simple
escapes, and `\uXXXX` with uppercase hex digits. -/
inductive SpanGood : List Nat → Prop
  | nil : SpanGood []
  | raw (c : Nat) (s : List Nat) :
      32 ≤ c → c ≠ 34 → c ≠ 92 → SpanGood s → SpanGood (c :: s)
  | esc (e : Nat) (s : List Nat) :
      (e = 34 ∨ e = 92 ∨ e = 47 ∨ e = 110 ∨ e = 114 ∨ e = 116 ∨ e = 98 ∨ e = 102) →
      SpanGood s → SpanGood (92 :: e :: s)
  | uesc (a b c d : Nat) (s : List Nat) :
      hexUC a = true → hexUC b = true → hexUC c = true → hexUC d = true →
      SpanGood s → SpanGood (92 :: 117 :: a :: b :: c :: d :: s)

/-- What the scan guarantees about the span it returns, per start
state. -/
def scanSpanShape : ScanState → List Nat → Prop
  | .usual, span => SpanGood span
  | .escape, span =>
    (∃ e s, span = e :: s ∧
      (e = 34 ∨ e = 92 ∨ e = 47 ∨ e = 110 ∨ e = 114 ∨ e = 116 ∨ e = 98 ∨ e = 102) ∧
      SpanGood s) ∨
    (∃ a b c d s, span = 117 :: a :: b :: c :: d :: s ∧ hexUC a = true ∧ hexUC b = true ∧
      hexUC c = true ∧ hexUC d = true ∧ SpanGood s)
  | .enc1, span => ∃ a b c d s, span = a :: b :: c :: d :: s ∧ hexUC a = true ∧
      hexUC b = true ∧ hexUC c = true ∧ hexUC d = true ∧ SpanGood s
  | .enc2, span => ∃ b c d s, span = b :: c :: d :: s ∧
      hexUC b = true ∧ hexUC c = true ∧ hexUC d = true ∧ SpanGood s
  | .enc3, span => ∃ c d s, span = c :: d :: s ∧ hexUC c = true ∧ hexUC d = true ∧ SpanGood s
  | .enc4, span => ∃ d s, span = d :: s ∧ hexUC d = true ∧ SpanGood s

/-- A successful scan returns a span of the shape its start state
promises; from the `usual` state, a `SpanGood` span. -/
theorem strScan_shape : ∀ (l : List Nat) (st : ScanState) (span : List Nat)
    (surplus : Nat) (rest : List Nat),
    strScan l st = some (span, surplus, rest) → scanSpanShape st span
  | [], st, span, surplus, rest => by
    intro h
    simp [strScan] at h
  | ch :: tl, st, span, surplus, rest => by
    intro h
    cases st with
    | usual =>
      simp only [strScan] at h
      by_cases h34 : ch = 34
      · rw [if_pos h34] at h
        simp only [Option.some.injEq, Prod.mk.injEq] at h
        obtain ⟨rfl, _, _⟩ := h
        exact SpanGood.nil
      · rw [if_neg h34] at h
        by_cases h92 : ch = 92
        · rw [if_pos h92] at h
          obtain ⟨⟨sp2, su2, re2⟩, hs, hval⟩ := Option.map_eq_some'.mp h
          simp only [Prod.mk.injEq] at hval
          obtain ⟨rfl, rfl, rfl⟩ := hval
          have hsh := strScan_shape tl .escape sp2 su2 re2 hs
          subst h92
          rcases hsh with ⟨e, s, rfl, he, hsg⟩ | ⟨a, b, c, d, s, rfl, ha, hb, hc, hd, hsg⟩
          · exact SpanGood.esc e s he hsg
          · exact SpanGood.uesc a b c d s ha hb hc hd hsg
        · rw [if_neg h92] at h
          by_cases h32 : 32 ≤ ch
          · rw [if_pos h32] at h
            obtain ⟨⟨sp2, su2, re2⟩, hs, hval⟩ := Option.map_eq_some'.mp h
            simp only [Prod.mk.injEq] at hval
            obtain ⟨rfl, rfl, rfl⟩ := hval
            have hsh := strScan_shape tl .usual sp2 su2 re2 hs
            exact SpanGood.raw ch sp2 h32 h34 h92 hsh
          · rw [if_neg h32] at h
            cases h
    | escape =>
      simp only [strScan] at h
      by_cases hsimple : ch = 34 ∨ ch = 92 ∨ ch = 47 ∨ ch = 110 ∨ ch = 114 ∨ ch = 116 ∨
          ch = 98 ∨ ch = 102
      · rw [if_pos hsimple] at h
        obtain ⟨⟨sp2, su2, re2⟩, hs, hval⟩ := Option.map_eq_some'.mp h
        simp only [Prod.mk.injEq] at hval
        obtain ⟨rfl, rfl, rfl⟩ := hval
        have hsh := strScan_shape tl .usual sp2 su2 re2 hs
        exact Or.inl ⟨ch, sp2, rfl, hsimple, hsh⟩
      · rw [if_neg hsimple] at h
        by_cases hu : ch = 117
        · rw [if_pos hu] at h
          obtain ⟨⟨sp2, su2, re2⟩, hs, hval⟩ := Option.map_eq_some'.mp h
          simp only [Prod.mk.injEq] at hval
          obtain ⟨rfl, rfl, rfl⟩ := hval
          have hsh := strScan_shape tl .enc1 sp2 su2 re2 hs
          obtain ⟨a, b, c, d, s, rfl, ha, hb, hc, hd, hsg⟩ := hsh
          subst hu
          exact Or.inr ⟨a, b, c, d, s, rfl, ha, hb, hc, hd, hsg⟩
        · rw [if_neg hu] at h
          cases h
    | enc1 =>
      simp only [strScan] at h
      by_cases hh : hexUC ch = true
      · rw [if_pos hh] at h
        obtain ⟨⟨sp2, su2, re2⟩, hs, hval⟩ := Option.map_eq_some'.mp h
        simp only [Prod.mk.injEq] at hval
        obtain ⟨rfl, rfl, rfl⟩ := hval
        obtain ⟨b, c, d, s, rfl, hb, hc, hd, hsg⟩ := strScan_shape tl .enc2 sp2 su2 re2 hs
        exact ⟨ch, b, c, d, s, rfl, hh, hb, hc, hd, hsg⟩
      · rw [if_neg hh] at h
        cases h
    | enc2 =>
      simp only [strScan] at h
      by_cases hh : hexUC ch = true
      · rw [if_pos hh] at h
        obtain ⟨⟨sp2, su2, re2⟩, hs, hval⟩ := Option.map_eq_some'.mp h
        simp only [Prod.mk.injEq] at hval
        obtain ⟨rfl, rfl, rfl⟩ := hval
        obtain ⟨c, d, s, rfl, hc, hd, hsg⟩ := strScan_shape tl .enc3 sp2 su2 re2 hs
        exact ⟨ch, c, d, s, rfl, hh, hc, hd, hsg⟩
      · rw [if_neg hh] at h
        cases h
    | enc3 =>
      simp only [strScan] at h
      by_cases hh : hexUC ch = true
      · rw [if_pos hh] at h
        obtain ⟨⟨sp2, su2, re2⟩, hs, hval⟩ := Option.map_eq_some'.mp h
        simp only [Prod.mk.injEq] at hval
        obtain ⟨rfl, rfl, rfl⟩ := hval
        obtain ⟨d, s, rfl, hd, hsg⟩ := strScan_shape tl .enc4 sp2 su2 re2 hs
        exact ⟨ch, d, s, rfl, hh, hd, hsg⟩
      · rw [if_neg hh] at h
        cases h
    | enc4 =>
      simp only [strScan] at h
      by_cases hh : hexUC ch = true
      · rw [if_pos hh] at h
        obtain ⟨⟨sp2, su2, re2⟩, hs, hval⟩ := Option.map_eq_some'.mp h
        simp only [Prod.mk.injEq] at hval
        obtain ⟨rfl, rfl, rfl⟩ := hval
        have hsg := strScan_shape tl .usual sp2 su2 re2 hs
        exact ⟨ch, sp2, rfl, hh, hsg⟩
      · rw [if_neg hh] at h
        cases h

/-- The buggy nibble decode maps every accepted hex digit to 0-9. -/
theorem uhexNibble_le (c : Nat) (h : hexUC c = true) : uhexNibble c ≤ 9 := by
  simp only [hexUC, decide_eq_true_eq] at h
  simp only [uhexNibble]
  split <;> omega

/-- Every byte of a good span is ≥ 32 (raw bytes by the scan check,
escape and hex bytes as ASCII). -/
theorem spanGood_ge32 : ∀ (s : List Nat), SpanGood s → ∀ x ∈ s, 32 ≤ x := by
  intro s hs
  induction hs with
  | nil => intro x hx; cases hx
  | raw c s h32 _ _ _ ih =>
    intro x hx
    rcases List.mem_cons.mp hx with rfl | hx
    · omega
    · exact ih x hx
  | esc e s he _ ih =>
    intro x hx
    rcases List.mem_cons.mp hx with rfl | hx
    · omega
    rcases List.mem_cons.mp hx with rfl | hx
    · omega
    · exact ih x hx
  | uesc a b c d s ha hb hc hd _ ih =>
    simp only [hexUC, decide_eq_true_eq] at ha hb hc hd
    intro x hx
    simp only [List.mem_cons] at hx
    rcases hx with rfl | rfl | rfl | rfl | rfl | rfl | hx
    · omega
    · omega
    · omega
    · omega
    · omega
    · omega
    · exact ih x hx

/-- Every byte of the UTF-8 encoding of a code point whose low hex
nibble is ≤ 9 is a good byte (multi-byte encodings are all ≥ 0x80). -/
theorem utf8_encode_good (cp : Nat) (h : cp % 16 ≤ 9) :
    ∀ x ∈ nxt_utf8_encode cp, goodByte x = true := by
  intro x hx
  simp only [nxt_utf8_encode] at hx
  by_cases h1 : cp < 128
  · rw [if_pos h1] at hx
    simp only [List.mem_singleton] at hx
    subst hx
    simp only [goodByte, decide_eq_true_eq]
    omega
  · rw [if_neg h1] at hx
    by_cases h2 : cp < 2048
    · rw [if_pos h2] at hx
      simp only [List.mem_cons, List.not_mem_nil, or_false] at hx
      rcases hx with rfl | rfl <;> (simp only [goodByte, decide_eq_true_eq]; omega)
    · rw [if_neg h2] at hx
      by_cases h3 : cp < 65536
      · rw [if_pos h3] at hx
        simp only [List.mem_cons, List.not_mem_nil, or_false] at hx
        rcases hx with rfl | rfl | rfl <;> (simp only [goodByte, decide_eq_true_eq]; omega)
      · rw [if_neg h3] at hx
        simp only [List.mem_cons, List.not_mem_nil, or_false] at hx
        rcases hx with rfl | rfl | rfl | rfl <;> (simp only [goodByte, decide_eq_true_eq]; omega)


/-- The decode of a good span yields only good bytes (over the fuelled
decode, any fuel). -/
theorem strDecodeAux_good : ∀ (fuel : Nat) (s : List Nat), SpanGood s →
    ∀ content, strDecodeAux fuel s = some content →
    ∀ x ∈ content, goodByte x = true := by
  intro fuel
  induction fuel with
  | zero =>
    intro s _ content h
    simp [strDecodeAux] at h
  | succ fuel ih =>
    intro s hs content h x hx
    cases hs with
    | nil =>
      simp only [strDecodeAux] at h
      cases h
      cases hx
    | raw c s h32 h34 h92 hsg =>
      simp only [strDecodeAux, if_neg h92] at h
      obtain ⟨c2, hc2, hval⟩ := Option.map_eq_some'.mp h
      subst hval
      rcases List.mem_cons.mp hx with rfl | hx
      · simp only [goodByte, decide_eq_true_eq]; omega
      · exact ih s hsg c2 hc2 x hx
    | esc e s he hsg =>
      rcases he with rfl | rfl | rfl | rfl | rfl | rfl | rfl | rfl <;>
        (simp only [strDecodeAux] at h
         norm_num at h
         obtain ⟨c2, hc2, hval⟩ := h
         subst hval
         rcases List.mem_cons.mp hx with rfl | hx
         · decide
         · exact ih s hsg c2 hc2 x hx)
    | uesc a b c d s ha hb hc hd hsg =>
      have na := uhexNibble_le a ha
      have nb := uhexNibble_le b hb
      have nc := uhexNibble_le c hc
      have nd := uhexNibble_le d hd
      have hcond : uhex4 a b c d < 0xd800 ∨ 0xdbff < uhex4 a b c d :=
        Or.inl (by simp only [uhex4]; omega)
      simp only [strDecodeAux] at h
      norm_num at h
      rw [if_pos hcond] at h
      obtain ⟨c2, hc2, hval⟩ := Option.map_eq_some'.mp h
      subst hval
      rcases List.mem_append.mp hx with hx | hx
      · exact utf8_encode_good (uhex4 a b c d) (by simp only [uhex4]; omega) x hx
      · exact ih s hsg c2 hc2 x hx

/-- The digit loop's cutoff keeps the magnitude within INT64_MAX. -/
theorem numDigitLoop_le : ∀ (l : List Nat) (acc k : Nat), acc ≤ 9223372036854775807 →
    ∀ res, numDigitLoop l acc k = some res → res.1 ≤ 9223372036854775807
  | [], acc, k, hacc, res => by
    intro h
    simp only [numDigitLoop, Option.some.injEq] at h
    subst h
    exact hacc
  | c :: tl, acc, k, hacc, res => by
    intro h
    simp only [numDigitLoop] at h
    by_cases hd : (c + 256 - 48) % 256 > 9
    · rw [if_pos hd] at h
      simp only [Option.some.injEq] at h
      subst h
      exact hacc
    · rw [if_neg hd] at h
      by_cases hcut : acc ≥ numCutoff ∧ (acc > numCutoff ∨ (c + 256 - 48) % 256 > numCutlim)
      · rw [if_pos hcut] at h
        cases h
      · rw [if_neg hcut] at h
        refine numDigitLoop_le tl (acc * 10 + (c + 256 - 48) % 256) (k + 1) ?_ res h
        simp only [numCutoff, numCutlim] at hcut
        omega

/-- Every integer the number parser produces is within INT64_MAX in
magnitude (and the parser never produces the `.number` variant). -/
theorem parse_number_good (l : List Nat) (v : CVal) (rest : List Nat)
    (h : nxt_conf_json_parse_number l = some (v, rest)) : v.good = true := by
  simp only [nxt_conf_json_parse_number] at h
  by_cases hneg : l.head? = some 45 <;> simp only [hneg, if_pos, if_neg, if_true, if_false,
    reduceIte] at h
  · cases hloop : numDigitLoop (List.drop 1 l) 0 0 with
    | none => rw [hloop] at h; cases h
    | some r =>
      obtain ⟨acc, n, rrest⟩ := r
      rw [hloop] at h
      simp only [] at h
      have hb := numDigitLoop_le (List.drop 1 l) 0 0 (by omega) (acc, n, rrest) hloop
      split at h
      · cases h
      · split at h
        · cases h
        · split at h
          · cases h
          · simp only [Option.some.injEq, Prod.mk.injEq] at h
            obtain ⟨rfl, rfl⟩ := h
            simp only [CVal.good, decide_eq_true_eq, Int.natAbs_mul, Int.natAbs_neg,
              Int.natAbs_one, Int.natAbs_ofNat, one_mul]
            simp only at hb
            omega
  · cases hloop : numDigitLoop l 0 0 with
    | none => rw [hloop] at h; cases h
    | some r =>
      obtain ⟨acc, n, rrest⟩ := r
      rw [hloop] at h
      simp only [] at h
      have hb := numDigitLoop_le l 0 0 (by omega) (acc, n, rrest) hloop
      split at h
      · cases h
      · split at h
        · cases h
        · split at h
          · cases h
          · simp only [Option.some.injEq, Prod.mk.injEq] at h
            obtain ⟨rfl, rfl⟩ := h
            simp only [CVal.good, decide_eq_true_eq, Int.natAbs_mul, Int.natAbs_neg,
              Int.natAbs_one, Int.natAbs_ofNat, one_mul]
            simp only at hb
            omega

/-- Every string value the string parser produces is a string variant
whose content is made of good bytes. -/
theorem parse_string_good (l : List Nat) (v : CVal) (rest : List Nat)
    (h : nxt_conf_json_parse_string l = some (v, rest)) :
    v.isStr = true ∧ GoodStr v.strContent = true := by
  simp only [nxt_conf_json_parse_string] at h
  match l with
  | [] => cases h
  | _ :: tl =>
    simp only [] at h
    cases hscan : strScan tl .usual with
    | none => rw [hscan] at h; cases h
    | some r =>
      obtain ⟨span, surplus, r2⟩ := r
      rw [hscan] at h
      simp only [] at h
      have hshape : SpanGood span := strScan_shape tl .usual span surplus r2 hscan
      have hge := spanGood_ge32 span hshape
      by_cases hz : surplus = 0
      · rw [if_pos hz] at h
        have hgood : GoodStr span = true := by
          simp only [GoodStr, List.all_eq_true]
          intro x hx
          simp only [goodByte, decide_eq_true_eq]
          have := hge x hx
          omega
        split at h <;>
          (simp only [Option.some.injEq, Prod.mk.injEq] at h
           obtain ⟨rfl, rfl⟩ := h
           exact ⟨rfl, hgood⟩)
      · rw [if_neg hz] at h
        cases hdec : strDecode span with
        | none => rw [hdec] at h; cases h
        | some content =>
          rw [hdec] at h
          simp only [] at h
          have hgood : GoodStr content = true := by
            simp only [GoodStr, List.all_eq_true]
            exact strDecodeAux_good (span.length + 1) span hshape content hdec
          split at h <;>
            (simp only [Option.some.injEq, Prod.mk.injEq] at h
             obtain ⟨rfl, rfl⟩ := h
             exact ⟨rfl, hgood⟩)

/-- Membership of a pushed member's key. -/
theorem CMembers.hasKey_push : ∀ (ms : CMembers) (n v : CVal) (k : List Nat),
    (ms.push n v).hasKey k = (ms.hasKey k || decide (n.strContent = k))
  | .nil, n, v, k => by simp [CMembers.push, CMembers.hasKey]
  | .cons n0 v0 tl, n, v, k => by
    simp [CMembers.push, CMembers.hasKey, CMembers.hasKey_push tl n v k]
    by_cases h : n0.strContent = k <;> simp [h] <;> tauto

/-- Pushing a fresh good member keeps the member array good. -/
theorem CMembers.good_pushM : ∀ (ms : CMembers) (n v : CVal),
    ms.good = true → n.isStr = true → GoodStr n.strContent = true → v.good = true →
    ms.hasKey n.strContent = false → (ms.push n v).good = true
  | .nil, n, v, hg, hn, hns, hv, hk => by
    simp [CMembers.push, CMembers.good, CMembers.hasKey, hn, hns, hv]
  | .cons n0 v0 tl, n, v, hg, hn, hns, hv, hk => by
    simp only [CMembers.good, Bool.and_eq_true, Bool.not_eq_true'] at hg
    obtain ⟨⟨⟨⟨hn0, hns0⟩, hv0⟩, hk0⟩, htl⟩ := hg
    have hk1 : n0.strContent ≠ n.strContent := by
      intro hc
      simp [CMembers.hasKey, hc] at hk
    have hk2 : tl.hasKey n.strContent = false := by
      cases htk : tl.hasKey n.strContent
      · rfl
      · simp [CMembers.hasKey, htk] at hk
    have hrec := CMembers.good_pushM tl n v htl hn hns hv hk2
    simp only [CMembers.push, CMembers.good, Bool.and_eq_true, Bool.not_eq_true']
    refine ⟨⟨⟨⟨hn0, hns0⟩, hv0⟩, ?_⟩, hrec⟩
    rw [CMembers.hasKey_push tl n v n0.strContent]
    simp [hk0]
    intro hc
    exact hk1 hc.symm

/-- Pushing a good element keeps the element array good. -/
theorem CVals.good_pushV : ∀ (es : CVals) (v : CVal), es.good = true → v.good = true →
    (es.push v).good = true
  | .nil, v, _, hv => by simp [CVals.push, CVals.good, hv]
  | .cons e tl, v, hg, hv => by
    simp only [CVals.good, Bool.and_eq_true] at hg
    have := CVals.good_pushV tl v hg.2 hv
    simp [CVals.push, CVals.good, hg.1, this]

/-- A string value with good content is good. -/
theorem CVal.good_of_str (v : CVal) (h1 : v.isStr = true) (h2 : GoodStr v.strContent = true) :
    v.good = true := by
  cases v <;> simp_all [CVal.isStr, CVal.good, CVal.strContent]

mutual

/-- Every value `nxt_conf_json_parse_value` produces satisfies the
parser-output invariant. -/
theorem parse_value_good : ∀ (fuel : Nat) (l : List Nat) (v : CVal) (rest : List Nat),
    nxt_conf_json_parse_value fuel l = some (v, rest) → v.good = true
  | 0, l, v, rest => by
    intro h
    simp [nxt_conf_json_parse_value] at h
  | fuel + 1, l, v, rest => by
    intro h
    simp only [nxt_conf_json_parse_value] at h
    match l with
    | [] => cases h
    | ch :: tl =>
      simp only [] at h
      split_ifs at h <;>
      first
        | exact parse_object_good fuel (ch :: tl) v rest h
        | exact parse_array_good fuel (ch :: tl) v rest h
        | exact CVal.good_of_str v (parse_string_good (ch :: tl) v rest h).1
            (parse_string_good (ch :: tl) v rest h).2
        | exact parse_number_good (ch :: tl) v rest h
        | (simp only [Option.some.injEq, Prod.mk.injEq] at h
           obtain ⟨rfl, rfl⟩ := h
           rfl)
        | cases h

theorem parse_object_good : ∀ (fuel : Nat) (l : List Nat) (v : CVal) (rest : List Nat),
    nxt_conf_json_parse_object fuel l = some (v, rest) → v.good = true
  | 0, l, v, rest => by
    intro h
    simp [nxt_conf_json_parse_object] at h
  | fuel + 1, l, v, rest => by
    intro h
    simp only [nxt_conf_json_parse_object] at h
    split at h
    · cases h
    · simp only [Option.some.injEq, Prod.mk.injEq] at h
      obtain ⟨rfl, rfl⟩ := h
      rfl
    · exact objMemberLoop_good fuel _ .nil v rest rfl h

theorem objMemberLoop_good : ∀ (fuel : Nat) (pos : List Nat) (acc : CMembers) (v : CVal)
    (rest : List Nat), acc.good = true → objMemberLoop fuel pos acc = some (v, rest) →
    v.good = true
  | 0, pos, acc, v, rest => by
    intro _ h
    simp [objMemberLoop] at h
  | fuel + 1, pos, acc, v, rest => by
    intro hacc h
    simp only [objMemberLoop] at h
    split at h
    · rename_i ptl
      cases hps : nxt_conf_json_parse_string (34 :: ptl) with
      | none => rw [hps] at h; cases h
      | some r =>
        obtain ⟨name, p1⟩ := r
        rw [hps] at h
        simp only [] at h
        obtain ⟨hnstr, hngood⟩ := parse_string_good (34 :: ptl) name p1 hps
        split at h
        · cases h
        · rename_i hkey
          split at h
          · rename_i tl2 heq2
            split at h
            · cases h
            · rename_i p3 hp3
              cases hpv : nxt_conf_json_parse_value fuel (nxt_conf_json_skip_space tl2) with
              | none => rw [hpv] at h; cases h
              | some r2 =>
                obtain ⟨v2, p4⟩ := r2
                rw [hpv] at h
                simp only [] at h
                have hv2 := parse_value_good fuel (nxt_conf_json_skip_space tl2) v2 p4 hpv
                have hkey2 : acc.hasKey name.strContent = false := by
                  cases hkk : acc.hasKey name.strContent
                  · rfl
                  · exact absurd hkk hkey
                have hpush := CMembers.good_pushM acc name v2 hacc hnstr hngood hv2 hkey2
                split at h
                · simp only [Option.some.injEq, Prod.mk.injEq] at h
                  obtain ⟨rfl, rfl⟩ := h
                  simpa [CVal.good] using hpush
                · split at h
                  · cases h
                  · exact objMemberLoop_good fuel _ (acc.push name v2) v rest hpush h
                · cases h
          · cases h
    · cases h

theorem parse_array_good : ∀ (fuel : Nat) (l : List Nat) (v : CVal) (rest : List Nat),
    nxt_conf_json_parse_array fuel l = some (v, rest) → v.good = true
  | 0, l, v, rest => by
    intro h
    simp [nxt_conf_json_parse_array] at h
  | fuel + 1, l, v, rest => by
    intro h
    simp only [nxt_conf_json_parse_array] at h
    split at h
    · cases h
    · simp only [Option.some.injEq, Prod.mk.injEq] at h
      obtain ⟨rfl, rfl⟩ := h
      rfl
    · exact arrElementLoop_good fuel _ .nil v rest rfl h

theorem arrElementLoop_good : ∀ (fuel : Nat) (pos : List Nat) (acc : CVals) (v : CVal)
    (rest : List Nat), acc.good = true → arrElementLoop fuel pos acc = some (v, rest) →
    v.good = true
  | 0, pos, acc, v, rest => by
    intro _ h
    simp [arrElementLoop] at h
  | fuel + 1, pos, acc, v, rest => by
    intro hacc h
    simp only [arrElementLoop] at h
    cases hpv : nxt_conf_json_parse_value fuel pos with
    | none => rw [hpv] at h; cases h
    | some r =>
      obtain ⟨v2, p1⟩ := r
      rw [hpv] at h
      simp only [] at h
      have hv2 := parse_value_good fuel pos v2 p1 hpv
      have hpush := CVals.good_pushV acc v2 hacc hv2
      split at h
      · simp only [Option.some.injEq, Prod.mk.injEq] at h
        obtain ⟨rfl, rfl⟩ := h
        simpa [CVal.good] using hpush
      · split at h
        · cases h
        · exact arrElementLoop_good fuel _ (acc.push v2) v rest hpush h
      · cases h

end

/-- Parse-level goodness of the whole `nxt_conf_json_parse`. -/
theorem nxt_conf_json_parse_good (l : List Nat) (v : CVal)
    (h : nxt_conf_json_parse l = some v) : v.good = true := by
  simp only [nxt_conf_json_parse] at h
  split at h
  · cases h
  · rename_i pos hpos
    cases hpv : nxt_conf_json_parse_value (3 * l.length + 3) (nxt_conf_json_skip_space l) with
    | none => rw [hpv] at h; cases h
    | some r =>
      obtain ⟨v2, rest2⟩ := r
      rw [hpv] at h
      simp only [] at h
      have := parse_value_good (3 * l.length + 3) (nxt_conf_json_skip_space l) v2 rest2 hpv
      split at h
      · cases h
        exact this
      · cases h

/-- The bytes that may legally follow a printed value in a compact
composite: nothing, a comma, or a closing bracket or brace. -/
def restStop : List Nat → Prop
  | [] => True
  | c :: _ => c = 44 ∨ c = 93 ∨ c = 125

/-- Skipping space is the identity on a non-space head. -/
theorem skip_space_id (c : Nat) (t : List Nat) (h : ¬(c = 32 ∨ c = 9 ∨ c = 13 ∨ c = 10)) :
    nxt_conf_json_skip_space (c :: t) = c :: t := by
  simp [nxt_conf_json_skip_space, h]

/-- The decimal digits of `n`: nonempty, all in '0'-'9', and the leading
digit is nonzero for n ≥ 1. -/
theorem natDigits_head : ∀ n : Nat, ∃ d t, natDigits n = d :: t ∧ 48 ≤ d ∧ d ≤ 57 ∧
    (1 ≤ n → 49 ≤ d) := by
  intro n
  induction n using Nat.strong_induction_on with
  | _ n ih =>
    rw [natDigits_eq]
    by_cases h : n < 10
    · exact ⟨48 + n, [], by simp [h], by omega, by omega, by omega⟩
    · obtain ⟨d, t, hd, h1, h2, h3⟩ := ih (n / 10) (by omega)
      exact ⟨d, t ++ [48 + n % 10], by simp [h, hd], h1, h2, fun _ => h3 (by omega)⟩

/-- The value of a digit string, most significant first. -/
def digitsVal : List Nat → Nat
  | [] => 0
  | d :: tl => (d - 48) * 10 ^ tl.length + digitsVal tl

theorem digitsVal_append_single : ∀ (ds : List Nat) (x : Nat),
    digitsVal (ds ++ [x]) = digitsVal ds * 10 + (x - 48)
  | [], x => by simp [digitsVal]
  | d :: tl, x => by
    simp only [List.cons_append, digitsVal, List.append_eq, digitsVal_append_single tl x,
      List.length_append, List.length_cons, List.length_nil]
    rw [pow_succ]
    ring

/-- `natDigits` produces digits and represents its argument. -/
theorem natDigits_spec : ∀ n : Nat,
    (∀ d ∈ natDigits n, 48 ≤ d ∧ d ≤ 57) ∧ digitsVal (natDigits n) = n := by
  intro n
  induction n using Nat.strong_induction_on with
  | _ n ih =>
    rw [natDigits_eq]
    by_cases h : n < 10
    · rw [if_pos h]
      constructor
      · intro d hd
        simp only [List.mem_singleton] at hd
        omega
      · simp [digitsVal]
    · rw [if_neg h]
      obtain ⟨ihd, ihv⟩ := ih (n / 10) (by omega)
      constructor
      · intro d hd
        rcases List.mem_append.mp hd with hd | hd
        · exact ihd d hd
        · simp only [List.mem_singleton] at hd
          omega
      · rw [digitsVal_append_single, ihv]
        omega

/-- The digit loop consumes exactly a digit string followed by a stop
byte, accumulating its value, as long as the total stays within
INT64_MAX. -/
theorem numDigitLoop_run : ∀ (ds rest : List Nat) (acc k : Nat),
    (∀ d ∈ ds, 48 ≤ d ∧ d ≤ 57) → restStop rest →
    acc * 10 ^ ds.length + digitsVal ds ≤ 9223372036854775807 →
    numDigitLoop (ds ++ rest) acc k
      = some (acc * 10 ^ ds.length + digitsVal ds, k + ds.length, rest)
  | [], rest, acc, k, _, hstop, _ => by
    match rest with
    | [] => simp [numDigitLoop, digitsVal]
    | c :: t =>
      have hc : c = 44 ∨ c = 93 ∨ c = 125 := hstop
      simp only [List.nil_append, numDigitLoop]
      rw [if_pos (by omega : (c + 256 - 48) % 256 > 9)]
      simp [digitsVal]
  | d :: tl, rest, acc, k, hds, hstop, hbound => by
    have hd : 48 ≤ d ∧ d ≤ 57 := hds d (by simp)
    have hch : (d + 256 - 48) % 256 = d - 48 := by omega
    have hP : 1 ≤ 10 ^ tl.length := Nat.one_le_pow _ _ (by norm_num)
    have hsum : acc * 10 ^ (d :: tl).length + digitsVal (d :: tl)
        = (acc * 10 + (d - 48)) * 10 ^ tl.length + digitsVal tl := by
      simp only [List.length_cons, digitsVal, pow_succ]
      ring
    have hle : (acc * 10 + (d - 48)) * 10 ^ tl.length ≤ 9223372036854775807 := by
      rw [hsum] at hbound
      omega
    have hle2 : acc * 10 + (d - 48) ≤ 9223372036854775807 :=
      le_trans (Nat.le_mul_of_pos_right _ (by omega)) hle
    have hrec := numDigitLoop_run tl rest (acc * 10 + (d - 48)) (k + 1) 
      (fun x hx => hds x (by simp [hx])) hstop (by rw [hsum] at hbound; exact hbound)
    rw [List.cons_append]
    simp only [numDigitLoop]
    rw [hch]
    rw [if_neg (by omega : ¬(d - 48 > 9))]
    rw [if_neg (by simp only [numCutoff, numCutlim]; omega)]
    rw [hrec, hsum]
    have : k + (d :: tl).length = k + 1 + tl.length := by simp; omega
    rw [this]

/-- Re-parsing a printed int64-range integer recovers it exactly
(termination at the end of input or at a composite stop byte). -/
theorem parse_number_roundtrip (i : Int) (rest : List Nat)
    (hb : i.natAbs ≤ 9223372036854775807) (hstop : restStop rest) :
    nxt_conf_json_parse_number (nxt_conf_json_print_integer_emit i ++ rest)
      = some (.integer i, rest) := by
  obtain ⟨d, t, hdt, h48, h57, hlead⟩ := natDigits_head i.natAbs
  obtain ⟨hdig, hval⟩ := natDigits_spec i.natAbs
  have hrun := numDigitLoop_run (natDigits i.natAbs) rest 0 0 hdig hstop
    (by rw [hval]; omega)
  rw [hval] at hrun
  simp only [zero_mul, Nat.zero_add] at hrun
  have hlen1 : 1 ≤ (natDigits i.natAbs).length := by rw [hdt]; simp
  have hn0 : i.natAbs = 0 → (natDigits i.natAbs).length = 1 := by
    intro h0; rw [h0]; rfl
  have hzero : ¬((natDigits i.natAbs).length > 1 ∧
      (natDigits i.natAbs ++ rest).head? = some 48) := by
    rintro ⟨hgt, hhd⟩
    rw [hdt] at hhd
    simp only [List.cons_append, List.head?_cons, Option.some.injEq] at hhd
    have hpos : 1 ≤ i.natAbs := by
      by_contra hc
      have := hn0 (by omega)
      omega
    have := hlead hpos
    omega
  by_cases hneg : i < 0
  · have hemit : nxt_conf_json_print_integer_emit i = 45 :: natDigits i.natAbs := by
      simp [nxt_conf_json_print_integer_emit, hneg]
    rw [hemit, List.cons_append]
    simp only [nxt_conf_json_parse_number, List.head?_cons, List.drop_succ_cons,
      List.drop_zero]
    simp only [if_true]
    rw [hrun]
    simp only [Nat.zero_add]
    rw [if_neg (by omega : ¬((natDigits i.natAbs).length = 0))]
    rw [if_neg (by simpa using hzero)]
    have hint : (-1 : Int) * (i.natAbs : Int) = i := by omega
    match rest, hstop with
    | [], _ => simp [hint, abs_of_nonpos (by omega : i ≤ 0)]
    | c :: t2, hc =>
      have hc2 : c = 44 ∨ c = 93 ∨ c = 125 := hc
      split
      · rename_i heq
        simp only [List.cons.injEq] at heq
        omega
      · simp [hint, abs_of_nonpos (by omega : i ≤ 0)]
  · have hemit : nxt_conf_json_print_integer_emit i = natDigits i.natAbs := by
      simp [nxt_conf_json_print_integer_emit, hneg]
    rw [hemit]
    simp only [nxt_conf_json_parse_number]
    have hhd : (natDigits i.natAbs ++ rest).head? = some d := by
      rw [hdt]; simp
    rw [hhd]
    rw [if_neg (by simp; omega), if_neg (by simp; omega)]
    rw [hrun]
    simp only [Nat.zero_add]
    rw [if_neg (by omega : ¬((natDigits i.natAbs).length = 0))]
    rw [if_neg (by simpa using hzero)]
    have hint : (1 : Int) * (i.natAbs : Int) = i := by omega
    match rest, hstop with
    | [], _ => simp [hint, abs_of_nonneg (by omega : (0:Int) ≤ i)]
    | c :: t2, hc =>
      have hc2 : c = 44 ∨ c = 93 ∨ c = 125 := hc
      split
      · rename_i heq
        simp only [List.cons.injEq] at heq
        omega
      · simp [hint, abs_of_nonneg (by omega : (0:Int) ≤ i)]

/-- The surplus the validating scan counts over an escaped emission: 1
per simple escape, 3 per `\u00XY`. -/
def escSurplus : List Nat → Nat
  | [] => 0
  | c :: tl =>
    (if c = 92 ∨ c = 34 then 1
     else if c ≤ 31 then
       if c = 10 ∨ c = 13 ∨ c = 9 ∨ c = 8 ∨ c = 12 then 1 else 3
     else 0) + escSurplus tl

/-- One `\\u00XY` scan step. -/
theorem strScan_u_step (d1 d2 : Nat) (tl2 : List Nat) (h1 : hexUC d1 = true)
    (h2 : hexUC d2 = true) :
    strScan (92 :: 117 :: 48 :: 48 :: d1 :: d2 :: tl2) .usual
      = (strScan tl2 .usual).map
          (fun r => (92 :: 117 :: 48 :: 48 :: d1 :: d2 :: r.1, r.2.1 + 3, r.2.2)) := by
  have h48 : hexUC 48 = true := by decide
  cases hx : strScan tl2 .usual with
  | none => simp [strScan, h1, h2, h48, hx]
  | some r => simp [strScan, h1, h2, h48, hx]

/-- Scanning an escaped emission finds the closing quote right after it
and counts `escSurplus` surplus bytes. -/
theorem strScan_emit : ∀ (s rest : List Nat), GoodStr s = true →
    strScan (nxt_conf_json_escape_emit s ++ 34 :: rest) .usual
      = some (nxt_conf_json_escape_emit s, escSurplus s, rest)
  | [], rest, _ => by
    simp [nxt_conf_json_escape_emit, strScan, escSurplus]
  | c :: tl, rest, h => by
    have hgb : goodByte c = true ∧ GoodStr tl = true := by
      simpa [GoodStr, List.all_cons] using h
    have hc := hgb.1
    simp only [goodByte, decide_eq_true_eq] at hc
    have ih := strScan_emit tl rest hgb.2
    by_cases h31 : c > 31
    · by_cases hqe : c = 92 ∨ c = 34
      · have he : nxt_conf_json_escape_emit (c :: tl)
            = 92 :: c :: nxt_conf_json_escape_emit tl := by
          simp [nxt_conf_json_escape_emit, h31, hqe]
        have hsur : escSurplus (c :: tl) = 1 + escSurplus tl := by
          simp [escSurplus, hqe]
        rw [he, hsur, List.cons_append, List.cons_append]
        simp only [strScan, reduceIte]
        rw [if_pos (by omega : c = 34 ∨ c = 92 ∨ c = 47 ∨ c = 110 ∨ c = 114 ∨ c = 116 ∨
          c = 98 ∨ c = 102)]
        rw [ih]
        rw [if_neg (show ¬(92:Nat) = 34 by omega)]
        norm_num
        omega
      · have he : nxt_conf_json_escape_emit (c :: tl)
            = c :: nxt_conf_json_escape_emit tl := by
          simp only [nxt_conf_json_escape_emit]
          rw [if_pos h31, if_neg hqe]
          simp
        have hsur : escSurplus (c :: tl) = escSurplus tl := by
          simp [escSurplus, hqe]
          omega
        rw [he, hsur, List.cons_append]
        simp only [strScan]
        rw [if_neg (by omega : ¬c = 34), if_neg (by omega : ¬c = 92),
          if_pos (by omega : 32 ≤ c)]
        rw [ih]
        simp
    · have hqe : ¬(c = 92 ∨ c = 34) := by omega
      by_cases hmn : c = 10 ∨ c = 13 ∨ c = 9 ∨ c = 8 ∨ c = 12
      · rcases hmn with rfl | rfl | rfl | rfl | rfl <;>
          (simp only [nxt_conf_json_escape_emit, escSurplus, List.cons_append, strScan,
             List.append_eq, List.nil_append]
           norm_num [ih]
           omega)
      · have hlow : c ≤ 31 := by omega
        have hdig : c % 16 < 10 := by omega
        have he : nxt_conf_json_escape_emit (c :: tl)
            = 92 :: 117 :: 48 :: 48 :: (48 + c / 16) :: (48 + c % 16) ::
              nxt_conf_json_escape_emit tl := by
          simp only [nxt_conf_json_escape_emit]
          rw [if_neg (by omega : ¬c > 31), if_neg (by omega : ¬c = 10),
            if_neg (by omega : ¬c = 13), if_neg (by omega : ¬c = 9),
            if_neg (by omega : ¬c = 8), if_neg (by omega : ¬c = 12), if_pos hdig]
          simp
        have hsur : escSurplus (c :: tl) = 3 + escSurplus tl := by
          simp only [escSurplus]
          rw [if_neg hqe, if_pos hlow, if_neg (by omega : ¬(c = 10 ∨ c = 13 ∨ c = 9 ∨
            c = 8 ∨ c = 12))]
        rw [he, hsur]
        simp only [List.cons_append]
        rw [strScan_u_step (48 + c / 16) (48 + c % 16) (nxt_conf_json_escape_emit tl ++ 34 :: rest)
          (by simp [hexUC]; omega) (by simp [hexUC]; omega)]
        rw [ih]
        simp only [Option.map_some', Option.some.injEq, Prod.mk.injEq]
        refine ⟨trivial, by omega, trivial⟩

/-- Decoding an escaped emission recovers the original bytes. -/
theorem strDecodeAux_emit : ∀ (fuel : Nat) (s : List Nat), GoodStr s = true →
    (nxt_conf_json_escape_emit s).length + 1 ≤ fuel →
    strDecodeAux fuel (nxt_conf_json_escape_emit s) = some s
  | 0, s, _, hf => by omega
  | fuel + 1, [], _, _ => by simp [nxt_conf_json_escape_emit, strDecodeAux]
  | fuel + 1, c :: tl, h, hf => by
    have hgb : goodByte c = true ∧ GoodStr tl = true := by
      simpa [GoodStr, List.all_cons] using h
    have hc := hgb.1
    simp only [goodByte, decide_eq_true_eq] at hc
    by_cases h31 : c > 31
    · by_cases hqe : c = 92 ∨ c = 34
      · have he : nxt_conf_json_escape_emit (c :: tl)
            = 92 :: c :: nxt_conf_json_escape_emit tl := by
          simp [nxt_conf_json_escape_emit, h31, hqe]
        have hlen : (nxt_conf_json_escape_emit (c :: tl)).length
            = 2 + (nxt_conf_json_escape_emit tl).length := by
          rw [he]; simp only [List.length_cons]; omega
        have ih := strDecodeAux_emit fuel tl hgb.2 (by omega)
        rw [he]
        simp only [strDecodeAux, if_true]
        rw [if_pos (by omega : c = 34 ∨ c = 92 ∨ c = 47)]
        rw [ih]
        simp
      · have he : nxt_conf_json_escape_emit (c :: tl)
            = c :: nxt_conf_json_escape_emit tl := by
          simp only [nxt_conf_json_escape_emit]
          rw [if_pos h31, if_neg hqe]
          simp
        have hlen : (nxt_conf_json_escape_emit (c :: tl)).length
            = 1 + (nxt_conf_json_escape_emit tl).length := by
          rw [he]; simp only [List.length_cons]; omega
        have ih := strDecodeAux_emit fuel tl hgb.2 (by omega)
        rw [he]
        simp only [strDecodeAux]
        rw [if_neg (by omega : ¬c = 92)]
        rw [ih]
        simp
    · by_cases hmn : c = 10 ∨ c = 13 ∨ c = 9 ∨ c = 8 ∨ c = 12
      · have hlen : (nxt_conf_json_escape_emit (c :: tl)).length
            = 2 + (nxt_conf_json_escape_emit tl).length := by
          rcases hmn with rfl | rfl | rfl | rfl | rfl <;>
            (simp [nxt_conf_json_escape_emit]
             omega)
        have ih := strDecodeAux_emit fuel tl hgb.2 (by omega)
        rcases hmn with rfl | rfl | rfl | rfl | rfl <;>
          simp [nxt_conf_json_escape_emit, strDecodeAux, ih]
      · have hqe : ¬(c = 92 ∨ c = 34) := by omega
        have hdig : c % 16 < 10 := by omega
        have he : nxt_conf_json_escape_emit (c :: tl)
            = 92 :: 117 :: 48 :: 48 :: (48 + c / 16) :: (48 + c % 16) ::
              nxt_conf_json_escape_emit tl := by
          simp only [nxt_conf_json_escape_emit]
          rw [if_neg (by omega : ¬c > 31), if_neg (by omega : ¬c = 10),
            if_neg (by omega : ¬c = 13), if_neg (by omega : ¬c = 9),
            if_neg (by omega : ¬c = 8), if_neg (by omega : ¬c = 12), if_pos hdig]
          simp
        have hlen : (nxt_conf_json_escape_emit (c :: tl)).length
            = 6 + (nxt_conf_json_escape_emit tl).length := by
          rw [he]; simp only [List.length_cons]; omega
        have ih := strDecodeAux_emit fuel tl hgb.2 (by omega)
        have hn1 : uhexNibble 48 = 0 := by decide
        have hn3 : uhexNibble (48 + c / 16) = c / 16 := by
          simp only [uhexNibble]
          rw [if_neg (by omega : ¬65 ≤ 48 + c / 16)]
          omega
        have hn4 : uhexNibble (48 + c % 16) = c % 16 := by
          simp only [uhexNibble]
          rw [if_neg (by omega : ¬65 ≤ 48 + c % 16)]
          omega
        have hutf : uhex4 48 48 (48 + c / 16) (48 + c % 16) = c := by
          simp only [uhex4, hn1, hn3, hn4]
          omega
        have henc : nxt_utf8_encode c = [c] := by
          simp only [nxt_utf8_encode]
          rw [if_pos (by omega : c < 128)]
        rw [he]
        simp only [strDecodeAux, if_true]
        rw [hutf]
        rw [if_pos (by omega : c < 55296 ∨ 56319 < c)]
        rw [henc, ih]
        simp

/-- Zero surplus means no escapes: the emission is the identity. -/
theorem escSurplus_zero : ∀ s : List Nat, GoodStr s = true → escSurplus s = 0 →
    nxt_conf_json_escape_emit s = s
  | [], _, _ => rfl
  | c :: tl, h, hz => by
    have hgb : goodByte c = true ∧ GoodStr tl = true := by
      simpa [GoodStr, List.all_cons] using h
    by_cases hqe : c = 92 ∨ c = 34
    · simp [escSurplus, hqe] at hz
    · by_cases h31 : c ≤ 31
      · exfalso
        simp only [escSurplus] at hz
        rw [if_neg hqe, if_pos h31] at hz
        split at hz <;> omega
      · have ihz : escSurplus tl = 0 := by
          simp only [escSurplus] at hz
          rw [if_neg hqe, if_neg h31] at hz
          omega
        have ih := escSurplus_zero tl hgb.2 ihz
        simp only [nxt_conf_json_escape_emit]
        rw [if_pos (by omega : c > 31), if_neg hqe, ih]
        simp

/-- Re-parsing a printed string succeeds right through the closing quote
and recovers the content (in one of the two variants). -/
theorem parse_string_roundtrip (sv : CVal) (rest : List Nat) (h1 : sv.isStr = true)
    (h2 : GoodStr sv.strContent = true) :
    ∃ sv', nxt_conf_json_parse_string (nxt_conf_json_print_string_emit sv ++ rest)
        = some (sv', rest) ∧ sv'.isStr = true ∧ sv'.strContent = sv.strContent := by
  have hassoc : nxt_conf_json_print_string_emit sv ++ rest
      = 34 :: (nxt_conf_json_escape_emit sv.strContent ++ 34 :: rest) := by
    simp [nxt_conf_json_print_string_emit, List.append_assoc]
  rw [hassoc]
  simp only [nxt_conf_json_parse_string]
  rw [strScan_emit sv.strContent rest h2]
  simp only []
  by_cases hz : escSurplus sv.strContent = 0
  · rw [if_pos hz]
    have hee := escSurplus_zero sv.strContent h2 hz
    split
    · exact ⟨.string (nxt_conf_json_escape_emit sv.strContent), rfl, rfl, hee⟩
    · exact ⟨.shortString (nxt_conf_json_escape_emit sv.strContent), rfl, rfl, hee⟩
  · rw [if_neg hz]
    have hdec : strDecode (nxt_conf_json_escape_emit sv.strContent) = some sv.strContent :=
      strDecodeAux_emit ((nxt_conf_json_escape_emit sv.strContent).length + 1)
        sv.strContent h2 (le_refl _)
    rw [hdec]
    simp only []
    split
    · exact ⟨.string sv.strContent, rfl, rfl, rfl⟩
    · exact ⟨.shortString sv.strContent, rfl, rfl, rfl⟩

/-!  ## C3: compact print / re-parse roundtrip -/

/-- Bytes of a compact array after its first element: `, element`
repeated, then the closing bracket. -/
def arrSep : CVals → List Nat
  | .nil => [93]
  | .cons e tl => 44 :: (printCompact e ++ arrSep tl)

/-- One compact object member: name, ':', value. -/
def memberBytes (n v : CVal) : List Nat :=
  nxt_conf_json_print_string_emit n ++ 58 :: printCompact v

/-- Bytes of a compact object from its first member on: the members
separated by ',', then the closing brace. -/
def membersBytes : CMembers → List Nat
  | .nil => [125]
  | .cons n v .nil => memberBytes n v ++ [125]
  | .cons n v tl => memberBytes n v ++ 44 :: membersBytes tl

/-- Append on element lists (the order the element loop accumulates). -/
def CVals.appendV : CVals → CVals → CVals
  | .nil, es => es
  | .cons v tl, es => .cons v (CVals.appendV tl es)

/-- Append on member lists (the order the member loop accumulates). -/
def CMembers.appendM : CMembers → CMembers → CMembers
  | .nil, ms => ms
  | .cons n v tl, ms => .cons n v (CMembers.appendM tl ms)

theorem CVals.appendV_nil : ∀ acc : CVals, CVals.appendV acc .nil = acc
  | .nil => rfl
  | .cons v tl => by simp [CVals.appendV, CVals.appendV_nil tl]

theorem CVals.push_appendV : ∀ (acc : CVals) (v : CVal) (es : CVals),
    CVals.appendV (acc.push v) es = CVals.appendV acc (.cons v es)
  | .nil, _, _ => rfl
  | .cons v0 tl, v, es => by
    simp [CVals.push, CVals.appendV, CVals.push_appendV tl v es]

theorem CVals.appendV_single (acc : CVals) (v : CVal) :
    CVals.appendV acc (.cons v .nil) = acc.push v := by
  rw [CVals.push_appendV acc v .nil |>.symm, CVals.appendV_nil]

theorem CMembers.appendM_nil : ∀ acc : CMembers, CMembers.appendM acc .nil = acc
  | .nil => rfl
  | .cons n v tl => by simp [CMembers.appendM, CMembers.appendM_nil tl]

theorem CMembers.push_appendM : ∀ (acc : CMembers) (n v : CVal) (ms : CMembers),
    CMembers.appendM (acc.push n v) ms = CMembers.appendM acc (.cons n v ms)
  | .nil, _, _, _ => rfl
  | .cons n0 v0 tl, n, v, ms => by
    simp [CMembers.push, CMembers.appendM, CMembers.push_appendM tl n v ms]

theorem CMembers.appendM_single (acc : CMembers) (n v : CVal) :
    CMembers.appendM acc (.cons n v .nil) = acc.push n v := by
  rw [CMembers.push_appendM acc n v .nil |>.symm, CMembers.appendM_nil]

/-- The compact array-rest emission followed by the closing bracket is
exactly `arrSep`. -/
theorem arrRestEmit_compact : ∀ tl : CVals, (arrRestEmit tl none).1 ++ [93] = arrSep tl
  | .nil => rfl
  | .cons e tl2 => by
    have h0 := emit_none_state e
    have ih := arrRestEmit_compact tl2
    simp only [arrRestEmit, h0, arrSep]
    rw [← ih]
    simp [printCompact, List.append_assoc]

/-- The compact member-loop emission followed by the closing brace is
exactly `membersBytes`. -/
theorem objMembersEmit_compact : ∀ (n v : CVal) (tl : CMembers),
    (objMembersEmit (.cons n v tl) none).1 ++ [125] = membersBytes (.cons n v tl)
  | n, v, .nil => by
    have h0 := emit_none_state v
    simp [objMembersEmit, membersBytes, memberBytes, printCompact, List.append_assoc, h0]
  | n, v, .cons n2 v2 tl2 => by
    have h0 := emit_none_state v
    have ih := objMembersEmit_compact n2 v2 tl2
    rw [objMembersEmit.eq_5]
    simp only [h0, membersBytes, memberBytes]
    rw [← ih]
    simp [memberBytes, printCompact, List.append_assoc]

/-- Compact print of a non-empty array: bracket, first element,
`arrSep`. -/
theorem printCompact_array (e : CVal) (tl : CVals) :
    printCompact (.array (.cons e tl)) = 91 :: (printCompact e ++ arrSep tl) := by
  have h0 := emit_none_state e
  have h1 := arrRest_none_state tl
  simp only [printCompact, nxt_conf_json_print_value_emit, h0, h1]
  rw [← arrRestEmit_compact tl]
  simp [printCompact, List.append_assoc]

/-- Compact print of a non-empty object: brace, then `membersBytes`. -/
theorem printCompact_object (n v : CVal) (tl : CMembers) :
    printCompact (.object (.cons n v tl)) = 123 :: membersBytes (.cons n v tl) := by
  have h1 := objMembers_none_state (.cons n v tl)
  simp only [printCompact, nxt_conf_json_print_value_emit, h1]
  rw [← objMembersEmit_compact n v tl]
  simp [List.append_assoc]

/-- The first byte a compact print can start with. -/
theorem printCompact_head (v : CVal) (hg : v.good = true) :
    ∃ c t, printCompact v = c :: t ∧
      (c = 110 ∨ c = 116 ∨ c = 102 ∨ c = 45 ∨ (48 ≤ c ∧ c ≤ 57) ∨ c = 34 ∨ c = 91 ∨
        c = 123) := by
  cases v with
  | null => exact ⟨110, _, rfl, by omega⟩
  | boolean b =>
    cases b with
    | true => exact ⟨116, _, rfl, by omega⟩
    | false => exact ⟨102, _, rfl, by omega⟩
  | integer i =>
    by_cases hneg : i < 0
    · refine ⟨45, natDigits i.natAbs, ?_, by omega⟩
      simp [printCompact, nxt_conf_json_print_value_emit, nxt_conf_json_print_integer_emit,
        hneg]
    · obtain ⟨d, t, hdt, h1, h2, _⟩ := natDigits_head i.natAbs
      refine ⟨d, t, ?_, by omega⟩
      simp [printCompact, nxt_conf_json_print_value_emit, nxt_conf_json_print_integer_emit,
        hneg, hdt]
  | number => simp [CVal.good] at hg
  | shortString s => exact ⟨34, _, rfl, by omega⟩
  | string s => exact ⟨34, _, rfl, by omega⟩
  | array es =>
    cases es with
    | nil => exact ⟨91, _, rfl, by omega⟩
    | cons e tl => exact ⟨91, _, printCompact_array e tl, by omega⟩
  | object ms =>
    cases ms with
    | nil => exact ⟨123, _, rfl, by omega⟩
    | cons n v0 tl => exact ⟨123, _, printCompact_object n v0 tl, by omega⟩

/-- Equivalence of any two string values with the same content. -/
theorem CVal.eqv_of_str (a b : CVal) (ha : a.isStr = true) (hb : b.isStr = true)
    (h : a.strContent = b.strContent) : CVal.eqv a b = true := by
  cases a <;> cases b <;> simp_all [CVal.isStr, CVal.strContent, CVal.eqv]

/-- What follows a printed array element is a legal stop byte. -/
theorem restStop_arrSep (tl : CVals) (rest : List Nat) : restStop (arrSep tl ++ rest) := by
  cases tl <;> simp [arrSep, restStop]

theorem arrSep_len_pos (tl : CVals) : 1 ≤ (arrSep tl).length := by
  cases tl <;> simp [arrSep]

theorem printCompact_len_pos (v : CVal) (hg : v.good = true) :
    1 ≤ (printCompact v).length := by
  obtain ⟨c, t, hct, _⟩ := printCompact_head v hg
  rw [hct]; simp

theorem CMembers.hasKey_tail (n v : CVal) (tl : CMembers) (k : List Nat)
    (h : tl.hasKey k = true) : (CMembers.cons n v tl).hasKey k = true := by
  simp [CMembers.hasKey, h]

/-- Dispatch of `nxt_conf_json_parse_value` on a number head. -/
theorem parse_value_dispatch_number (f c : Nat) (t : List Nat)
    (hc : c = 45 ∨ (48 ≤ c ∧ c ≤ 57)) :
    nxt_conf_json_parse_value (f + 1) (c :: t) = nxt_conf_json_parse_number (c :: t) := by
  simp only [nxt_conf_json_parse_value]
  rw [if_neg (by omega), if_neg (by omega), if_neg (by omega), if_neg (by omega),
    if_neg (by omega), if_neg (by omega), if_pos (by omega)]

/-- Dispatch of `nxt_conf_json_parse_value` on a quote head. -/
theorem parse_value_dispatch_string (f : Nat) (t : List Nat) :
    nxt_conf_json_parse_value (f + 1) (34 :: t) = nxt_conf_json_parse_string (34 :: t) := by
  simp [nxt_conf_json_parse_value]

/-- Dispatch of `nxt_conf_json_parse_value` on an array head. -/
theorem parse_value_dispatch_array (f : Nat) (t : List Nat) :
    nxt_conf_json_parse_value (f + 1) (91 :: t) = nxt_conf_json_parse_array f (91 :: t) := by
  simp [nxt_conf_json_parse_value]

/-- Dispatch of `nxt_conf_json_parse_value` on an object head. -/
theorem parse_value_dispatch_object (f : Nat) (t : List Nat) :
    nxt_conf_json_parse_value (f + 1) (123 :: t) =
      nxt_conf_json_parse_object f (123 :: t) := by
  simp [nxt_conf_json_parse_value]

/-- Entering the element loop of a non-empty array. -/
theorem parse_array_step (g c : Nat) (t : List Nat)
    (hns : ¬(c = 32 ∨ c = 9 ∨ c = 13 ∨ c = 10)) (h93 : c ≠ 93) :
    nxt_conf_json_parse_array (g + 1) (91 :: c :: t) = arrElementLoop g (c :: t) .nil := by
  simp only [nxt_conf_json_parse_array, List.drop_succ_cons, List.drop_zero]
  rw [skip_space_id c t hns]
  split
  · rename_i h
    simp at h
  · rename_i tl5 h
    injection h with h1 h2
    exact absurd h1 h93
  · rfl

/-- The bytes of a non-empty compact object body always start with a
quote. -/
theorem membersBytes_head (n v : CVal) (tl : CMembers) (rest : List Nat) :
    ∃ W, membersBytes (.cons n v tl) ++ rest = 34 :: W := by
  cases tl with
  | nil =>
    refine ⟨(nxt_conf_json_escape_emit n.strContent ++ [34]) ++
      (58 :: (printCompact v ++ (125 :: rest))), ?_⟩
    simp [membersBytes, memberBytes, nxt_conf_json_print_string_emit, List.append_assoc]
  | cons n2 v2 tl2 =>
    refine ⟨(nxt_conf_json_escape_emit n.strContent ++ [34]) ++
      (58 :: (printCompact v ++ (44 :: (membersBytes (.cons n2 v2 tl2) ++ rest)))), ?_⟩
    simp [membersBytes, memberBytes, nxt_conf_json_print_string_emit, List.append_assoc]

/-- A string value's compact print is the string emission. -/
theorem printCompact_str (sv : CVal) (hs : sv.isStr = true) :
    printCompact sv = nxt_conf_json_print_string_emit sv := by
  cases sv <;> simp_all [printCompact, nxt_conf_json_print_value_emit, CVal.isStr]

/-- Value-level roundtrip for string values. -/
theorem roundtrip_str (sv : CVal) (rest : List Nat) (f : Nat) (hs : sv.isStr = true)
    (hg : GoodStr sv.strContent = true) :
    ∃ v', nxt_conf_json_parse_value (f + 1) (printCompact sv ++ rest) = some (v', rest) ∧
      CVal.eqv sv v' = true := by
  obtain ⟨sv', hps, hs', hc⟩ := parse_string_roundtrip sv rest hs hg
  have hform : nxt_conf_json_print_string_emit sv ++ rest
      = 34 :: ((nxt_conf_json_escape_emit sv.strContent ++ [34]) ++ rest) := by
    simp [nxt_conf_json_print_string_emit, List.append_assoc]
  refine ⟨sv', ?_, CVal.eqv_of_str sv sv' hs hs' hc.symm⟩
  rw [printCompact_str sv hs, hform, parse_value_dispatch_string, ← hform]
  exact hps

theorem CMembers.good_parts (n v : CVal) (tl : CMembers)
    (hg : (CMembers.cons n v tl).good = true) :
    n.isStr = true ∧ GoodStr n.strContent = true ∧ v.good = true ∧
      tl.hasKey n.strContent = false ∧ tl.good = true := by
  simp only [CMembers.good, Bool.and_eq_true, Bool.not_eq_true'] at hg
  exact ⟨hg.1.1.1.1, hg.1.1.1.2, hg.1.1.2, hg.1.2, hg.2⟩

mutual

/-- Re-parsing a compact print of a good value yields an equivalent
value and stops exactly at the printed bytes' end. -/
theorem roundtrip_value : ∀ (v : CVal) (rest : List Nat) (fuel : Nat), v.good = true →
    restStop rest → 2 * (printCompact v).length ≤ fuel →
    ∃ v', nxt_conf_json_parse_value fuel (printCompact v ++ rest) = some (v', rest) ∧
      CVal.eqv v v' = true
  | .null, rest, fuel, _, _, hfuel => by
    cases fuel with
    | zero => simp [printCompact, nxt_conf_json_print_value_emit] at hfuel
    | succ f =>
      refine ⟨.null, ?_, rfl⟩
      show nxt_conf_json_parse_value (f + 1) ([110, 117, 108, 108] ++ rest)
        = some (.null, rest)
      simp [nxt_conf_json_parse_value, Nat.le_add_left]
  | .boolean b, rest, fuel, _, _, hfuel => by
    cases b with
    | true =>
      cases fuel with
      | zero => simp [printCompact, nxt_conf_json_print_value_emit] at hfuel
      | succ f =>
        refine ⟨.boolean true, ?_, rfl⟩
        show nxt_conf_json_parse_value (f + 1) ([116, 114, 117, 101] ++ rest)
          = some (.boolean true, rest)
        simp [nxt_conf_json_parse_value, Nat.le_add_left]
    | false =>
      cases fuel with
      | zero => simp [printCompact, nxt_conf_json_print_value_emit] at hfuel
      | succ f =>
        refine ⟨.boolean false, ?_, rfl⟩
        show nxt_conf_json_parse_value (f + 1) ([102, 97, 108, 115, 101] ++ rest)
          = some (.boolean false, rest)
        simp [nxt_conf_json_parse_value, Nat.le_add_left]
  | .integer i, rest, fuel, hg, hstop, hfuel => by
    have hb : i.natAbs ≤ 9223372036854775807 := by simpa [CVal.good] using hg
    cases fuel with
    | zero =>
      obtain ⟨c, t, hct, _⟩ := printCompact_head (.integer i) hg
      rw [hct] at hfuel
      simp at hfuel
    | succ f =>
      have hpn := parse_number_roundtrip i rest hb hstop
      refine ⟨.integer i, ?_, by simp [CVal.eqv]⟩
      have hpc : printCompact (.integer i) = nxt_conf_json_print_integer_emit i := rfl
      rw [hpc]
      by_cases hneg : i < 0
      · have hemit : nxt_conf_json_print_integer_emit i = 45 :: natDigits i.natAbs := by
          simp [nxt_conf_json_print_integer_emit, hneg]
        rw [hemit, List.cons_append] at hpn ⊢
        rw [parse_value_dispatch_number f 45 _ (Or.inl rfl)]
        exact hpn
      · obtain ⟨d, t, hdt, h48, h57, _⟩ := natDigits_head i.natAbs
        have hemit : nxt_conf_json_print_integer_emit i = natDigits i.natAbs := by
          simp [nxt_conf_json_print_integer_emit, hneg]
        rw [hemit, hdt, List.cons_append] at hpn ⊢
        rw [parse_value_dispatch_number f d _ (Or.inr ⟨h48, h57⟩)]
        exact hpn
  | .number, rest, fuel, hg, hstop, hfuel => by simp [CVal.good] at hg
  | .shortString s, rest, fuel, hg, hstop, hfuel => by
    cases fuel with
    | zero =>
      simp [printCompact, nxt_conf_json_print_value_emit,
        nxt_conf_json_print_string_emit] at hfuel
    | succ f => exact roundtrip_str (.shortString s) rest f rfl hg
  | .string s, rest, fuel, hg, hstop, hfuel => by
    cases fuel with
    | zero =>
      simp [printCompact, nxt_conf_json_print_value_emit,
        nxt_conf_json_print_string_emit] at hfuel
    | succ f => exact roundtrip_str (.string s) rest f rfl hg
  | .array .nil, rest, fuel, _, _, hfuel => by
    cases fuel with
    | zero => simp [printCompact, nxt_conf_json_print_value_emit] at hfuel
    | succ f =>
      cases f with
      | zero => simp [printCompact, nxt_conf_json_print_value_emit] at hfuel
      | succ g =>
        refine ⟨.array .nil, ?_, rfl⟩
        show nxt_conf_json_parse_value (g + 1 + 1) (91 :: 93 :: rest)
          = some (.array .nil, rest)
        rw [parse_value_dispatch_array]
        simp [nxt_conf_json_parse_array, nxt_conf_json_skip_space]
  | .array (.cons e tl), rest, fuel, hg, hstop, hfuel => by
    have hge : e.good = true ∧ tl.good = true := by
      simpa [CVal.good, CVals.good] using hg
    rw [printCompact_array] at hfuel
    cases fuel with
    | zero => simp at hfuel
    | succ f =>
      cases f with
      | zero => simp [List.length_cons] at hfuel; omega
      | succ g =>
        obtain ⟨c, t, hct, hset⟩ := printCompact_head e hge.1
        obtain ⟨es', hloop, heqv⟩ := roundtrip_arrLoop e tl .nil rest g hge.1 hge.2 hstop
          (by simp only [List.length_cons] at hfuel; omega)
        refine ⟨.array es', ?_, by simpa [CVal.eqv] using heqv⟩
        rw [printCompact_array, List.cons_append, parse_value_dispatch_array]
        have hX : (printCompact e ++ arrSep tl) ++ rest
            = c :: (t ++ (arrSep tl ++ rest)) := by
          rw [hct]; simp [List.append_assoc]
        rw [hX, parse_array_step g c _ (by omega) (by omega), ← hX]
        exact hloop
  | .object .nil, rest, fuel, _, _, hfuel => by
    cases fuel with
    | zero => simp [printCompact, nxt_conf_json_print_value_emit] at hfuel
    | succ f =>
      cases f with
      | zero => simp [printCompact, nxt_conf_json_print_value_emit] at hfuel
      | succ g =>
        refine ⟨.object .nil, ?_, rfl⟩
        show nxt_conf_json_parse_value (g + 1 + 1) (123 :: 125 :: rest)
          = some (.object .nil, rest)
        rw [parse_value_dispatch_object]
        simp [nxt_conf_json_parse_object, nxt_conf_json_skip_space]
  | .object (.cons n v tl), rest, fuel, hg, hstop, hfuel => by
    have hgm : (CMembers.cons n v tl).good = true := by
      simpa [CVal.good] using hg
    rw [printCompact_object] at hfuel
    cases fuel with
    | zero => simp at hfuel
    | succ f =>
      cases f with
      | zero => simp [List.length_cons] at hfuel; omega
      | succ g =>
        obtain ⟨ms', hloop, heqv⟩ := roundtrip_objLoop n v tl .nil rest g hgm
          (fun k _ => rfl) hstop
          (by simp only [List.length_cons] at hfuel; omega)
        refine ⟨.object ms', ?_, by simpa [CVal.eqv] using heqv⟩
        rw [printCompact_object, List.cons_append, parse_value_dispatch_object]
        simp only [nxt_conf_json_parse_object, List.drop_succ_cons, List.drop_zero]
        obtain ⟨W, hW⟩ := membersBytes_head n v tl rest
        rw [hW, skip_space_id 34 _ (by omega)]
        simp only []
        rw [← hW]
        exact hloop

termination_by v => v.treeSize
decreasing_by
  all_goals simp [CVal.treeSize, CVals.treeSize, CMembers.treeSize]
  all_goals omega

/-- The element loop consumes `element (, element)* ]` and appends the
re-parsed elements to the accumulator. -/
theorem roundtrip_arrLoop : ∀ (e : CVal) (tl : CVals) (acc : CVals) (rest : List Nat)
    (fuel : Nat), e.good = true → tl.good = true → restStop rest →
    2 * (printCompact e ++ arrSep tl).length ≤ fuel →
    ∃ es', arrElementLoop fuel ((printCompact e ++ arrSep tl) ++ rest) acc
        = some (.array (CVals.appendV acc es'), rest) ∧ CVals.eqv (.cons e tl) es' = true
  | e, .nil, acc, rest, fuel, hg, _, hstop, hfuel => by
    cases fuel with
    | zero =>
      exfalso
      have h1 := printCompact_len_pos e hg
      simp only [List.length_append, arrSep, List.length_cons, List.length_nil] at hfuel
      omega
    | succ h =>
      obtain ⟨v', hpv, heqv⟩ := roundtrip_value e (arrSep .nil ++ rest) h hg
        (restStop_arrSep .nil rest)
        (by
          simp only [List.length_append, arrSep, List.length_cons, List.length_nil] at hfuel
          omega)
      simp only [arrElementLoop]
      have hassoc : (printCompact e ++ arrSep .nil) ++ rest
          = printCompact e ++ (arrSep .nil ++ rest) := by
        simp [List.append_assoc]
      rw [hassoc, hpv]
      simp only []
      rw [show arrSep .nil ++ rest = 93 :: rest from rfl,
        skip_space_id 93 rest (by omega)]
      refine ⟨.cons v' .nil, ?_, by simp [CVals.eqv, heqv]⟩
      simp [CVals.appendV_single]
  | e, .cons e2 tl2, acc, rest, fuel, hg, hgt, hstop, hfuel => by
    cases fuel with
    | zero =>
      exfalso
      have h1 := printCompact_len_pos e hg
      simp only [List.length_append, arrSep, List.length_cons] at hfuel
      omega
    | succ h =>
      have hge2 : e2.good = true ∧ tl2.good = true := by simpa [CVals.good] using hgt
      obtain ⟨v', hpv, heqv⟩ := roundtrip_value e (arrSep (.cons e2 tl2) ++ rest) h hg
        (restStop_arrSep _ rest)
        (by
          have h2 := arrSep_len_pos (.cons e2 tl2)
          simp only [List.length_append] at hfuel
          omega)
      simp only [arrElementLoop]
      have hassoc : (printCompact e ++ arrSep (.cons e2 tl2)) ++ rest
          = printCompact e ++ (arrSep (.cons e2 tl2) ++ rest) := by
        simp [List.append_assoc]
      rw [hassoc, hpv]
      simp only []
      have hsep : arrSep (.cons e2 tl2) ++ rest
          = 44 :: ((printCompact e2 ++ arrSep tl2) ++ rest) := by
        simp [arrSep, List.append_assoc]
      rw [hsep, skip_space_id 44 _ (by omega)]
      simp only []
      obtain ⟨c2, t2, hct2, hset2⟩ := printCompact_head e2 hge2.1
      have hform2 : (printCompact e2 ++ arrSep tl2) ++ rest
          = c2 :: (t2 ++ (arrSep tl2 ++ rest)) := by
        rw [hct2]; simp [List.append_assoc]
      rw [hform2, skip_space_id c2 _ (by omega)]
      simp only []
      rw [← hform2]
      obtain ⟨es2', hloop2, heqv2⟩ := roundtrip_arrLoop e2 tl2 (acc.push v') rest h
        hge2.1 hge2.2 hstop
        (by
          have h1 := printCompact_len_pos e hg
          simp only [arrSep, List.length_append, List.length_cons] at hfuel ⊢
          omega)
      refine ⟨.cons v' es2', ?_, by simp [CVals.eqv, heqv, heqv2]⟩
      rw [hloop2, CVals.push_appendV]
termination_by e tl => (CVals.cons e tl).treeSize
decreasing_by
  all_goals simp [CVal.treeSize, CVals.treeSize, CMembers.treeSize]
  all_goals omega

/-- The member loop consumes `member (, member)* }` and appends the
re-parsed members (fresh names, same content) to the accumulator. -/
theorem roundtrip_objLoop : ∀ (n v : CVal) (tl : CMembers) (acc : CMembers)
    (rest : List Nat) (fuel : Nat), (CMembers.cons n v tl).good = true →
    (∀ k, (CMembers.cons n v tl).hasKey k = true → acc.hasKey k = false) →
    restStop rest → 2 * (membersBytes (.cons n v tl)).length ≤ fuel →
    ∃ ms', objMemberLoop fuel (membersBytes (.cons n v tl) ++ rest) acc
        = some (.object (CMembers.appendM acc ms'), rest) ∧
      CMembers.eqv (.cons n v tl) ms' = true
  | n, v, .nil, acc, rest, fuel, hg, hk, hstop, hfuel => by
    obtain ⟨hn, hns, hv, _, _⟩ := CMembers.good_parts n v .nil hg
    cases fuel with
    | zero =>
      exfalso
      simp only [membersBytes, memberBytes, nxt_conf_json_print_string_emit,
        List.length_append, List.length_cons, List.length_nil] at hfuel
      omega
    | succ h =>
      obtain ⟨n', hps, hn's, hn'c⟩ := parse_string_roundtrip n
        (58 :: (printCompact v ++ (125 :: rest))) hn hns
      have hkf : acc.hasKey n'.strContent = false := by
        rw [hn'c]
        exact hk n.strContent (by simp [CMembers.hasKey])
      obtain ⟨c, t, hct, hset⟩ := printCompact_head v hv
      have hin : membersBytes (.cons n v .nil) ++ rest
          = nxt_conf_json_print_string_emit n ++ (58 :: (printCompact v ++ (125 :: rest))) := by
        simp [membersBytes, memberBytes, List.append_assoc]
      have hin34 : nxt_conf_json_print_string_emit n ++ (58 :: (printCompact v ++ (125 :: rest)))
          = 34 :: ((nxt_conf_json_escape_emit n.strContent ++ [34]) ++
              (58 :: (printCompact v ++ (125 :: rest)))) := by
        simp [nxt_conf_json_print_string_emit, List.append_assoc]
      obtain ⟨v', hpv, heqvv⟩ := roundtrip_value v (125 :: rest) h hv
        (by simp [restStop])
        (by
          simp only [membersBytes, memberBytes, nxt_conf_json_print_string_emit,
            List.length_append, List.length_cons, List.length_nil] at hfuel
          omega)
      refine ⟨.cons n' v' .nil, ?_, ?_⟩
      · rw [hin, hin34]
        simp only [objMemberLoop]
        rw [← hin34, hps]
        simp only []
        rw [hkf]
        simp only [Bool.false_eq_true, if_false]
        rw [skip_space_id 58 _ (by omega)]
        simp only []
        have hpvform : printCompact v ++ (125 :: rest) = c :: (t ++ (125 :: rest)) := by
          rw [hct]; simp
        rw [hpvform, skip_space_id c _ (by omega)]
        simp only []
        rw [← hpvform, hpv]
        simp only []
        rw [skip_space_id 125 _ (by omega)]
        simp only []
        rw [CMembers.appendM_single]
      · simp [CMembers.eqv, CVal.eqv_of_str n n' hn hn's hn'c.symm, heqvv]
  | n, v, .cons n2 v2 tl2, acc, rest, fuel, hg, hk, hstop, hfuel => by
    obtain ⟨hn, hns, hv, hnd, htl⟩ := CMembers.good_parts n v (.cons n2 v2 tl2) hg
    cases fuel with
    | zero =>
      exfalso
      simp only [membersBytes, memberBytes, nxt_conf_json_print_string_emit,
        List.length_append, List.length_cons, List.length_nil] at hfuel
      omega
    | succ h =>
      obtain ⟨n', hps, hn's, hn'c⟩ := parse_string_roundtrip n
        (58 :: (printCompact v ++ (44 :: (membersBytes (.cons n2 v2 tl2) ++ rest)))) hn hns
      have hkf : acc.hasKey n'.strContent = false := by
        rw [hn'c]
        exact hk n.strContent (by simp [CMembers.hasKey])
      obtain ⟨c, t, hct, hset⟩ := printCompact_head v hv
      have hin : membersBytes (.cons n v (.cons n2 v2 tl2)) ++ rest
          = nxt_conf_json_print_string_emit n ++
            (58 :: (printCompact v ++ (44 :: (membersBytes (.cons n2 v2 tl2) ++ rest)))) := by
        simp [membersBytes, memberBytes, List.append_assoc]
      have hin34 : nxt_conf_json_print_string_emit n ++
            (58 :: (printCompact v ++ (44 :: (membersBytes (.cons n2 v2 tl2) ++ rest))))
          = 34 :: ((nxt_conf_json_escape_emit n.strContent ++ [34]) ++
              (58 :: (printCompact v ++ (44 :: (membersBytes (.cons n2 v2 tl2) ++ rest))))) := by
        simp [nxt_conf_json_print_string_emit, List.append_assoc]
      obtain ⟨v', hpv, heqvv⟩ := roundtrip_value v
        (44 :: (membersBytes (.cons n2 v2 tl2) ++ rest)) h hv
        (by simp [restStop])
        (by
          simp only [membersBytes, memberBytes, nxt_conf_json_print_string_emit,
            List.length_append, List.length_cons, List.length_nil] at hfuel
          omega)
      have hk2 : ∀ k, (CMembers.cons n2 v2 tl2).hasKey k = true →
          ((acc.push n' v').hasKey k) = false := by
        intro k hkk
        rw [CMembers.hasKey_push]
        have h1 : acc.hasKey k = false :=
          hk k (CMembers.hasKey_tail n v _ k hkk)
        have h2 : ¬(n'.strContent = k) := by
          rw [hn'c]
          intro hek
          rw [← hek] at hkk
          rw [hnd] at hkk
          cases hkk
        simp [h1, h2]
      obtain ⟨ms2', hloop2, heqv2⟩ := roundtrip_objLoop n2 v2 tl2 (acc.push n' v')
        rest h htl hk2 hstop
        (by
          simp only [membersBytes, memberBytes, nxt_conf_json_print_string_emit,
            List.length_append, List.length_cons, List.length_nil] at hfuel
          omega)
      refine ⟨.cons n' v' ms2', ?_, ?_⟩
      · rw [hin, hin34]
        simp only [objMemberLoop]
        rw [← hin34, hps]
        simp only []
        rw [hkf]
        simp only [Bool.false_eq_true, if_false]
        rw [skip_space_id 58 _ (by omega)]
        simp only []
        have hpvform : printCompact v ++ (44 :: (membersBytes (.cons n2 v2 tl2) ++ rest))
            = c :: (t ++ (44 :: (membersBytes (.cons n2 v2 tl2) ++ rest))) := by
          rw [hct]; simp
        rw [hpvform, skip_space_id c _ (by omega)]
        simp only []
        rw [← hpvform, hpv]
        simp only []
        rw [skip_space_id 44 _ (by omega)]
        simp only []
        obtain ⟨W, hW⟩ := membersBytes_head n2 v2 tl2 rest
        rw [hW, skip_space_id 34 _ (by omega)]
        simp only []
        rw [← hW, hloop2, CMembers.push_appendM]
      · simp [CMembers.eqv, CVal.eqv_of_str n n' hn hn's hn'c.symm, heqvv, heqv2]
termination_by n v tl => (CMembers.cons n v tl).treeSize
decreasing_by
  all_goals simp [CVal.treeSize, CVals.treeSize, CMembers.treeSize]
  all_goals omega
end

/-- Feeding a good value's compact print back through the whole parser
succeeds and yields an equivalent value. -/
theorem printCompact_reparse (v : CVal) (hg : v.good = true) :
    ∃ v', nxt_conf_json_parse (printCompact v) = some v' ∧ CVal.eqv v v' = true := by
  obtain ⟨c, t, hct, hset⟩ := printCompact_head v hg
  obtain ⟨v', hpv, heqv⟩ := roundtrip_value v [] (3 * (printCompact v).length + 3) hg
    trivial (by omega)
  rw [List.append_nil] at hpv
  refine ⟨v', ?_, heqv⟩
  simp only [nxt_conf_json_parse]
  rw [hct] at hpv ⊢
  rw [skip_space_id c t (by omega)]
  simp only []
  rw [hpv]
  simp [nxt_conf_json_skip_space]

/-- C3: for every accepted input the parsed value, compact-printed and
re-parsed, comes back equivalent — structurally equal up to the
short-string/long-string representation tag (`CVal.eqv` is structural
equality except that the two string variants with the same content are
identified); object member order is preserved, not canonicalised. -/
theorem C3_roundtrip_equiv (l : List Nat) (v : CVal)
    (h : nxt_conf_json_parse l = some v) :
    ∃ v', nxt_conf_json_parse (printCompact v) = some v' ∧ CVal.eqv v v' = true :=
  printCompact_reparse v (nxt_conf_json_parse_good l v h)

/-- C3 witness: the roundtrip theorem applied to the concrete input
`{"a":1}`. -/
theorem C3_witness : ∃ v', nxt_conf_json_parse (printCompact (CVal.object
      (CMembers.cons (CVal.shortString [97]) (CVal.integer 1) CMembers.nil)))
      = some v' ∧
    CVal.eqv (CVal.object (CMembers.cons (CVal.shortString [97]) (CVal.integer 1)
      CMembers.nil)) v' = true :=
  C3_roundtrip_equiv [123, 34, 97, 34, 58, 49, 125]
    (CVal.object (CMembers.cons (CVal.shortString [97]) (CVal.integer 1) CMembers.nil))
    (by decide)

/-- C3 counterexample to literal structural equality: the 13-byte string
parsed from `"\u0042bbbbbbbbbbbb"` is stored as a long string (pre-decode
size estimate 15 > 14), but its compact print re-parses as a short
string, so `parse (print v)` is not structurally equal to `v`. -/
theorem C3_counterexample :
    nxt_conf_json_parse (bytes ("\"\\u0042bbbbbbbbbbbb\""))
      = some (.string [66, 98, 98, 98, 98, 98, 98, 98, 98, 98, 98, 98, 98]) ∧
    nxt_conf_json_parse (printCompact
        (.string [66, 98, 98, 98, 98, 98, 98, 98, 98, 98, 98, 98, 98]))
      = some (.shortString [66, 98, 98, 98, 98, 98, 98, 98, 98, 98, 98, 98, 98]) ∧
    (CVal.string [66, 98, 98, 98, 98, 98, 98, 98, 98, 98, 98, 98, 98]
      ≠ CVal.shortString [66, 98, 98, 98, 98, 98, 98, 98, 98, 98, 98, 98, 98]) := by
  decide
